import Mathlib

/-! AVL tree engine (`AVLTree.h`) and its functional extensions.

A shallow embedding of the AVL tree of `src/AVLTree.h` and of `Equals` from
`src/AVLTreeExtensions.h`.

* A `Node*` is a value of `Node α`: `Node.nil` is `nullptr`, `Node.node` a live node
  with the four fields of the C++ struct (`value`, `left`, `right`, `height`).
* The comparator `comp` of the class is an explicit parameter `comp : α → α → Bool`.
* Dereferencing `nullptr` is modelled by `none`: `rotateRight`, `rotateLeft`,
  `balance`, `insert` and `remove` return `Option (Node α)`.
* The cached `height` is a C++ `int`; it is an `Int` here.  A cached height never
  exceeds the number of nodes of the tree, so no wrap-around is modelled.
* A traversal taking a visitor `f` is modelled by the list of values handed to `f`, in
  the order of the calls.
* The tree only compares and copies its values, so `int` values are modelled by `Int`.
-/

namespace AVLTree

/-- The `Node` struct of `AVLTree<T, Compare>`; `nil` stands for `nullptr`. -/
inductive Node (α : Type) where
  | nil : Node α
  | node (value : α) (left : Node α) (right : Node α) (height : Int) : Node α
  deriving DecidableEq

variable {α : Type}

/-- `getHeight`: `node ? node->height : 0`. -/
def getHeight : Node α → Int
  | .nil => 0
  | .node _ _ _ h => h

/-- `updateHeight`: `node->height = 1 + max(getHeight(left), getHeight(right))` when the
node is present. -/
def updateHeight : Node α → Node α
  | .nil => .nil
  | .node v l r _ => .node v l r (1 + max (getHeight l) (getHeight r))

/-- `getBalance`: `0` for `nullptr`, else `getHeight(left) - getHeight(right)`. -/
def getBalance : Node α → Int
  | .nil => 0
  | .node _ l r _ => getHeight l - getHeight r

/-- `rotateRight(y)`: `x = y->left; y->left = x->right; x->right = y;` then the two
height updates (`y` first, then `x`).  Fails when `y` or `y->left` is `nullptr`. -/
def rotateRight : Node α → Option (Node α)
  | .node yv (.node xv xl xr xh) yr yh =>
    let y := updateHeight (.node yv xr yr yh)
    some (updateHeight (.node xv xl y xh))
  | _ => none

/-- `rotateLeft(x)`: `y = x->right; x->right = y->left; y->left = x;` then the two
height updates (`x` first, then `y`).  Fails when `x` or `x->right` is `nullptr`. -/
def rotateLeft : Node α → Option (Node α)
  | .node xv xl (.node yv yl yr yh) xh =>
    let x := updateHeight (.node xv xl yl xh)
    some (updateHeight (.node yv x yr yh))
  | _ => none

/-- `balance(node)`: refresh the height, then rotate according to the balance factor. -/
def balance : Node α → Option (Node α)
  | .nil => some .nil
  | .node v l r _ =>
    let h1 := 1 + max (getHeight l) (getHeight r)
    let balanceFactor := getHeight l - getHeight r
    if balanceFactor > 1 then
      if getBalance l ≥ 0 then
        rotateRight (.node v l r h1)
      else
        (rotateLeft l).bind (fun l1 => rotateRight (.node v l1 r h1))
    else if balanceFactor < -1 then
      if getBalance r ≤ 0 then
        rotateLeft (.node v l r h1)
      else
        (rotateRight r).bind (fun r1 => rotateLeft (.node v l r1 h1))
    else
      some (.node v l r h1)

/-- The private recursive `insert(node, value)`. -/
def insert (comp : α → α → Bool) : Node α → α → Option (Node α)
  | .nil, value => some (.node value .nil .nil 1)
  | .node x l r h, value =>
    if comp value x then
      (insert comp l value).bind (fun l1 => balance (.node x l1 r h))
    else if comp x value then
      (insert comp r value).bind (fun r1 => balance (.node x l r1 h))
    else
      some (.node x l r h)

/-- `findMin(node)`: follow `left` links while both the node and its left child are
present; the result is the pointer reached (`nil` only for an empty argument). -/
def findMin : Node α → Node α
  | .nil => .nil
  | .node v .nil r h => .node v .nil r h
  | .node _ (.node lv ll lr lh) _ _ => findMin (.node lv ll lr lh)

/-- The private recursive `remove(node, value)`.  In the two-children case the value of
the minimum of the right subtree is copied into the node and then removed from the
right subtree; `minRight->value` fails when `findMin` returned `nullptr`. -/
def remove (comp : α → α → Bool) : Node α → α → Option (Node α)
  | .nil, _ => some .nil
  | .node x l r h, value =>
    if comp value x then
      (remove comp l value).bind (fun l1 => balance (.node x l1 r h))
    else if comp x value then
      (remove comp r value).bind (fun r1 => balance (.node x l r1 h))
    else
      match l, r with
      | .nil, r => some r
      | .node lv ll lr lh, .nil => some (.node lv ll lr lh)
      | .node lv ll lr lh, .node rv rl rr rh =>
        match findMin (.node rv rl rr rh) with
        | .nil => none
        | .node m _ _ _ =>
          (remove comp (.node rv rl rr rh) m).bind
            (fun r1 => balance (.node m (.node lv ll lr lh) r1 h))

/-- The private `inorder(node, f)`: left, self, right. -/
def inorder : Node α → List α
  | .nil => []
  | .node v l r _ => inorder l ++ v :: inorder r

/-- The private `preorder(node, f)`: self, left, right. -/
def preorder : Node α → List α
  | .nil => []
  | .node v l r _ => v :: (preorder l ++ preorder r)

/-- `Insert(value)`: `root = insert(root, value)`. -/
def Insert (comp : α → α → Bool) (root : Node α) (value : α) : Option (Node α) :=
  insert comp root value

/-- `Remove(value)`: `root = remove(root, value)`. -/
def Remove (comp : α → α → Bool) (root : Node α) (value : α) : Option (Node α) :=
  remove comp root value

/-- `Contains(value)`: the iterative descent from the root; the loop variable `current`
is the first argument. -/
def Contains (comp : α → α → Bool) : Node α → α → Bool
  | .nil, _ => false
  | .node x l r _, value =>
    if !comp value x && !comp x value then true
    else if comp value x then Contains comp l value
    else Contains comp r value

/-- `InOrder(f)`: the values handed to `f`, in call order. -/
def InOrder (root : Node α) : List α := inorder root

/-- `GetHeight()`: the cached height of the root, `0` for the empty tree. -/
def GetHeight (root : Node α) : Int := getHeight root

/-- `Equals(a, b)` of `AVLTreeExtensions.h`: collect both in-order sequences into
vectors and compare them with `==`. -/
def Equals [DecidableEq α] (a b : Node α) : Bool :=
  decide (InOrder a = InOrder b)

/-- `std::less<T>`, the default comparator of `AVLTree<T>`: `a < b` on a linearly
ordered element type such as `int`. -/
def less [LinearOrder α] (a b : α) : Bool := decide (a < b)

/-- One public mutation of the tree. -/
inductive Op (α : Type) where
  | Insert (value : α) : Op α
  | Remove (value : α) : Op α
  deriving DecidableEq

/-- Run one public mutation on the tree rooted at `root`. -/
def applyOp (comp : α → α → Bool) (root : Node α) : Op α → Option (Node α)
  | .Insert v => Insert comp root v
  | .Remove v => Remove comp root v

/-- Run a sequence of public mutations, left to right. -/
def applyOps (comp : α → α → Bool) : Node α → List (Op α) → Option (Node α)
  | root, [] => some root
  | root, op :: ops => (applyOp comp root op).bind (fun r => applyOps comp r ops)

/-- The trees reachable from the empty tree by `Insert`/`Remove`. -/
def Reachable (comp : α → α → Bool) (t : Node α) : Prop :=
  ∃ ops : List (Op α), applyOps comp .nil ops = some t

/-! ## Specification-level notions -/

/-- The true height: the number of nodes on the longest root-to-leaf path. -/
def realHeight : Node α → Nat
  | .nil => 0
  | .node _ l r _ => 1 + max (realHeight l) (realHeight r)

/-- Height-cache invariant: every stored `height` is `1 + max` of the children's
`getHeight` (which is `0` for an absent child). -/
def HeightCached : Node α → Prop
  | .nil => True
  | .node _ l r h => h = 1 + max (getHeight l) (getHeight r) ∧ HeightCached l ∧ HeightCached r

/-- AVL balance invariant on true heights: at every node the heights of the two
subtrees differ by at most one. -/
def Balanced : Node α → Prop
  | .nil => True
  | .node _ l r _ =>
    realHeight l ≤ realHeight r + 1 ∧ realHeight r ≤ realHeight l + 1 ∧ Balanced l ∧ Balanced r

/-- Search-tree invariant: at every node the values of the left subtree precede the
node's value and the values of the right subtree follow it. -/
def BST (comp : α → α → Bool) : Node α → Prop
  | .nil => True
  | .node x l r _ =>
    (∀ y ∈ inorder l, comp y x = true) ∧ (∀ y ∈ inorder r, comp x y = true) ∧
      BST comp l ∧ BST comp r

/-- Equivalence under the ordering: neither value precedes the other. -/
def Equiv (comp : α → α → Bool) (a b : α) : Prop :=
  comp a b = false ∧ comp b a = false

instance (comp : α → α → Bool) (a b : α) : Decidable (Equiv comp a b) :=
  inferInstanceAs (Decidable (comp a b = false ∧ comp b a = false))

/-- The comparator is a strict weak order. -/
structure StrictWeakOrder (comp : α → α → Bool) : Prop where
  irrefl : ∀ a, comp a a = false
  trans : ∀ a b c, comp a b = true → comp b c = true → comp a c = true
  equiv_trans : ∀ a b c, Equiv comp a b → Equiv comp b c → Equiv comp a c

/-- Working form of the two shape invariants, stated on cached heights. -/
def AVL : Node α → Prop
  | .nil => True
  | .node _ l r h =>
    AVL l ∧ AVL r ∧ h = 1 + max (getHeight l) (getHeight r) ∧
      getHeight l - getHeight r ≤ 1 ∧ getHeight r - getHeight l ≤ 1

/-- Insertion into an ascending list, mirroring the descent of `insert`: the value goes
in front of the first element it precedes and is dropped when an equivalent element is
met first. -/
def listInsert (comp : α → α → Bool) (v : α) : List α → List α
  | [] => [v]
  | x :: xs =>
    if comp v x then v :: x :: xs
    else if comp x v then x :: listInsert comp v xs
    else x :: xs

/-- Removal from an ascending list, mirroring the descent of `remove`: the first element
equivalent to the value is dropped, if the value does not precede an earlier one. -/
def listRemove (comp : α → α → Bool) (v : α) : List α → List α
  | [] => []
  | x :: xs =>
    if comp v x then x :: xs
    else if comp x v then x :: listRemove comp v xs
    else xs

/-- The in-order sequence is strictly ascending under `comp`. -/
def Ascending (comp : α → α → Bool) (l : List α) : Prop :=
  l.Pairwise (fun a b => comp a b = true)

/-- The abstract set of the specification: `Insert` adds the value, `Remove` deletes
it. -/
def absApply (s : Finset Int) : Op Int → Finset Int
  | .Insert v => s ∪ {v}
  | .Remove v => s.erase v

/-- The abstract set obtained by applying a sequence of operations to the empty set. -/
def absRun (ops : List (Op Int)) : Finset Int :=
  ops.foldl absApply ∅

/-- The tree built by `Insert` of 5, 3, 7, 2 into an empty `AVLTree<int>`. -/
def tree5372 : Node Int :=
  .node 5 (.node 3 (.node 2 .nil .nil 1) .nil 2) (.node 7 .nil .nil 1) 3

/-- The tree left by `Remove(5)` on `tree5372`: the root had two children, its
successor 7 took its place and a right rotation followed. -/
def tree372 : Node Int :=
  .node 3 (.node 2 .nil .nil 1) (.node 7 .nil .nil 1) 2

/-- The number of nodes of a tree. -/
def size : Node α → Nat
  | .nil => 0
  | .node _ l r _ => 1 + size l + size r

/-- Checks `2 ^ (25 * (h - 1)) < (a + 1) ^ 36` for `fuel` consecutive heights starting
at `h`, where `a` and `b` run through consecutive Fibonacci numbers.  With
`a = fib (h + 2)` this is `h - 1 < 1.44 * log2 (fib (h + 2) + 1)` in integers. -/
def fibBoundCheck : Nat → Nat → Nat → Nat → Bool
  | 0, _, _, _ => true
  | fuel + 1, h, a, b =>
    decide (2 ^ (25 * (h - 1)) < (a + 1) ^ 36) && fibBoundCheck fuel (h + 1) b (a + b)

/-- The values 0, 1, ..., 99 in ascending order. -/
def values0to99 : List Int := (List.range 100).map Int.ofNat

/-- The tree `s` is a top part of `t`: same root value, and the subtrees of `s` are top
parts of the subtrees of `t` (cached heights aside). -/
def TopPart : Node α → Node α → Prop
  | .nil, _ => True
  | .node _ _ _ _, .nil => False
  | .node v l r _, .node w l1 r1 _ => v = w ∧ TopPart l l1 ∧ TopPart r r1

/-- The Fibonacci tree of height `h`: the sparsest AVL shape, a left subtree of height
`h - 1` and a right subtree of height `h - 2`, holding the consecutive integers from
`lo` on in in-order position. -/
def fibTree : Nat → Int → Node Int
  | 0, _ => .nil
  | 1, lo => .node lo .nil .nil 1
  | h + 2, lo =>
    .node (lo + (Nat.fib (h + 3) : Int) - 1) (fibTree (h + 1) lo)
      (fibTree h (lo + (Nat.fib (h + 3) : Int))) ((h : Int) + 2)

/-! ## Further operations of the engine and of the extension layers -/

/-- The private `postorder(node, f)`: left, right, self. -/
def postorder : Node α → List α
  | .nil => []
  | .node v l r _ => postorder l ++ (postorder r ++ [v])

/-- `PreOrder(f)`: the values handed to `f`, in call order. -/
def PreOrder (root : Node α) : List α := preorder root

/-- `PostOrder(f)`: the values handed to `f`, in call order. -/
def PostOrder (root : Node α) : List α := postorder root

/-- `IsSameTree(a, b)` of `AVLTreeTraversalTemplates.h`: collect both pre-order
sequences into vectors and compare them with `==`. -/
def IsSameTree [DecidableEq α] (a b : Node α) : Bool :=
  decide (PreOrder a = PreOrder b)

/-- The loop `for (val : values) tree->Insert(val)`: insert the values from left to
right, starting from `tree`. -/
def insertAll (comp : α → α → Bool) : List α → Node α → Option (Node α)
  | [], tree => some tree
  | val :: values, tree => (Insert comp tree val).bind (insertAll comp values)

/-- `Map(tree, func)`: visit the source in order and insert `func(value)` into a fresh
tree with the default ordering of the result type. -/
def Map {β : Type} [LinearOrder β] (tree : Node α) (func : α → β) : Option (Node β) :=
  insertAll less ((InOrder tree).map func) .nil

/-- The visitor loop of `Where`: `if (predicate(value)) result->Insert(value)`. -/
def whereLoop [LinearOrder α] (predicate : α → Bool) : List α → Node α → Option (Node α)
  | [], result => some result
  | value :: rest, result =>
    if predicate value then
      (Insert less result value).bind (whereLoop predicate rest)
    else
      whereLoop predicate rest result

/-- `Where(tree, predicate)`: visit the source in order and insert the values that
satisfy the predicate into a fresh tree. -/
def Where [LinearOrder α] (tree : Node α) (predicate : α → Bool) : Option (Node α) :=
  whereLoop predicate (InOrder tree) .nil

/-- The visitor loop of `ExtractSubtree`, with the captured `found` flag as state:
`if (found) result->Insert(value); if (value == key) { result->Insert(value); found = true; }`. -/
def extractLoop [LinearOrder α] (key : α) : List α → Node α → Bool → Option (Node α)
  | [], result, _ => some result
  | value :: rest, result, found =>
    (if found then Insert less result value else some result).bind (fun r1 =>
      if value = key then
        (Insert less r1 value).bind (fun r2 => extractLoop key rest r2 true)
      else
        extractLoop key rest r1 found)

/-- `ExtractSubtree(tree, key)`: visit the source in pre-order with a fresh result tree
and `found = false`. -/
def ExtractSubtree [LinearOrder α] (tree : Node α) (key : α) : Option (Node α) :=
  extractLoop key (PreOrder tree) .nil false

instance decHeightCached : (t : Node α) → Decidable (HeightCached t)
  | .nil => isTrue trivial
  | .node _ l r _ =>
    @instDecidableAnd _ _ _ (@instDecidableAnd _ _ (decHeightCached l) (decHeightCached r))

instance decBalanced : (t : Node α) → Decidable (Balanced t)
  | .nil => isTrue trivial
  | .node _ l r _ =>
    @instDecidableAnd _ _ _
      (@instDecidableAnd _ _ _ (@instDecidableAnd _ _ (decBalanced l) (decBalanced r)))

/-- The tree with root 5 and the left chain 3, 2: left subtree two levels higher than
the (empty) right subtree, as `balance` meets it after a removal or an insertion. -/
def chain532 : Node Int :=
  .node 5 (.node 3 (.node 2 .nil .nil 1) .nil 2) .nil 3

/-! ## The pattern layer (`AVLTreeTraversalTemplates.h`)

A `std::string` is the list of its characters.  The stream operators on `int` are
modelled by a decimal printer and a decimal reader; `int` is 32 bits wide and `size_t`
64 bits wide. -/

/-- How an operation of the pattern layer can end without a result. -/
inductive Failure where
  /-- The exception `std::invalid_argument("Unsupported pattern")`. -/
  | invalidArgument : Failure
  /-- Undefined behaviour: signed overflow, an index out of range, a null pointer. -/
  | undefinedBehaviour : Failure
  /-- The recursion bound of the model was reached. -/
  | outOfFuel : Failure
  deriving DecidableEq

/-- The largest `int`. -/
def INT_MAX : Int := 2147483647

/-- The smallest `int`. -/
def INT_MIN : Int := -2147483648

/-- `values.size() - 1` computed in `size_t`: it wraps around for an empty vector. -/
def sizeMinusOne (n : Nat) : Nat := (n + 18446744073709551615) % 18446744073709551616

/-- Conversion of a `size_t` to `int`: the value modulo `2 ^ 32`, read as signed. -/
def toInt (x : Nat) : Int := ((x : Int) + 2147483648) % 4294967296 - 2147483648

/-- The decimal digits of a natural number, most significant first; `fuel` bounds the
number of digits. -/
def showNatAux : Nat → Nat → List Char
  | 0, _ => []
  | fuel + 1, n =>
    if n < 10 then [Nat.digitChar n]
    else showNatAux fuel (n / 10) ++ [Nat.digitChar (n % 10)]

/-- The decimal form of a natural number. -/
def showNat (n : Nat) : List Char := showNatAux (n + 1) n

/-- `out << v` for an `int`: decimal digits, after a minus sign when negative. -/
def showInt : Int → List Char
  | Int.ofNat n => showNat n
  | Int.negSucc n => '-' :: showNat (n + 1)

/-- `std::isspace` in the default locale. -/
def isSpace (c : Char) : Bool :=
  c = ' ' || c = Char.ofNat 9 || c = Char.ofNat 10 || c = Char.ofNat 11 ||
    c = Char.ofNat 12 || c = Char.ofNat 13

/-- The value of a run of decimal digits. -/
def digitsValue (ds : List Char) : Nat :=
  ds.foldl (fun acc c => 10 * acc + (c.toNat - 48)) 0

/-- `iss >> val` for an `int`: skip white space, read an optional sign and a non-empty
run of digits; the extraction fails on end of input, on a token that does not start a
number and on a value outside the range of `int`.  On success the rest of the stream
is returned. -/
def readInt (s : List Char) : Option (Int × List Char) :=
  let s1 := s.dropWhile isSpace
  let neg := s1.head? = some '-'
  let s2 := if s1.head? = some '-' ∨ s1.head? = some '+' then s1.tail else s1
  let ds := s2.takeWhile Char.isDigit
  if ds = [] then none
  else
    let v : Int := if neg then -(digitsValue ds : Int) else (digitsValue ds : Int)
    if INT_MIN ≤ v ∧ v ≤ INT_MAX then some (v, s2.dropWhile Char.isDigit) else none

/-- The loop `while (iss >> val) values.push_back(val)`; every successful extraction
consumes at least one character, so `fuel` above the length of the text is never
exhausted. -/
def parseLoop : Nat → List Char → List Int
  | 0, _ => []
  | fuel + 1, s =>
    match readInt s with
    | none => []
    | some (v, rest) => v :: parseLoop fuel rest

/-- `ParseValuesFromString<int>(str)`. -/
def ParseValuesFromString (str : List Char) : List Int :=
  parseLoop (str.length + 1) str

/-- `ToStringTemplate(tree, pattern)` for a tree of `int`: every visited value is
written followed by one space. -/
def ToStringTemplate (tree : Node Int) (pattern : String) : Except Failure (List Char) :=
  if pattern = "KLP" then
    .ok ((PreOrder tree).flatMap (fun v => showInt v ++ [' ']))
  else if pattern = "LKP" then
    .ok ((InOrder tree).flatMap (fun v => showInt v ++ [' ']))
  else if pattern = "LPK" then
    .ok ((PostOrder tree).flatMap (fun v => showInt v ++ [' ']))
  else
    .error .invalidArgument

/-- The recursive lambda `build(l, r)` of `FromOrderTemplate`, with the tree under
construction as explicit state.  `l`, `r` and `m = (l + r) / 2` are `int`: the sum
`l + r` must stay in range, and `values[m]` must be an element of the vector. -/
def build [LinearOrder α] (values : List α) :
    Nat → Int → Int → Node α → Except Failure (Node α)
  | 0, _, _, _ => .error .outOfFuel
  | fuel + 1, l, r, tree =>
    if l > r then .ok tree
    else if l + r > INT_MAX ∨ l + r < INT_MIN then .error .undefinedBehaviour
    else if Int.tdiv (l + r) 2 < 0 then .error .undefinedBehaviour
    else
      match values[(Int.tdiv (l + r) 2).toNat]? with
      | none => .error .undefinedBehaviour
      | some x =>
        match Insert less tree x with
        | none => .error .undefinedBehaviour
        | some t1 =>
          match build values fuel l (Int.tdiv (l + r) 2 - 1) t1 with
          | .error e => .error e
          | .ok t2 => build values fuel (Int.tdiv (l + r) 2 + 1) r t2

/-- A loop of `Insert` calls as an operation of the pattern layer. -/
def insertAllE [LinearOrder α] (values : List α) (tree : Node α) :
    Except Failure (Node α) :=
  match insertAll less values tree with
  | none => .error .undefinedBehaviour
  | some t => .ok t

/-- `FromOrderTemplate(values, pattern)`: `"KLP"` inserts left to right, `"LPK"` right to
left, `"LKP"` runs `build(0, values.size() - 1)`; the recursion of `build` halves the
range, so `values.size() + 1` levels are never exhausted. -/
def FromOrderTemplate [LinearOrder α] (values : List α) (pattern : String) :
    Except Failure (Node α) :=
  if pattern = "KLP" then
    insertAllE values .nil
  else if pattern = "LKP" then
    build values (values.length + 1) 0 (toInt (sizeMinusOne values.length)) .nil
  else if pattern = "LPK" then
    insertAllE values.reverse .nil
  else
    .error .invalidArgument

/-- The round trip of pattern `"LKP"`:
`FromOrderTemplate(ParseValuesFromString(ToStringTemplate(t, "LKP")), "LKP")`. -/
def roundTripLKP (t : Node Int) : Except Failure (Node Int) :=
  match ToStringTemplate t "LKP" with
  | .error e => .error e
  | .ok str => FromOrderTemplate (ParseValuesFromString str) "LKP"

/-- The values `0, 1, ..., 2 ^ 30`: one more than `2 ^ 30` of them. -/
def values0to2pow30 : List Int := (List.range 1073741825).map Int.ofNat

/-! ## Memory model for the threaded traversal

`MorrisInOrder` overwrites `right` links while it runs, so it is modelled on an explicit
memory: a pointer is `none` (`nullptr`) or the address of a cell, and the memory gives
the cell stored at an address.  Reading through a pointer to no cell has no result. -/

/-- A `Node` as it lies in memory: the four fields, the links being pointers. -/
structure Cell (α : Type) where
  value : α
  left : Option Nat
  right : Option Nat
  height : Int
  deriving DecidableEq

/-- The memory: the cell at each address that holds one. -/
abbrev Heap (α : Type) := Nat → Option (Cell α)

/-- The inner loop of `MorrisInOrder`:
`while (predecessor->right && predecessor->right != current) predecessor = predecessor->right;`
It returns the final `predecessor`; `fuel` bounds the number of iterations. -/
def findPredecessor (heap : Heap α) (current : Nat) : Nat → Nat → Option Nat
  | 0, _ => none
  | fuel + 1, predecessor =>
    match heap predecessor with
    | none => none
    | some p =>
      match p.right with
      | none => some predecessor
      | some q =>
        if q = current then some predecessor else findPredecessor heap current fuel q

/-- The assignment `node->right = r` through the pointer `a`. -/
def setRight (heap : Heap α) (a : Nat) (r : Option Nat) : Option (Heap α) :=
  match heap a with
  | none => none
  | some c => some (Function.update heap a (some { c with right := r }))

/-- The outer loop `while (current) { ... }` of `MorrisInOrder`, with the memory and the
values handed to the visitor as explicit state.  `gas` bounds the inner loop and the
first argument bounds the outer loop. -/
def morrisLoop (gas : Nat) :
    Nat → Heap α → Option Nat → List α → Option (List α × Heap α)
  | 0, _, _, _ => none
  | fuel + 1, heap, current, out =>
    match current with
    | none => some (out, heap)
    | some cur =>
      match heap cur with
      | none => none
      | some c =>
        match c.left with
        | none => morrisLoop gas fuel heap c.right (out ++ [c.value])
        | some pl =>
          match findPredecessor heap cur gas pl with
          | none => none
          | some pred =>
            match heap pred with
            | none => none
            | some p =>
              match p.right with
              | none =>
                match setRight heap pred (some cur) with
                | none => none
                | some heap1 =>
                  match heap1 cur with
                  | none => none
                  | some c1 => morrisLoop gas fuel heap1 c1.left out
              | some _ =>
                match setRight heap pred none with
                | none => none
                | some heap1 =>
                  match heap1 cur with
                  | none => none
                  | some c1 => morrisLoop gas fuel heap1 c1.right (out ++ [c1.value])

/-- `MorrisInOrder(f)`: the loop started at the root with nothing visited; the result is
the sequence of visited values and the memory on return. -/
def MorrisInOrder (fuel : Nat) (heap : Heap α) (root : Option Nat) :
    Option (List α × Heap α) :=
  morrisLoop fuel fuel heap root []

/-- The pointer to a tree whose nodes carry their addresses; for an empty tree it is
`nxt`. -/
def rootPtr : Node (Nat × α) → Option Nat → Option Nat
  | .nil, nxt => nxt
  | .node x _ _ _, _ => some x.1

/-- The memory holds the tree whose nodes carry their addresses: every node lies at its
address with links to its children, a missing child being the null pointer, except
that the right link of the rightmost node is `nxt` (null for a tree at rest, the thread
to the in-order successor while the traversal is inside the tree). -/
def Stored (heap : Heap α) : Node (Nat × α) → Option Nat → Prop
  | .nil, _ => True
  | .node x l r h, nxt =>
    heap x.1 = some ⟨x.2, rootPtr l none, rootPtr r nxt, h⟩ ∧
      Stored heap l none ∧ Stored heap r nxt

instance decStored [DecidableEq α] (heap : Heap α) :
    (t : Node (Nat × α)) → (nxt : Option Nat) → Decidable (Stored heap t nxt)
  | .nil, _ => isTrue trivial
  | .node _ l r _, nxt =>
    @instDecidableAnd _ _ _ (@instDecidableAnd _ _ (decStored heap l none)
      (decStored heap r nxt))

/-- The addresses of the nodes of a tree, in in-order position. -/
def addrs (t : Node (Nat × α)) : List Nat := (inorder t).map Prod.fst

/-- The tree of values, addresses forgotten. -/
def unlabel : Node (Nat × α) → Node α
  | .nil => .nil
  | .node x l r h => .node x.2 (unlabel l) (unlabel r) h

/-- The address of the rightmost node of a non-empty tree. -/
def rightmost : Node (Nat × α) → Nat
  | .nil => 0
  | .node x _ .nil _ => x.1
  | .node _ _ (.node y l r h) _ => rightmost (.node y l r h)

/-- The tree built from 5, 3, 7, 2 with its nodes at the addresses 10, 11, 12, 13. -/
def laidTree5372 : Node (Nat × Int) :=
  .node (10, 5) (.node (11, 3) (.node (12, 2) .nil .nil 1) .nil 2) (.node (13, 7) .nil .nil 1) 3

/-- A memory holding `laidTree5372`. -/
def heap5372 : Heap Int := fun a =>
  if a = 10 then some ⟨5, some 11, some 13, 3⟩
  else if a = 11 then some ⟨3, some 12, none, 2⟩
  else if a = 12 then some ⟨2, none, none, 1⟩
  else if a = 13 then some ⟨7, none, none, 1⟩
  else none

/-- A tree laid out in memory from address `base` on: the root at `base`, then the nodes
of the left subtree, then those of the right subtree. -/
def label : Nat → Node α → Node (Nat × α)
  | _, .nil => .nil
  | base, .node v l r h =>
    .node (base, v) (label (base + 1) l) (label (base + 1 + size l) r) h

/-- The memory that holds exactly the cells of a tree whose nodes carry their
addresses, the right link of the rightmost node being `nxt`. -/
def heapOf : Node (Nat × α) → Option Nat → Heap α
  | .nil, _ => fun _ => none
  | .node x l r h, nxt => fun a =>
    if a = x.1 then some ⟨x.2, rootPtr l none, rootPtr r nxt, h⟩
    else
      match heapOf l none a with
      | some c => some c
      | none => heapOf r nxt a

/-! ## The dereferencing calls made by the engine

`rotateRight(y)` reads `y->left->right`, `rotateLeft(x)` reads `x->right->left`, and
`remove` reads `minRight->value` from the result of `findMin`.  The functions below
list these calls, in the order in which `balance`, `insert` and `remove` make them. -/

/-- A call of `rotateRight` or `rotateLeft` with its argument, or the call of `findMin`
in `remove` with its argument. -/
inductive Call (α : Type) where
  | rotateRight (y : Node α) : Call α
  | rotateLeft (x : Node α) : Call α
  | findMin (node : Node α) : Call α
  deriving DecidableEq

/-- The call reads only through present pointers: `rotateRight` is given a node with a
left child, `rotateLeft` a node with a right child, and `findMin` returns a node. -/
def Call.safe : Call α → Bool
  | .rotateRight (.node _ (.node _ _ _ _) _ _) => true
  | .rotateRight _ => false
  | .rotateLeft (.node _ _ (.node _ _ _ _) _) => true
  | .rotateLeft _ => false
  | .findMin node =>
    match AVLTree.findMin node with
    | .nil => false
    | .node _ _ _ _ => true

/-- The rotations called by `balance(node)`; a failed call ends the list. -/
def balanceCalls : Node α → List (Call α)
  | .nil => []
  | .node v l r _ =>
    let h1 := 1 + max (getHeight l) (getHeight r)
    let balanceFactor := getHeight l - getHeight r
    if balanceFactor > 1 then
      if getBalance l ≥ 0 then
        [.rotateRight (.node v l r h1)]
      else
        .rotateLeft l ::
          match rotateLeft l with
          | none => []
          | some l1 => [.rotateRight (.node v l1 r h1)]
    else if balanceFactor < -1 then
      if getBalance r ≤ 0 then
        [.rotateLeft (.node v l r h1)]
      else
        .rotateRight r ::
          match rotateRight r with
          | none => []
          | some r1 => [.rotateLeft (.node v l r1 h1)]
    else
      []

/-- The calls made while `insert(node, value)` runs. -/
def insertCalls (comp : α → α → Bool) : Node α → α → List (Call α)
  | .nil, _ => []
  | .node x l r h, value =>
    if comp value x then
      insertCalls comp l value ++
        match insert comp l value with
        | none => []
        | some l1 => balanceCalls (.node x l1 r h)
    else if comp x value then
      insertCalls comp r value ++
        match insert comp r value with
        | none => []
        | some r1 => balanceCalls (.node x l r1 h)
    else
      []

/-- The calls made while `remove(node, value)` runs. -/
def removeCalls (comp : α → α → Bool) : Node α → α → List (Call α)
  | .nil, _ => []
  | .node x l r h, value =>
    if comp value x then
      removeCalls comp l value ++
        match remove comp l value with
        | none => []
        | some l1 => balanceCalls (.node x l1 r h)
    else if comp x value then
      removeCalls comp r value ++
        match remove comp r value with
        | none => []
        | some r1 => balanceCalls (.node x l r1 h)
    else
      match l, r with
      | .nil, _ => []
      | .node _ _ _ _, .nil => []
      | .node lv ll lr lh, .node rv rl rr rh =>
        .findMin (.node rv rl rr rh) ::
          match AVLTree.findMin (.node rv rl rr rh) with
          | .nil => []
          | .node m _ _ _ =>
            removeCalls comp (.node rv rl rr rh) m ++
              match remove comp (.node rv rl rr rh) m with
              | none => []
              | some r1 => balanceCalls (.node m (.node lv ll lr lh) r1 h)

/-- The loop `while (current) { ... }` of `Contains`; the first argument bounds the
number of times the loop condition is evaluated. -/
def containsLoop (comp : α → α → Bool) : Nat → Node α → α → Option Bool
  | 0, _, _ => none
  | _ + 1, .nil, _ => some false
  | fuel + 1, .node x l r _, value =>
    if !comp value x && !comp x value then some true
    else if comp value x then containsLoop comp fuel l value
    else containsLoop comp fuel r value

/-- An ordering that is irreflexive and asymmetric but not transitive: `<` on the
integers, except that `6` comes before `3`. -/
def before36 (a b : Int) : Bool :=
  if a = 6 ∧ b = 3 then true
  else if a = 3 ∧ b = 6 then false
  else decide (a < b)

/-- A strict partial order that is not a strict weak order: `a` comes before `b` when
it is smaller by more than one, so that `1` is equivalent to `0` and to `2`. -/
def wellBefore (a b : Int) : Bool := decide (a + 1 < b)

/-! ## Level-order traversal

`LevelOrder` keeps a `std::queue<Node*>`; the queue is the list of the subtrees its
pointers refer to, the front first.  The traversal only reads the tree. -/

/-- The statement `if (child) q.push(child);`. -/
def push (q : List (Node α)) (child : Node α) : List (Node α) :=
  match child with
  | .nil => q
  | .node v l r h => q ++ [.node v l r h]

/-- The loop `while (!q.empty()) { ... }` of `LevelOrder`, with the queue and the values
handed to the visitor as explicit state; the first argument bounds the number of times
the loop condition is evaluated.  Reading `current->value` through a null pointer has no
result. -/
def levelOrderLoop : Nat → List (Node α) → List α → Option (List α)
  | 0, _, _ => none
  | _ + 1, [], out => some out
  | _ + 1, .nil :: _, _ => none
  | fuel + 1, .node value left right _ :: q, out =>
    levelOrderLoop fuel (push (push q left) right) (out ++ [value])

/-- `LevelOrder(f)`: nothing for an empty tree, else the loop on the queue that holds
the root.  The result is the sequence of values handed to `f`. -/
def LevelOrder (fuel : Nat) (root : Node α) : Option (List α) :=
  match root with
  | .nil => some []
  | .node v l r h => levelOrderLoop fuel [.node v l r h] []

/-- The values of the nodes at depth `d`, from left to right; the root is at depth 0. -/
def atDepth : Nat → Node α → List α
  | _, .nil => []
  | 0, .node v _ _ _ => [v]
  | d + 1, .node _ l r _ => atDepth d l ++ atDepth d r

/-- Breadth-first order: the values at depth 0, then those at depth 1, and so on down
to the last level. -/
def breadthFirst (t : Node α) : List α :=
  (List.range (realHeight t)).flatMap (fun d => atDepth d t)

theorem getHeight_nil : getHeight (Node.nil : Node α) = 0 := rfl

theorem getHeight_node (v : α) (l r : Node α) (h : Int) :
    getHeight (.node v l r h) = h := rfl

theorem getBalance_node (v : α) (l r : Node α) (h : Int) :
    getBalance (.node v l r h) = getHeight l - getHeight r := rfl

theorem updateHeight_node (v : α) (l r : Node α) (h : Int) :
    updateHeight (.node v l r h) = .node v l r (1 + max (getHeight l) (getHeight r)) := rfl

theorem rotateRight_node (yv xv : α) (xl xr yr : Node α) (xh yh : Int) :
    rotateRight (.node yv (.node xv xl xr xh) yr yh) =
      some (updateHeight (.node xv xl (updateHeight (.node yv xr yr yh)) xh)) := rfl

theorem rotateLeft_node (xv yv : α) (xl yl yr : Node α) (xh yh : Int) :
    rotateLeft (.node xv xl (.node yv yl yr yh) xh) =
      some (updateHeight (.node yv (updateHeight (.node xv xl yl xh)) yr yh)) := rfl

theorem balance_node (v : α) (l r : Node α) (h : Int) :
    balance (.node v l r h) =
      if getHeight l - getHeight r > 1 then
        if getBalance l ≥ 0 then
          rotateRight (.node v l r (1 + max (getHeight l) (getHeight r)))
        else
          (rotateLeft l).bind
            (fun l1 => rotateRight (.node v l1 r (1 + max (getHeight l) (getHeight r))))
      else if getHeight l - getHeight r < -1 then
        if getBalance r ≤ 0 then
          rotateLeft (.node v l r (1 + max (getHeight l) (getHeight r)))
        else
          (rotateRight r).bind
            (fun r1 => rotateLeft (.node v l r1 (1 + max (getHeight l) (getHeight r))))
      else
        some (.node v l r (1 + max (getHeight l) (getHeight r))) := rfl

theorem getHeight_nonneg {t : Node α} (h : AVL t) : 0 ≤ getHeight t := by
  induction t with
  | nil => simp [getHeight]
  | node v l r ht ihl ihr =>
    obtain ⟨hl, hr, hh, -, -⟩ := h
    have := ihl hl
    have := ihr hr
    simp only [getHeight]
    omega

theorem getHeight_pos {v : α} {l r : Node α} {ht : Int} (h : AVL (.node v l r ht)) :
    1 ≤ ht := by
  obtain ⟨hl, hr, hh, -, -⟩ := h
  have := getHeight_nonneg hl
  have := getHeight_nonneg hr
  omega

theorem exists_node_of_getHeight_pos {t : Node α} (h : 1 ≤ getHeight t) :
    ∃ v l r ht, t = .node v l r ht := by
  cases t with
  | nil => simp [getHeight] at h
  | node v l r ht => exact ⟨v, l, r, ht, rfl⟩

theorem heightCached_getHeight {t : Node α} (h : HeightCached t) :
    getHeight t = (realHeight t : Int) := by
  induction t with
  | nil => simp [getHeight, realHeight]
  | node v l r ht ihl ihr =>
    obtain ⟨hh, hl, hr⟩ := h
    have := ihl hl
    have := ihr hr
    simp only [getHeight, realHeight]
    omega

theorem avl_iff (t : Node α) : AVL t ↔ HeightCached t ∧ Balanced t := by
  induction t with
  | nil => simp [AVL, HeightCached, Balanced]
  | node v l r ht ihl ihr =>
    simp only [AVL, HeightCached, Balanced, ihl, ihr]
    constructor
    · rintro ⟨⟨cl, bl⟩, ⟨cr, br⟩, hh, h1, h2⟩
      have := heightCached_getHeight cl
      have := heightCached_getHeight cr
      exact ⟨⟨hh, cl, cr⟩, by omega, by omega, bl, br⟩
    · rintro ⟨⟨hh, cl, cr⟩, h1, h2, bl, br⟩
      have := heightCached_getHeight cl
      have := heightCached_getHeight cr
      exact ⟨⟨cl, bl⟩, ⟨cr, br⟩, hh, by omega, by omega⟩

/-- What `balance` does to a node whose subtrees are AVL and differ in height by at
most two. -/
theorem balance_spec (v : α) (l r : Node α) (h : Int) (hl : AVL l) (hr : AVL r)
    (hd1 : getHeight l - getHeight r ≤ 2) (hd2 : getHeight r - getHeight l ≤ 2) :
    ∃ t, balance (.node v l r h) = some t ∧ AVL t ∧
      inorder t = inorder l ++ v :: inorder r ∧
      getHeight t ≤ 1 + max (getHeight l) (getHeight r) ∧
      max (getHeight l) (getHeight r) ≤ getHeight t ∧
      (getHeight l - getHeight r ≤ 1 → getHeight r - getHeight l ≤ 1 →
        t = .node v l r (1 + max (getHeight l) (getHeight r))) := by
  have nl := getHeight_nonneg hl
  have nr := getHeight_nonneg hr
  rw [balance_node]
  by_cases c1 : getHeight l - getHeight r > 1
  · obtain ⟨lv, ll, lr, lh, rfl⟩ := exists_node_of_getHeight_pos (t := l) (by omega)
    obtain ⟨all, alr, hlh, b1, b2⟩ := hl
    have nll := getHeight_nonneg all
    have nlr := getHeight_nonneg alr
    rw [if_pos c1]
    simp only [getHeight_node] at hd1 hd2 c1 nl
    by_cases c2 : getBalance (.node lv ll lr lh) ≥ 0
    · rw [if_pos c2, rotateRight_node]
      simp only [getBalance_node] at c2
      refine ⟨_, rfl, ?_⟩
      simp only [updateHeight_node, AVL, getHeight_node, inorder, List.append_assoc,
        List.cons_append]
      repeat' apply And.intro
      all_goals first | trivial | omega
    · rw [if_neg c2]
      simp only [getBalance_node, ge_iff_le, not_le] at c2
      obtain ⟨xv, xl, xr, xh, rfl⟩ := exists_node_of_getHeight_pos (t := lr) (by omega)
      obtain ⟨axl, axr, hxh, b3, b4⟩ := alr
      have nxl := getHeight_nonneg axl
      have nxr := getHeight_nonneg axr
      simp only [getHeight_node] at c2 hlh b1 b2 nlr
      rw [rotateLeft_node]
      simp only [updateHeight_node, Option.some_bind, rotateRight_node]
      refine ⟨_, rfl, ?_⟩
      simp only [AVL, getHeight_node, inorder, List.append_assoc, List.cons_append]
      repeat' apply And.intro
      all_goals first | trivial | omega
  · rw [if_neg c1]
    by_cases c3 : getHeight l - getHeight r < -1
    · obtain ⟨rv, rl, rr, rh, rfl⟩ := exists_node_of_getHeight_pos (t := r) (by omega)
      obtain ⟨arl, arr, hrh, b1, b2⟩ := hr
      have nrl := getHeight_nonneg arl
      have nrr := getHeight_nonneg arr
      rw [if_pos c3]
      simp only [getHeight_node] at hd1 hd2 c1 c3 nr
      by_cases c2 : getBalance (.node rv rl rr rh) ≤ 0
      · rw [if_pos c2, rotateLeft_node]
        simp only [getBalance_node] at c2
        refine ⟨_, rfl, ?_⟩
        simp only [updateHeight_node, AVL, getHeight_node, inorder, List.append_assoc,
          List.cons_append]
        repeat' apply And.intro
        all_goals first | trivial | omega
      · rw [if_neg c2]
        simp only [getBalance_node, not_le] at c2
        obtain ⟨xv, xl, xr, xh, rfl⟩ := exists_node_of_getHeight_pos (t := rl) (by omega)
        obtain ⟨axl, axr, hxh, b3, b4⟩ := arl
        have nxl := getHeight_nonneg axl
        have nxr := getHeight_nonneg axr
        simp only [getHeight_node] at c2 hrh b1 b2 nrl
        rw [rotateRight_node]
        simp only [updateHeight_node, Option.some_bind, rotateLeft_node]
        refine ⟨_, rfl, ?_⟩
        simp only [AVL, getHeight_node, inorder, List.append_assoc, List.cons_append]
        repeat' apply And.intro
        all_goals first | trivial | omega
    · rw [if_neg c3]
      refine ⟨_, rfl, ?_⟩
      simp only [AVL, getHeight_node, inorder]
      repeat' apply And.intro
      all_goals first | trivial | omega | (intros; trivial)

theorem insert_nil (comp : α → α → Bool) (value : α) :
    insert comp .nil value = some (.node value .nil .nil 1) := rfl

theorem insert_node (comp : α → α → Bool) (x : α) (l r : Node α) (h : Int) (value : α) :
    insert comp (.node x l r h) value =
      if comp value x then
        (insert comp l value).bind (fun l1 => balance (.node x l1 r h))
      else if comp x value then
        (insert comp r value).bind (fun r1 => balance (.node x l r1 h))
      else
        some (.node x l r h) := rfl

theorem remove_nil (comp : α → α → Bool) (value : α) :
    remove comp .nil value = some .nil := rfl

theorem remove_node (comp : α → α → Bool) (x : α) (l r : Node α) (h : Int) (value : α) :
    remove comp (.node x l r h) value =
      if comp value x then
        (remove comp l value).bind (fun l1 => balance (.node x l1 r h))
      else if comp x value then
        (remove comp r value).bind (fun r1 => balance (.node x l r1 h))
      else
        match l, r with
        | .nil, r => some r
        | .node lv ll lr lh, .nil => some (.node lv ll lr lh)
        | .node lv ll lr lh, .node rv rl rr rh =>
          match findMin (.node rv rl rr rh) with
          | .nil => none
          | .node m _ _ _ =>
            (remove comp (.node rv rl rr rh) m).bind
              (fun r1 => balance (.node m (.node lv ll lr lh) r1 h)) := by
  cases l <;> cases r <;> rfl

theorem remove_node_left (comp : α → α → Bool) (x : α) (l r : Node α) (h : Int) (value : α)
    (c : comp value x = true) :
    remove comp (.node x l r h) value =
      (remove comp l value).bind (fun l1 => balance (.node x l1 r h)) := by
  rw [remove_node, if_pos c]

theorem remove_node_right (comp : α → α → Bool) (x : α) (l r : Node α) (h : Int) (value : α)
    (c1 : comp value x = false) (c2 : comp x value = true) :
    remove comp (.node x l r h) value =
      (remove comp r value).bind (fun r1 => balance (.node x l r1 h)) := by
  rw [remove_node, if_neg (by simp [c1]), if_pos c2]

theorem remove_node_found (comp : α → α → Bool) (x : α) (l r : Node α) (h : Int) (value : α)
    (c1 : comp value x = false) (c2 : comp x value = false) :
    remove comp (.node x l r h) value =
      match l, r with
      | .nil, r => some r
      | .node lv ll lr lh, .nil => some (.node lv ll lr lh)
      | .node lv ll lr lh, .node rv rl rr rh =>
        match findMin (.node rv rl rr rh) with
        | .nil => none
        | .node m _ _ _ =>
          (remove comp (.node rv rl rr rh) m).bind
            (fun r1 => balance (.node m (.node lv ll lr lh) r1 h)) := by
  rw [remove_node, if_neg (by simp [c1]), if_neg (by simp [c2])]

/-- On a present node `findMin` returns a present node without a left child, and its
value is the first value of the in-order sequence. -/
theorem findMin_node (v : α) (l r : Node α) (h : Int) :
    ∃ m mr mh, findMin (.node v l r h) = .node m .nil mr mh ∧
      inorder (.node v l r h) = m :: (inorder (.node v l r h)).tail := by
  induction l generalizing v r h with
  | nil => exact ⟨v, r, h, rfl, by simp [inorder]⟩
  | node lv ll lr lh ihl _ =>
    obtain ⟨m, mr, mh, e1, e2⟩ := ihl lv lr lh
    refine ⟨m, mr, mh, by rw [findMin, e1], ?_⟩
    rw [inorder, e2]
    simp

/-- `insert` keeps the shape invariants; the height grows by at most one. -/
theorem insert_avl (comp : α → α → Bool) (value : α) (t : Node α) (ht : AVL t) :
    ∃ t1, insert comp t value = some t1 ∧ AVL t1 ∧
      getHeight t ≤ getHeight t1 ∧ getHeight t1 ≤ getHeight t + 1 := by
  induction t with
  | nil =>
    refine ⟨_, insert_nil comp value, ?_⟩
    simp [AVL, getHeight_node, getHeight_nil]
  | node x l r h ihl ihr =>
    obtain ⟨al, ar, hh, b1, b2⟩ := ht
    rw [insert_node]
    by_cases c1 : comp value x = true
    · obtain ⟨l1, e, al1, g1, g2⟩ := ihl al
      rw [if_pos c1, e, Option.some_bind]
      obtain ⟨t1, e1, a1, -, u1, u2, u3⟩ :=
        balance_spec x l1 r h al1 ar (by omega) (by omega)
      refine ⟨t1, e1, a1, ?_⟩
      simp only [getHeight_node]
      by_cases c : getHeight l1 - getHeight r ≤ 1
      · rw [u3 c (by omega)]
        simp only [getHeight_node]
        omega
      · omega
    · rw [if_neg c1]
      by_cases c2 : comp x value = true
      · obtain ⟨r1, e, ar1, g1, g2⟩ := ihr ar
        rw [if_pos c2, e, Option.some_bind]
        obtain ⟨t1, e1, a1, -, u1, u2, u3⟩ :=
          balance_spec x l r1 h al ar1 (by omega) (by omega)
        refine ⟨t1, e1, a1, ?_⟩
        simp only [getHeight_node]
        by_cases c : getHeight r1 - getHeight l ≤ 1
        · rw [u3 (by omega) c]
          simp only [getHeight_node]
          omega
        · omega
      · rw [if_neg c2]
        exact ⟨_, rfl, ⟨al, ar, hh, b1, b2⟩, le_refl _, by omega⟩

/-- `remove` keeps the shape invariants; the height shrinks by at most one. -/
theorem remove_avl (comp : α → α → Bool) (value : α) (t : Node α) (ht : AVL t) :
    ∃ t1, remove comp t value = some t1 ∧ AVL t1 ∧
      getHeight t1 ≤ getHeight t ∧ getHeight t ≤ getHeight t1 + 1 := by
  induction t generalizing value with
  | nil => exact ⟨_, remove_nil comp value, trivial, le_refl _, by omega⟩
  | node x l r h ihl ihr =>
    have ht0 := ht
    obtain ⟨al, ar, hh, b1, b2⟩ := ht
    have nl := getHeight_nonneg al
    have nr := getHeight_nonneg ar
    by_cases c1 : comp value x = true
    · obtain ⟨l1, e, al1, g1, g2⟩ := ihl value al
      rw [remove_node_left comp x l r h value c1, e, Option.some_bind]
      obtain ⟨t1, e1, a1, -, u1, u2, u3⟩ :=
        balance_spec x l1 r h al1 ar (by omega) (by omega)
      refine ⟨t1, e1, a1, ?_⟩
      simp only [getHeight_node]
      by_cases c : getHeight r - getHeight l1 ≤ 1
      · rw [u3 (by omega) c]
        simp only [getHeight_node]
        omega
      · omega
    · simp only [Bool.not_eq_true] at c1
      by_cases c2 : comp x value = true
      · obtain ⟨r1, e, ar1, g1, g2⟩ := ihr value ar
        rw [remove_node_right comp x l r h value c1 c2, e, Option.some_bind]
        obtain ⟨t1, e1, a1, -, u1, u2, u3⟩ :=
          balance_spec x l r1 h al ar1 (by omega) (by omega)
        refine ⟨t1, e1, a1, ?_⟩
        simp only [getHeight_node]
        by_cases c : getHeight l - getHeight r1 ≤ 1
        · rw [u3 c (by omega)]
          simp only [getHeight_node]
          omega
        · omega
      · simp only [Bool.not_eq_true] at c2
        rw [remove_node_found comp x l r h value c1 c2]
        cases l with
        | nil =>
          refine ⟨r, rfl, ar, ?_⟩
          simp only [getHeight_node, getHeight_nil] at *
          omega
        | node lv ll lr lh =>
          cases r with
          | nil =>
            refine ⟨_, rfl, al, ?_⟩
            simp only [getHeight_node, getHeight_nil] at *
            omega
          | node rv rl rr rh =>
            obtain ⟨m, mr, mh, e, -⟩ := findMin_node rv rl rr rh
            obtain ⟨r1, e2, ar1, g1, g2⟩ := ihr m ar
            simp only [e, e2, Option.some_bind]
            obtain ⟨t1, e1, a1, -, u1, u2, u3⟩ :=
              balance_spec m (.node lv ll lr lh) r1 h al ar1 (by omega) (by omega)
            refine ⟨t1, e1, a1, ?_⟩
            simp only [getHeight_node] at *
            by_cases c : lh - getHeight r1 ≤ 1
            · rw [u3 c (by omega)]
              simp only [getHeight_node]
              omega
            · omega

/-! ## Order: the in-order sequence -/

theorem rotateRight_inorder {t t1 : Node α} (h : rotateRight t = some t1) :
    inorder t1 = inorder t := by
  cases t with
  | nil => simp [rotateRight] at h
  | node yv yl yr yh =>
    cases yl with
    | nil => simp [rotateRight] at h
    | node xv xl xr xh =>
      rw [rotateRight_node] at h
      cases h
      simp [updateHeight_node, inorder]

theorem rotateLeft_inorder {t t1 : Node α} (h : rotateLeft t = some t1) :
    inorder t1 = inorder t := by
  cases t with
  | nil => simp [rotateLeft] at h
  | node xv xl xr xh =>
    cases xr with
    | nil => simp [rotateLeft] at h
    | node yv yl yr yh =>
      rw [rotateLeft_node] at h
      cases h
      simp [updateHeight_node, inorder]

/-- Whenever `balance` returns, the in-order sequence is the one of its argument. -/
theorem balance_inorder {t t1 : Node α} (h : balance t = some t1) :
    inorder t1 = inorder t := by
  cases t with
  | nil =>
    cases h
    rfl
  | node v l r ht =>
    rw [balance_node] at h
    split_ifs at h with c1 c2 c3 c4
    · rw [rotateRight_inorder h]
      rfl
    · obtain ⟨l1, e1, e2⟩ := Option.bind_eq_some.mp h
      rw [rotateRight_inorder e2]
      simp only [inorder, rotateLeft_inorder e1]
    · rw [rotateLeft_inorder h]
      rfl
    · obtain ⟨r1, e1, e2⟩ := Option.bind_eq_some.mp h
      rw [rotateLeft_inorder e2]
      simp only [inorder, rotateRight_inorder e1]
    · cases h
      rfl

theorem StrictWeakOrder.asymm {comp : α → α → Bool} (swo : StrictWeakOrder comp) {a b : α}
    (h : comp a b = true) : comp b a = false := by
  by_contra hc
  simp only [Bool.not_eq_false] at hc
  have := swo.trans a b a h hc
  rw [swo.irrefl a] at this
  exact Bool.false_ne_true this

theorem StrictWeakOrder.lt_of_lt_of_equiv {comp : α → α → Bool} (swo : StrictWeakOrder comp)
    {a b c : α} (h1 : comp a b = true) (h2 : Equiv comp b c) : comp a c = true := by
  by_contra hc
  simp only [Bool.not_eq_true] at hc
  by_cases h3 : comp c a = true
  · have := swo.trans c a b h3 h1
    rw [h2.2] at this
    exact Bool.false_ne_true this
  · simp only [Bool.not_eq_true] at h3
    have e : Equiv comp a b := swo.equiv_trans a c b ⟨hc, h3⟩ ⟨h2.2, h2.1⟩
    rw [e.1] at h1
    exact Bool.false_ne_true h1

theorem StrictWeakOrder.lt_of_equiv_of_lt {comp : α → α → Bool} (swo : StrictWeakOrder comp)
    {a b c : α} (h1 : Equiv comp a b) (h2 : comp b c = true) : comp a c = true := by
  by_contra hc
  simp only [Bool.not_eq_true] at hc
  by_cases h3 : comp c a = true
  · have := swo.trans b c a h2 h3
    rw [h1.2] at this
    exact Bool.false_ne_true this
  · simp only [Bool.not_eq_true] at h3
    have e : Equiv comp b c := swo.equiv_trans b a c ⟨h1.2, h1.1⟩ ⟨hc, h3⟩
    rw [e.1] at h2
    exact Bool.false_ne_true h2

theorem listInsert_append_left (comp : α → α → Bool) (v x : α) (L R : List α)
    (c : comp v x = true) :
    listInsert comp v (L ++ x :: R) = listInsert comp v L ++ x :: R := by
  induction L with
  | nil => simp [listInsert, c]
  | cons y L ih =>
    simp only [List.cons_append, listInsert]
    split_ifs <;> simp [ih]

theorem listInsert_append_right (comp : α → α → Bool) (v : α) (L R : List α)
    (hL : ∀ y ∈ L, comp v y = false ∧ comp y v = true) :
    listInsert comp v (L ++ R) = L ++ listInsert comp v R := by
  induction L with
  | nil => rfl
  | cons y L ih =>
    have hy := hL y (List.mem_cons_self _ _)
    have e := ih (fun z hz => hL z (List.mem_cons_of_mem _ hz))
    simp only [List.cons_append, listInsert, hy.1, hy.2, if_true, Bool.false_eq_true, if_false]
    exact congrArg (List.cons y) e

theorem listRemove_append_left (comp : α → α → Bool) (v x : α) (L R : List α)
    (c : comp v x = true) :
    listRemove comp v (L ++ x :: R) = listRemove comp v L ++ x :: R := by
  induction L with
  | nil => simp [listRemove, c]
  | cons y L ih =>
    simp only [List.cons_append, listRemove]
    split_ifs <;> simp [ih]

theorem listRemove_append_right (comp : α → α → Bool) (v : α) (L R : List α)
    (hL : ∀ y ∈ L, comp v y = false ∧ comp y v = true) :
    listRemove comp v (L ++ R) = L ++ listRemove comp v R := by
  induction L with
  | nil => rfl
  | cons y L ih =>
    have hy := hL y (List.mem_cons_self _ _)
    have e := ih (fun z hz => hL z (List.mem_cons_of_mem _ hz))
    simp only [List.cons_append, listRemove, hy.1, hy.2, if_true, Bool.false_eq_true, if_false]
    exact congrArg (List.cons y) e

theorem mem_listInsert {comp : α → α → Bool} {v y : α} {l : List α}
    (h : y ∈ listInsert comp v l) : y = v ∨ y ∈ l := by
  induction l with
  | nil => simpa [listInsert] using h
  | cons x xs ih =>
    simp only [listInsert] at h
    split_ifs at h
    · simpa using h
    · rcases List.mem_cons.mp h with e | e
      · exact Or.inr (e ▸ List.mem_cons_self _ _)
      · rcases ih e with e1 | e1
        · exact Or.inl e1
        · exact Or.inr (List.mem_cons_of_mem _ e1)
    · exact Or.inr h

theorem listRemove_sublist (comp : α → α → Bool) (v : α) (l : List α) :
    (listRemove comp v l).Sublist l := by
  induction l with
  | nil => exact List.Sublist.refl _
  | cons x xs ih =>
    simp only [listRemove]
    split_ifs
    · exact List.Sublist.refl _
    · exact ih.cons₂ x
    · exact List.sublist_cons_self x xs

theorem ascending_listInsert {comp : α → α → Bool} (swo : StrictWeakOrder comp) (v : α)
    {l : List α} (h : Ascending comp l) : Ascending comp (listInsert comp v l) := by
  induction l with
  | nil => simp [listInsert, Ascending]
  | cons x xs ih =>
    obtain ⟨hx, hxs⟩ := List.pairwise_cons.mp h
    simp only [listInsert]
    split_ifs with c1 c2
    · exact List.pairwise_cons.mpr ⟨fun y hy => by
        rcases List.mem_cons.mp hy with e | e
        · exact e ▸ c1
        · exact swo.trans _ _ _ c1 (hx y e), h⟩
    · refine List.pairwise_cons.mpr ⟨fun y hy => ?_, ih hxs⟩
      rcases mem_listInsert hy with e | e
      · exact e ▸ c2
      · exact hx y e
    · exact h

theorem ascending_listRemove {comp : α → α → Bool} (v : α)
    {l : List α} (h : Ascending comp l) : Ascending comp (listRemove comp v l) :=
  List.Pairwise.sublist (listRemove_sublist comp v l) h

/-- Under a transitive comparator the search-tree invariant is the same as an ascending
in-order sequence. -/
theorem bst_iff_ascending {comp : α → α → Bool} (swo : StrictWeakOrder comp) (t : Node α) :
    BST comp t ↔ Ascending comp (inorder t) := by
  induction t with
  | nil => simp [BST, Ascending, inorder]
  | node x l r h ihl ihr =>
    simp only [BST, inorder, Ascending, ihl, ihr, List.pairwise_append, List.pairwise_cons,
      List.mem_cons]
    constructor
    · rintro ⟨h1, h2, h3, h4⟩
      refine ⟨h3, ⟨h2, h4⟩, fun a ha b hb => ?_⟩
      rcases hb with e | e
      · exact e ▸ h1 a ha
      · exact swo.trans _ _ _ (h1 a ha) (h2 b e)
    · rintro ⟨h3, ⟨h2, h4⟩, h5⟩
      exact ⟨fun y hy => h5 y hy x (Or.inl rfl), h2, h3, h4⟩

/-- Values of the left subtree of a search tree stay before any value that is after or
equivalent to the node's value. -/
theorem left_before {comp : α → α → Bool} (swo : StrictWeakOrder comp) {x v : α}
    {L : List α} (hL : ∀ y ∈ L, comp y x = true) (c1 : comp v x = false) :
    ∀ y ∈ L, comp v y = false ∧ comp y v = true := by
  intro y hy
  have hyx := hL y hy
  have hyv : comp y v = true := by
    by_cases c2 : comp x v = true
    · exact swo.trans _ _ _ hyx c2
    · simp only [Bool.not_eq_true] at c2
      exact swo.lt_of_lt_of_equiv hyx ⟨c2, c1⟩
  exact ⟨swo.asymm hyv, hyv⟩

/-- On a search tree, `insert` acts on the in-order sequence as `listInsert`. -/
theorem insert_inorder {comp : α → α → Bool} (swo : StrictWeakOrder comp) (value : α)
    {t t1 : Node α} (hb : BST comp t) (h : insert comp t value = some t1) :
    inorder t1 = listInsert comp value (inorder t) := by
  induction t generalizing t1 with
  | nil =>
    cases h
    rfl
  | node x l r ht ihl ihr =>
    obtain ⟨h1, h2, bl, br⟩ := hb
    rw [insert_node] at h
    simp only [inorder]
    by_cases c1 : comp value x = true
    · rw [if_pos c1] at h
      obtain ⟨l1, e1, e2⟩ := Option.bind_eq_some.mp h
      rw [balance_inorder e2, listInsert_append_left comp value x _ _ c1]
      simp only [inorder, ihl bl e1]
    · rw [if_neg c1] at h
      simp only [Bool.not_eq_true] at c1
      rw [listInsert_append_right comp value _ _ (left_before swo h1 c1)]
      by_cases c2 : comp x value = true
      · rw [if_pos c2] at h
        obtain ⟨r1, e1, e2⟩ := Option.bind_eq_some.mp h
        rw [balance_inorder e2]
        simp only [inorder, ihr br e1, listInsert, c1, c2, if_true, Bool.false_eq_true,
          if_false]
      · rw [if_neg c2] at h
        cases h
        simp only [Bool.not_eq_true] at c2
        simp only [inorder, listInsert, c1, c2, Bool.false_eq_true, if_false]

/-- On a search tree, `remove` acts on the in-order sequence as `listRemove`. -/
theorem remove_inorder {comp : α → α → Bool} (swo : StrictWeakOrder comp) (value : α)
    {t t1 : Node α} (hb : BST comp t) (h : remove comp t value = some t1) :
    inorder t1 = listRemove comp value (inorder t) := by
  induction t generalizing t1 value with
  | nil =>
    cases h
    rfl
  | node x l r ht ihl ihr =>
    obtain ⟨h1, h2, bl, br⟩ := hb
    simp only [inorder]
    by_cases c1 : comp value x = true
    · rw [remove_node_left comp x l r ht value c1] at h
      obtain ⟨l1, e1, e2⟩ := Option.bind_eq_some.mp h
      rw [balance_inorder e2, listRemove_append_left comp value x _ _ c1]
      simp only [inorder, ihl value bl e1]
    · simp only [Bool.not_eq_true] at c1
      rw [listRemove_append_right comp value _ _ (left_before swo h1 c1)]
      by_cases c2 : comp x value = true
      · rw [remove_node_right comp x l r ht value c1 c2] at h
        obtain ⟨r1, e1, e2⟩ := Option.bind_eq_some.mp h
        rw [balance_inorder e2]
        simp only [inorder, ihr value br e1, listRemove, c1, c2, if_true, Bool.false_eq_true,
          if_false]
      · simp only [Bool.not_eq_true] at c2
        rw [remove_node_found comp x l r ht value c1 c2] at h
        simp only [listRemove, c1, c2, Bool.false_eq_true, if_false]
        cases l with
        | nil =>
          cases h
          rfl
        | node lv ll lr lh =>
          cases r with
          | nil =>
            cases h
            simp [inorder]
          | node rv rl rr rh =>
            obtain ⟨m, mr, mh, e, em⟩ := findMin_node rv rl rr rh
            simp only [e] at h
            obtain ⟨r1, e1, e2⟩ := Option.bind_eq_some.mp h
            rw [balance_inorder e2]
            have e3 := ihr m br e1
            rw [em] at e3
            simp only [listRemove, swo.irrefl m, Bool.false_eq_true, if_false] at e3
            rw [inorder, e3]
            conv_rhs => rw [em]

/-- On a search tree `Contains` answers whether the in-order sequence holds a value
equivalent to the one searched. -/
theorem contains_iff {comp : α → α → Bool} (swo : StrictWeakOrder comp) (value : α)
    {t : Node α} (hb : BST comp t) :
    Contains comp t value = true ↔ ∃ x ∈ inorder t, Equiv comp value x := by
  induction t with
  | nil => simp [Contains, inorder]
  | node x l r ht ihl ihr =>
    obtain ⟨h1, h2, bl, br⟩ := hb
    rw [Contains]
    by_cases c1 : comp value x = true
    · have hx : ¬ Equiv comp value x := fun e => by
        rw [e.1] at c1
        exact Bool.false_ne_true c1
      have hr : ∀ y ∈ inorder r, ¬ Equiv comp value y := fun y hy e => by
        have := swo.trans _ _ _ c1 (h2 y hy)
        rw [e.1] at this
        exact Bool.false_ne_true this
      simp only [c1, Bool.not_true, Bool.false_and, Bool.false_eq_true, if_false, if_true,
        ihl bl, inorder, List.mem_append, List.mem_cons]
      constructor
      · rintro ⟨y, hy, e⟩
        exact ⟨y, Or.inl hy, e⟩
      · rintro ⟨y, hy | rfl | hy, e⟩
        · exact ⟨y, hy, e⟩
        · exact absurd e hx
        · exact absurd e (hr y hy)
    · simp only [Bool.not_eq_true] at c1
      have hl : ∀ y ∈ inorder l, ¬ Equiv comp value y := fun y hy e => by
        have := (left_before swo h1 c1 y hy).2
        rw [e.2] at this
        exact Bool.false_ne_true this
      by_cases c2 : comp x value = true
      · have hx : ¬ Equiv comp value x := fun e => by
          rw [e.2] at c2
          exact Bool.false_ne_true c2
        simp only [c1, c2, Bool.not_true, Bool.and_false, Bool.false_eq_true, if_false,
          ihr br, inorder, List.mem_append, List.mem_cons]
        constructor
        · rintro ⟨y, hy, e⟩
          exact ⟨y, Or.inr (Or.inr hy), e⟩
        · rintro ⟨y, hy | rfl | hy, e⟩
          · exact absurd e (hl y hy)
          · exact absurd e hx
          · exact ⟨y, hy, e⟩
      · simp only [Bool.not_eq_true] at c2
        simp only [c1, c2, Bool.not_false, Bool.and_self, if_true, true_iff]
        exact ⟨x, by simp [inorder], c1, c2⟩

theorem insert_bst {comp : α → α → Bool} (swo : StrictWeakOrder comp) (value : α)
    {t t1 : Node α} (hb : BST comp t) (h : insert comp t value = some t1) : BST comp t1 := by
  rw [bst_iff_ascending swo, insert_inorder swo value hb h]
  exact ascending_listInsert swo value ((bst_iff_ascending swo t).mp hb)

theorem remove_bst {comp : α → α → Bool} (swo : StrictWeakOrder comp) (value : α)
    {t t1 : Node α} (hb : BST comp t) (h : remove comp t value = some t1) : BST comp t1 := by
  rw [bst_iff_ascending swo, remove_inorder swo value hb h]
  exact ascending_listRemove value ((bst_iff_ascending swo t).mp hb)

/-! ## Reachable trees -/

/-- Every sequence of operations runs to completion from a tree with the shape
invariants, and ends in such a tree. -/
theorem applyOps_avl (comp : α → α → Bool) (ops : List (Op α)) (t : Node α) (ht : AVL t) :
    ∃ t1, applyOps comp t ops = some t1 ∧ AVL t1 := by
  induction ops generalizing t with
  | nil => exact ⟨t, rfl, ht⟩
  | cons op ops ih =>
    cases op with
    | Insert v =>
      obtain ⟨t1, e, a, -, -⟩ := insert_avl comp v t ht
      obtain ⟨t2, e2, a2⟩ := ih t1 a
      exact ⟨t2, by simp only [applyOps, applyOp, Insert, e, Option.some_bind, e2], a2⟩
    | Remove v =>
      obtain ⟨t1, e, a, -, -⟩ := remove_avl comp v t ht
      obtain ⟨t2, e2, a2⟩ := ih t1 a
      exact ⟨t2, by simp only [applyOps, applyOp, Remove, e, Option.some_bind, e2], a2⟩

theorem reachable_avl {comp : α → α → Bool} {t : Node α} (h : Reachable comp t) : AVL t := by
  obtain ⟨ops, e⟩ := h
  obtain ⟨t1, e1, a⟩ := applyOps_avl comp ops .nil trivial
  rw [e] at e1
  cases e1
  exact a

theorem applyOps_bst {comp : α → α → Bool} (swo : StrictWeakOrder comp) (ops : List (Op α))
    {t t1 : Node α} (hb : BST comp t) (h : applyOps comp t ops = some t1) : BST comp t1 := by
  induction ops generalizing t with
  | nil =>
    cases h
    exact hb
  | cons op ops ih =>
    obtain ⟨t2, e1, e2⟩ := Option.bind_eq_some.mp h
    cases op with
    | Insert v => exact ih (insert_bst swo v hb e1) e2
    | Remove v => exact ih (remove_bst swo v hb e1) e2

theorem reachable_bst {comp : α → α → Bool} (swo : StrictWeakOrder comp) {t : Node α}
    (h : Reachable comp t) : BST comp t := by
  obtain ⟨ops, e⟩ := h
  exact applyOps_bst swo ops (t := .nil) trivial e

/-! ## The default ordering -/

theorem equiv_less_iff [LinearOrder α] (a b : α) : Equiv less a b ↔ a = b := by
  simp only [Equiv, less, decide_eq_false_iff_not, not_lt]
  exact ⟨fun h => le_antisymm h.2 h.1, fun h => by simp [h]⟩

theorem less_strictWeakOrder [LinearOrder α] : StrictWeakOrder (less : α → α → Bool) where
  irrefl a := by simp [less]
  trans a b c h1 h2 := by
    simp only [less, decide_eq_true_eq] at *
    exact lt_trans h1 h2
  equiv_trans a b c h1 h2 := by
    rw [equiv_less_iff] at *
    exact h1.trans h2

theorem ascending_less_iff [LinearOrder α] (l : List α) :
    Ascending less l ↔ l.Pairwise (· < ·) := by
  simp [Ascending, less]

theorem mem_listInsert_less [LinearOrder α] (v y : α) (l : List α) :
    y ∈ listInsert less v l ↔ y = v ∨ y ∈ l := by
  induction l with
  | nil => simp [listInsert]
  | cons x xs ih =>
    simp only [listInsert]
    split_ifs with c1 c2
    · simp
    · simp only [List.mem_cons, ih]
      tauto
    · have : x = v := by
        simp only [less, decide_eq_true_eq, not_lt] at c1 c2
        exact le_antisymm c1 c2
      simp only [List.mem_cons, this]
      tauto

theorem mem_listRemove_less [LinearOrder α] (v y : α) (l : List α)
    (hl : l.Pairwise (· < ·)) :
    y ∈ listRemove less v l ↔ y ∈ l ∧ y ≠ v := by
  induction l with
  | nil => simp [listRemove]
  | cons x xs ih =>
    obtain ⟨hx, hxs⟩ := List.pairwise_cons.mp hl
    simp only [listRemove]
    split_ifs with c1 c2
    · simp only [less, decide_eq_true_eq] at c1
      simp only [List.mem_cons]
      constructor
      · rintro (e | e)
        · exact ⟨Or.inl e, e ▸ ne_of_gt c1⟩
        · exact ⟨Or.inr e, ne_of_gt (lt_trans c1 (hx y e))⟩
      · exact fun h => h.1
    · simp only [less, decide_eq_true_eq] at c2
      simp only [List.mem_cons, ih hxs]
      constructor
      · rintro (e | e)
        · exact ⟨Or.inl e, e ▸ ne_of_lt c2⟩
        · exact ⟨Or.inr e.1, e.2⟩
      · rintro ⟨e | e, h2⟩
        · exact Or.inl e
        · exact Or.inr ⟨e, h2⟩
    · have : x = v := by
        simp only [less, decide_eq_true_eq, not_lt] at c1 c2
        exact le_antisymm c1 c2
      subst this
      simp only [List.mem_cons]
      constructor
      · intro e
        exact ⟨Or.inr e, ne_of_gt (hx y e)⟩
      · rintro ⟨e | e, h2⟩
        · exact absurd e h2
        · exact e

/-- The concrete tree refines the abstract set along any sequence of operations. -/
theorem applyOps_refines (ops : List (Op Int)) (t : Node Int) (ha : AVL t)
    (hb : BST less t) :
    ∃ t1, applyOps less t ops = some t1 ∧ BST less t1 ∧
      (inorder t1).toFinset = ops.foldl absApply (inorder t).toFinset := by
  induction ops generalizing t with
  | nil => exact ⟨t, rfl, hb, rfl⟩
  | cons op ops ih =>
    have hs := (ascending_less_iff _).mp ((bst_iff_ascending less_strictWeakOrder t).mp hb)
    cases op with
    | Insert v =>
      obtain ⟨t1, e, a, -, -⟩ := insert_avl less v t ha
      have b1 := insert_bst less_strictWeakOrder v hb e
      obtain ⟨t2, e2, b2, f2⟩ := ih t1 a b1
      refine ⟨t2, by simp only [applyOps, applyOp, Insert, e, Option.some_bind, e2], b2, ?_⟩
      rw [f2, List.foldl_cons]
      congr 1
      ext y
      simp only [absApply, insert_inorder less_strictWeakOrder v hb e, List.mem_toFinset,
        mem_listInsert_less, Finset.mem_union, Finset.mem_singleton]
      tauto
    | Remove v =>
      obtain ⟨t1, e, a, -, -⟩ := remove_avl less v t ha
      have b1 := remove_bst less_strictWeakOrder v hb e
      obtain ⟨t2, e2, b2, f2⟩ := ih t1 a b1
      refine ⟨t2, by simp only [applyOps, applyOp, Remove, e, Option.some_bind, e2], b2, ?_⟩
      rw [f2, List.foldl_cons]
      congr 1
      ext y
      simp only [absApply, remove_inorder less_strictWeakOrder v hb e, List.mem_toFinset,
        mem_listRemove_less v y _ hs, Finset.mem_erase]
      tauto

/-- A strictly ascending list is the sorted list of its set of values. -/
theorem sort_toFinset_of_ascending [LinearOrder α] {l : List α} (h : l.Pairwise (· < ·)) :
    l.toFinset.sort (· ≤ ·) = l :=
  (List.toFinset_sort (· ≤ ·) (h.imp (fun hab => ne_of_lt hab))).mpr
    (h.imp (fun hab => le_of_lt hab))

theorem exists_equiv_listInsert {comp : α → α → Bool} (hirr : ∀ a, comp a a = false) (v : α)
    (l : List α) : ∃ x ∈ listInsert comp v l, Equiv comp v x := by
  induction l with
  | nil => exact ⟨v, by simp [listInsert], hirr v, hirr v⟩
  | cons x xs ih =>
    simp only [listInsert]
    split_ifs with c1 c2
    · exact ⟨v, List.mem_cons_self _ _, hirr v, hirr v⟩
    · obtain ⟨y, hy, e⟩ := ih
      exact ⟨y, List.mem_cons_of_mem _ hy, e⟩
    · exact ⟨x, List.mem_cons_self _ _, by simpa using c1, by simpa using c2⟩

theorem no_equiv_listRemove {comp : α → α → Bool} (swo : StrictWeakOrder comp) (v : α)
    {l : List α} (hl : Ascending comp l) : ∀ x ∈ listRemove comp v l, ¬ Equiv comp v x := by
  induction l with
  | nil => simp [listRemove]
  | cons x xs ih =>
    obtain ⟨hx, hxs⟩ := List.pairwise_cons.mp hl
    simp only [listRemove]
    split_ifs with c1 c2
    · intro y hy e
      have hvy : comp v y = true := by
        rcases List.mem_cons.mp hy with e1 | e1
        · exact e1 ▸ c1
        · exact swo.trans _ _ _ c1 (hx y e1)
      rw [e.1] at hvy
      exact Bool.false_ne_true hvy
    · intro y hy e
      rcases List.mem_cons.mp hy with e1 | e1
      · subst e1
        rw [e.2] at c2
        exact Bool.false_ne_true c2
      · exact ih hxs y e1 e
    · intro y hy e
      have hvy : comp v y = true :=
        swo.lt_of_equiv_of_lt ⟨by simpa using c1, by simpa using c2⟩ (hx y hy)
      rw [e.1] at hvy
      exact Bool.false_ne_true hvy

/-- On a node with the shape invariants `balance` changes nothing. -/
theorem balance_of_avl {v : α} {l r : Node α} {h : Int} (ha : AVL (.node v l r h)) :
    balance (.node v l r h) = some (.node v l r h) := by
  obtain ⟨al, ar, hh, b1, b2⟩ := ha
  obtain ⟨t, e, -, -, -, -, u⟩ := balance_spec v l r h al ar (by omega) (by omega)
  rw [e, u b1 b2, hh]

/-- Removing a value with no equivalent stored value returns the very same tree. -/
theorem remove_absent {comp : α → α → Bool} (value : α) {t : Node α} (ha : AVL t)
    (hv : ∀ x ∈ inorder t, ¬ Equiv comp value x) : remove comp t value = some t := by
  induction t with
  | nil => rfl
  | node x l r h ihl ihr =>
    have ha0 := ha
    obtain ⟨al, ar, -, -, -⟩ := ha
    have hvl : ∀ y ∈ inorder l, ¬ Equiv comp value y := fun y hy =>
      hv y (List.mem_append.mpr (Or.inl hy))
    have hvr : ∀ y ∈ inorder r, ¬ Equiv comp value y := fun y hy =>
      hv y (List.mem_append.mpr (Or.inr (List.mem_cons_of_mem _ hy)))
    by_cases c1 : comp value x = true
    · rw [remove_node_left comp x l r h value c1, ihl al hvl, Option.some_bind,
        balance_of_avl ha0]
    · simp only [Bool.not_eq_true] at c1
      by_cases c2 : comp x value = true
      · rw [remove_node_right comp x l r h value c1 c2, ihr ar hvr, Option.some_bind,
          balance_of_avl ha0]
      · simp only [Bool.not_eq_true] at c2
        exact absurd ⟨c1, c2⟩
          (hv x (List.mem_append.mpr (Or.inr (List.mem_cons_self _ _))))

theorem listRemove_listInsert {comp : α → α → Bool} (hirr : ∀ a, comp a a = false) (v : α)
    (l : List α) (hv : ∀ x ∈ l, ¬ Equiv comp v x) :
    listRemove comp v (listInsert comp v l) = l := by
  induction l with
  | nil => simp [listInsert, listRemove, hirr v]
  | cons x xs ih =>
    have ih1 := ih (fun y hy => hv y (List.mem_cons_of_mem _ hy))
    simp only [listInsert]
    split_ifs with c1 c2
    · simp [listRemove, hirr v]
    · simp [listRemove, c1, c2, ih1]
    · exact absurd ⟨by simpa using c1, by simpa using c2⟩ (hv x (List.mem_cons_self _ _))

/-- Two strictly ascending lists with the same members are the same list. -/
theorem ascending_ext [LinearOrder α] {l1 l2 : List α} (h1 : l1.Pairwise (· < ·))
    (h2 : l2.Pairwise (· < ·)) (h : ∀ x, x ∈ l1 ↔ x ∈ l2) : l1 = l2 := by
  rw [← sort_toFinset_of_ascending h1, ← sort_toFinset_of_ascending h2]
  congr 1
  ext x
  simp [h x]

theorem reachable_ascending_less [LinearOrder α] {t : Node α} (h : Reachable less t) :
    (inorder t).Pairwise (· < ·) :=
  (ascending_less_iff _).mp
    ((bst_iff_ascending less_strictWeakOrder t).mp (reachable_bst less_strictWeakOrder h))

/-! ## Size and the height bound -/

theorem size_eq_length (t : Node α) : size t = (inorder t).length := by
  induction t with
  | nil => rfl
  | node v l r h ihl ihr =>
    simp only [size, inorder, List.length_append, List.length_cons, ihl, ihr]
    omega

theorem insert_size_le (comp : α → α → Bool) (value : α) {t t1 : Node α}
    (h : insert comp t value = some t1) : size t1 ≤ size t + 1 := by
  induction t generalizing t1 with
  | nil =>
    cases h
    simp [size]
  | node x l r ht ihl ihr =>
    rw [insert_node] at h
    split_ifs at h with c1 c2
    · obtain ⟨l1, e1, e2⟩ := Option.bind_eq_some.mp h
      have := ihl e1
      rw [size_eq_length, balance_inorder e2, ← size_eq_length]
      simp only [size]
      omega
    · obtain ⟨r1, e1, e2⟩ := Option.bind_eq_some.mp h
      have := ihr e1
      rw [size_eq_length, balance_inorder e2, ← size_eq_length]
      simp only [size]
      omega
    · cases h
      omega

theorem insertAll_size_le (comp : α → α → Bool) (vals : List α) {t t1 : Node α}
    (h : applyOps comp t (vals.map Op.Insert) = some t1) :
    size t1 ≤ size t + vals.length := by
  induction vals generalizing t with
  | nil =>
    cases h
    simp
  | cons v vs ih =>
    obtain ⟨t2, e1, e2⟩ := Option.bind_eq_some.mp h
    have := insert_size_le comp v e1
    have := ih e2
    simp only [List.length_cons]
    omega

/-- A balanced tree of height `h` has at least `fib (h + 2) - 1` nodes. -/
theorem balanced_fib {t : Node α} (hb : Balanced t) :
    Nat.fib (realHeight t + 2) ≤ size t + 1 := by
  induction t with
  | nil => simp [realHeight, size]
  | node v l r h ihl ihr =>
    obtain ⟨b1, b2, bl, br⟩ := hb
    have il := ihl bl
    have ir := ihr br
    simp only [realHeight, size]
    rcases le_total (realHeight r) (realHeight l) with c | c
    · rw [max_eq_left c, show 1 + realHeight l + 2 = (realHeight l + 1) + 2 by ring,
        Nat.fib_add_two]
      have m : Nat.fib (realHeight l + 1) ≤ Nat.fib (realHeight r + 2) :=
        Nat.fib_mono (by omega)
      have e : Nat.fib (realHeight l + 1 + 1) = Nat.fib (realHeight l + 2) := rfl
      omega
    · rw [max_eq_right c, show 1 + realHeight r + 2 = (realHeight r + 1) + 2 by ring,
        Nat.fib_add_two]
      have m : Nat.fib (realHeight r + 1) ≤ Nat.fib (realHeight l + 2) :=
        Nat.fib_mono (by omega)
      have e : Nat.fib (realHeight r + 1 + 1) = Nat.fib (realHeight r + 2) := rfl
      omega

theorem fibBoundCheck_sound (fuel h : Nat)
    (hc : fibBoundCheck fuel h (Nat.fib (h + 2)) (Nat.fib (h + 3)) = true) :
    ∀ k, k < fuel → 2 ^ (25 * (h + k - 1)) < (Nat.fib (h + k + 2) + 1) ^ 36 := by
  induction fuel generalizing h with
  | zero => intro k hk; omega
  | succ fuel ih =>
    simp only [fibBoundCheck, Bool.and_eq_true, decide_eq_true_eq] at hc
    intro k hk
    cases k with
    | zero => exact hc.1
    | succ k =>
      have e : Nat.fib (h + 2) + Nat.fib (h + 3) = Nat.fib (h + 1 + 3) :=
        (Nat.fib_add_two (n := h + 2)).symm
      have := ih (h + 1) (by rw [← e]; exact hc.2) k (by omega)
      rw [show h + (k + 1) - 1 = h + 1 + k - 1 by omega,
        show h + (k + 1) + 2 = h + 1 + k + 2 by omega]
      exact this

/-- Below height 4553 the number of nodes forced by the height keeps the height under
the `1.44 * log2` bound. -/
theorem fib_bound_below (h : Nat) (hh : h < 4553) :
    2 ^ (25 * (h - 1)) < (Nat.fib (h + 2) + 1) ^ 36 := by
  have hc0 : fibBoundCheck 4553 0 1 2 = true := by decide!
  have hc : fibBoundCheck 4553 0 (Nat.fib (0 + 2)) (Nat.fib (0 + 3)) = true := by
    rw [show Nat.fib (0 + 2) = 1 from rfl, show Nat.fib (0 + 3) = 2 from rfl]
    exact hc0
  simpa using fibBoundCheck_sound 4553 0 hc h hh

/-- The integer form of `h ≤ ⌈1.44 * log2 (N + 2)⌉`. -/
theorem le_ceil_of_pow_lt (h N : Nat) :
    2 ^ (25 * (h - 1)) < (N + 2) ^ 36 →
      (h : Int) ≤ ⌈(1.44 : ℝ) * Real.logb 2 ((N : ℝ) + 2)⌉ := by
  have hN : (0 : ℝ) < (N : ℝ) + 2 := by positivity
  have hlog : 0 ≤ Real.logb 2 ((N : ℝ) + 2) :=
    Real.logb_nonneg (by norm_num) (by linarith [Nat.cast_nonneg (α := ℝ) N])
  rcases Nat.eq_zero_or_pos h with h0 | h0
  · subst h0
    intro _
    exact_mod_cast Int.ceil_nonneg (mul_nonneg (by norm_num) hlog)
  · have hc : ((25 * (h - 1) : ℕ) : ℝ) = 25 * ((h : ℝ) - 1) := by
      rw [Nat.cast_mul, Nat.cast_sub h0]
      norm_num
    intro hp
    have hp1 : ((2 : ℝ) ^ (25 * (h - 1))) < ((N : ℝ) + 2) ^ 36 := by exact_mod_cast hp
    clear hp
    have hl := Real.logb_lt_logb (b := 2) (by norm_num) (pow_pos (by norm_num) _) hp1
    clear hp1
    rw [Real.logb_pow, Real.logb_pow, Real.logb_self_eq_one (by norm_num), hc] at hl
    have key : ((h : Int) - 1) < ⌈(1.44 : ℝ) * Real.logb 2 ((N : ℝ) + 2)⌉ := by
      rw [Int.lt_ceil]
      push_cast
      norm_num at hl ⊢
      linarith
    omega

/-- The integer form of `⌈1.44 * log2 (N + 2)⌉ < h`. -/
theorem ceil_lt_of_pow_le (h N : Nat) (h0 : 0 < h) :
    (N + 2) ^ 36 ≤ 2 ^ (25 * (h - 1)) →
      ⌈(1.44 : ℝ) * Real.logb 2 ((N : ℝ) + 2)⌉ < (h : Int) := by
  have hN : (0 : ℝ) < (N : ℝ) + 2 := by positivity
  have hc : ((25 * (h - 1) : ℕ) : ℝ) = 25 * ((h : ℝ) - 1) := by
    rw [Nat.cast_mul, Nat.cast_sub h0]
    norm_num
  intro hp
  have hp1 : ((N : ℝ) + 2) ^ 36 ≤ ((2 : ℝ) ^ (25 * (h - 1))) := by exact_mod_cast hp
  clear hp
  have hl := Real.logb_le_logb_of_le (b := 2) (by norm_num) (pow_pos hN _) hp1
  clear hp1
  rw [Real.logb_pow, Real.logb_pow, Real.logb_self_eq_one (by norm_num), hc] at hl
  have key : ⌈(1.44 : ℝ) * Real.logb 2 ((N : ℝ) + 2)⌉ ≤ (h : Int) - 1 := by
    rw [Int.ceil_le]
    push_cast
    norm_num at hl ⊢
    linarith
  omega

/-- After any sequence of insertions the height is within the Fibonacci bound. -/
theorem insertAll_fib (comp : α → α → Bool) (vals : List α) :
    ∃ t, applyOps comp .nil (vals.map Op.Insert) = some t ∧ AVL t ∧
      Nat.fib (realHeight t + 2) ≤ vals.length + 1 := by
  obtain ⟨t, e, a⟩ := applyOps_avl comp (vals.map Op.Insert) .nil trivial
  have h1 := balanced_fib ((avl_iff t).mp a).2
  have h2 := insertAll_size_le comp vals e
  simp only [size, zero_add] at h2
  exact ⟨t, e, a, by omega⟩

/-- The height bound in its logarithmic form, for fewer than `fib 4555 - 1` nodes. -/
theorem height_le_ceil {t : Node α} (a : AVL t) (N : Nat)
    (h1 : Nat.fib (realHeight t + 2) ≤ N + 1) (hN : N + 1 < Nat.fib 4555) :
    getHeight t ≤ ⌈(1.44 : ℝ) * Real.logb 2 ((N : ℝ) + 2)⌉ := by
  rw [heightCached_getHeight ((avl_iff t).mp a).1]
  apply le_ceil_of_pow_lt
  have hlt : realHeight t < 4553 := by
    by_contra hc
    have := Nat.fib_mono (show 4555 ≤ realHeight t + 2 by omega)
    omega
  exact lt_of_lt_of_le (fib_bound_below _ hlt) (Nat.pow_le_pow_left (by omega) 36)

/-- A tree of height 4553 or more does not fit in a 64-bit address space: it has at
least `fib 4555 - 1` nodes, far more than `2 ^ 64`. -/
theorem two_pow_64_lt_fib : 2 ^ 64 < Nat.fib 4555 := by
  have h1 : 2 ^ 64 < Nat.fib 95 := by norm_num
  have h2 : Nat.fib 95 ≤ Nat.fib 4555 := Nat.fib_mono (by norm_num)
  exact lt_of_lt_of_le h1 h2

/-- The height bound in its logarithmic form, for a tree with fewer than `2 ^ 64` nodes
and any number `N` of insertions that is at least the number of nodes. -/
theorem height_le_ceil_of_size {t : Node α} (a : AVL t) (N : Nat) (hs : size t ≤ N)
    (h64 : size t < 2 ^ 64) :
    getHeight t ≤ ⌈(1.44 : ℝ) * Real.logb 2 ((N : ℝ) + 2)⌉ := by
  have hc : ((size t : ℝ) + 2) ≤ (N : ℝ) + 2 :=
    add_le_add_right (Nat.cast_le.mpr hs) 2
  have hp : (0 : ℝ) < (size t : ℝ) + 2 :=
    add_pos_of_nonneg_of_pos (Nat.cast_nonneg _) (by norm_num)
  have hm : (1.44 : ℝ) * Real.logb 2 ((size t : ℝ) + 2) ≤
      (1.44 : ℝ) * Real.logb 2 ((N : ℝ) + 2) :=
    mul_le_mul_of_nonneg_left (Real.logb_le_logb_of_le (by norm_num) hp hc) (by norm_num)
  have h1 := balanced_fib ((avl_iff t).mp a).2
  have h2 : size t + 1 < Nat.fib 4555 :=
    lt_of_le_of_lt (Nat.succ_le_of_lt h64) two_pow_64_lt_fib
  exact le_trans (height_le_ceil a (size t) h1 h2) (Int.ceil_mono hm)

/-! ## Every AVL search tree is built by insertions alone -/

theorem topPart_size_le {s t : Node α} (h : TopPart s t) : size s ≤ size t := by
  induction t generalizing s with
  | nil =>
    cases s with
    | nil => exact le_refl _
    | node v l r hs => exact absurd h (by simp [TopPart])
  | node w l1 r1 ht ihl ihr =>
    cases s with
    | nil => simp [size]
    | node v l r hs =>
      obtain ⟨-, hl, hr⟩ := h
      have := ihl hl
      have := ihr hr
      simp only [size]
      omega

theorem topPart_eq {s t : Node α} (h : TopPart s t) (hs : AVL s) (ht : AVL t)
    (hsz : size t ≤ size s) : s = t := by
  induction t generalizing s with
  | nil =>
    cases s with
    | nil => rfl
    | node v l r hs => exact absurd h (by simp [TopPart])
  | node w l1 r1 ht1 ihl ihr =>
    cases s with
    | nil =>
      simp only [size] at hsz
      omega
    | node v l r hs1 =>
      obtain ⟨e, hl, hr⟩ := h
      obtain ⟨asl, asr, es, -, -⟩ := hs
      obtain ⟨atl, atr, et, -, -⟩ := ht
      have := topPart_size_le hl
      have := topPart_size_le hr
      simp only [size] at hsz
      have el := ihl hl asl atl (by omega)
      have er := ihr hr asr atr (by omega)
      subst e el er
      rw [es, et]

theorem topPart_height_le {s t : Node α} (h : TopPart s t) (hs : AVL s) (ht : AVL t) :
    getHeight s ≤ getHeight t := by
  induction t generalizing s with
  | nil =>
    cases s with
    | nil => exact le_refl _
    | node v l r hs => exact absurd h (by simp [TopPart])
  | node w l1 r1 ht1 ihl ihr =>
    cases s with
    | nil => exact getHeight_nonneg ht
    | node v l r hs1 =>
      obtain ⟨-, hl, hr⟩ := h
      obtain ⟨asl, asr, es, -, -⟩ := hs
      obtain ⟨atl, atr, et, -, -⟩ := ht
      have := ihl hl asl atl
      have := ihr hr asr atr
      simp only [getHeight_node]
      omega

/-- A proper top part of an AVL search tree can be extended by one insertion that
triggers no rotation and yields a larger top part of the same tree. -/
theorem topPart_step {comp : α → α → Bool} (swo : StrictWeakOrder comp) {s t : Node α}
    (h : TopPart s t) (hs : AVL s) (ht : AVL t) (hb : BST comp t) (hsz : size s < size t) :
    ∃ v s1, insert comp s v = some s1 ∧ TopPart s1 t ∧ AVL s1 ∧ size s1 = size s + 1 ∧
      getHeight s ≤ getHeight s1 ∧ v ∈ inorder t := by
  induction t generalizing s with
  | nil =>
    simp only [size] at hsz
    omega
  | node w l1 r1 ht1 ihl ihr =>
    cases s with
    | nil =>
      refine ⟨w, .node w .nil .nil 1, rfl, ⟨rfl, trivial, trivial⟩, ?_, by simp [size], ?_, ?_⟩
      · simp [AVL, getHeight_nil]
      · simp [getHeight_nil, getHeight_node]
      · simp [inorder]
    | node v l r hs1 =>
      obtain ⟨e, hl, hr⟩ := h
      subst e
      obtain ⟨asl, asr, es, bs1, bs2⟩ := hs
      obtain ⟨atl, atr, et, bt1, bt2⟩ := ht
      obtain ⟨b1, b2, bl, br⟩ := hb
      have szl := topPart_size_le hl
      have szr := topPart_size_le hr
      have hhl := topPart_height_le hl asl atl
      have hhr := topPart_height_le hr asr atr
      simp only [size] at hsz
      by_cases c : size l < size l1 ∧ (size r1 ≤ size r ∨ getHeight l ≤ getHeight r)
      · obtain ⟨x, l2, e1, tp, a2, sz2, g1, mem⟩ := ihl hl asl atl bl c.1
        obtain ⟨l3, e3, -, -, g2⟩ := insert_avl comp x l asl
        rw [e1] at e3
        cases e3
        have g3 := topPart_height_le tp a2 atl
        have d1 : getHeight l2 - getHeight r ≤ 1 ∧ getHeight r - getHeight l2 ≤ 1 := by
          rcases c.2 with c2 | c2
          · have er := topPart_eq hr asr atr c2
            subst er
            constructor <;> omega
          · constructor <;> omega
        obtain ⟨s1, e4, a4, -, -, -, u⟩ :=
          balance_spec v l2 r hs1 a2 asr (by omega) (by omega)
        rw [u d1.1 d1.2] at e4 a4
        refine ⟨x, .node v l2 r (1 + max (getHeight l2) (getHeight r)), ?_, ⟨rfl, tp, hr⟩, a4,
          ?_, ?_, ?_⟩
        · rw [insert_node, if_pos (b1 x mem), e1, Option.some_bind, e4]
        · simp only [size]
          omega
        · simp only [getHeight_node]
          omega
        · simp only [inorder, List.mem_append]
          exact Or.inl mem
      · have c1 : size r < size r1 := by
          by_contra hc
          apply c
          constructor
          · omega
          · left
            omega
        have c2 : size l1 ≤ size l ∨ getHeight r < getHeight l := by
          by_contra hc
          apply c
          simp only [not_or, not_le, not_lt] at hc
          exact ⟨hc.1, Or.inr hc.2⟩
        obtain ⟨x, r2, e1, tp, a2, sz2, g1, mem⟩ := ihr hr asr atr br c1
        obtain ⟨r3, e3, -, -, g2⟩ := insert_avl comp x r asr
        rw [e1] at e3
        cases e3
        have g3 := topPart_height_le tp a2 atr
        have d1 : getHeight l - getHeight r2 ≤ 1 ∧ getHeight r2 - getHeight l ≤ 1 := by
          rcases c2 with c2 | c2
          · have el := topPart_eq hl asl atl c2
            subst el
            constructor <;> omega
          · constructor <;> omega
        obtain ⟨s1, e4, a4, -, -, -, u⟩ :=
          balance_spec v l r2 hs1 asl a2 (by omega) (by omega)
        rw [u d1.1 d1.2] at e4 a4
        have hvx := b2 x mem
        have hxv : ¬ comp x v = true := by
          rw [swo.asymm hvx]
          exact Bool.false_ne_true
        refine ⟨x, .node v l r2 (1 + max (getHeight l) (getHeight r2)), ?_, ⟨rfl, hl, tp⟩, a4,
          ?_, ?_, ?_⟩
        · rw [insert_node, if_neg hxv, if_pos hvx, e1, Option.some_bind, e4]
        · simp only [size]
          omega
        · simp only [getHeight_node]
          omega
        · simp only [inorder, List.mem_append, List.mem_cons]
          exact Or.inr (Or.inr mem)

/-- A top part of an AVL search tree grows into the whole tree by as many insertions as
there are missing nodes. -/
theorem topPart_complete {comp : α → α → Bool} (swo : StrictWeakOrder comp) (n : Nat)
    {s t : Node α} (h : TopPart s t) (hs : AVL s) (ht : AVL t) (hb : BST comp t)
    (hsz : size s + n = size t) :
    ∃ vals : List α, vals.length = n ∧ applyOps comp s (vals.map Op.Insert) = some t := by
  induction n generalizing s with
  | zero =>
    have e := topPart_eq h hs ht (by omega)
    subst e
    exact ⟨[], rfl, rfl⟩
  | succ n ih =>
    obtain ⟨v, s1, e1, tp, a1, sz1, -, -⟩ := topPart_step swo h hs ht hb (by omega)
    obtain ⟨vals, hl, e2⟩ := ih tp a1 (by omega)
    refine ⟨v :: vals, by simp [hl], ?_⟩
    simp only [List.map_cons, applyOps, applyOp, Insert, e1, Option.some_bind, e2]

/-- The Fibonacci tree of height `h` is an AVL search tree with `fib (h + 2) - 1` nodes. -/
theorem fibTree_spec : ∀ (h : Nat) (lo : Int),
    AVL (fibTree h lo) ∧ getHeight (fibTree h lo) = (h : Int) ∧
      size (fibTree h lo) + 1 = Nat.fib (h + 2) ∧ BST less (fibTree h lo) ∧
      ∀ y ∈ inorder (fibTree h lo), lo ≤ y ∧ y + 1 < lo + (Nat.fib (h + 2) : Int)
  | 0, lo => by simp [fibTree, AVL, getHeight_nil, size, BST, inorder]
  | 1, lo => by
    simp [fibTree, AVL, getHeight_nil, getHeight_node, size, BST, inorder, Nat.fib_add_two]
  | h + 2, lo => by
    obtain ⟨a1, g1, s1, b1, k1⟩ := fibTree_spec (h + 1) lo
    obtain ⟨a0, g0, s0, b0, k0⟩ := fibTree_spec h (lo + (Nat.fib (h + 3) : Int))
    have f4 : Nat.fib (h + 2 + 2) = Nat.fib (h + 2) + Nat.fib (h + 3) := Nat.fib_add_two
    have e3 : Nat.fib (h + 1 + 2) = Nat.fib (h + 3) := rfl
    rw [e3] at s1 k1
    refine ⟨⟨a1, a0, ?_, ?_, ?_⟩, ?_, ?_, ⟨?_, ?_, b1, b0⟩, ?_⟩
    · rw [g1, g0]
      push_cast
      omega
    · rw [g1, g0]
      push_cast
      omega
    · rw [g1, g0]
      push_cast
      omega
    · simp [fibTree, getHeight_node]
    · simp only [size]
      omega
    · intro y hy
      have := k1 y hy
      simp only [less, decide_eq_true_eq]
      omega
    · intro y hy
      have := k0 y hy
      simp only [less, decide_eq_true_eq]
      omega
    · intro y hy
      rw [fibTree, inorder] at hy
      rcases List.mem_append.mp hy with m | m
      · have := k1 y m
        omega
      · rcases List.mem_cons.mp m with m1 | m1
        · have p3 : 0 < Nat.fib (h + 3) := Nat.fib_pos.mpr (by omega)
          omega
        · have := k0 y m1
          omega

/-- Some sequence of `fib (h + 2) - 1` insertions builds a tree of height `h`. -/
theorem exists_inserts_of_height (h : Nat) :
    ∃ (vals : List Int) (t : Node Int), vals.length + 1 = Nat.fib (h + 2) ∧
      applyOps less .nil (vals.map Op.Insert) = some t ∧ getHeight t = (h : Int) := by
  obtain ⟨a, g, sz, b, -⟩ := fibTree_spec h 0
  obtain ⟨vals, hl, e⟩ := topPart_complete less_strictWeakOrder (size (fibTree h 0))
    (s := .nil) (t := fibTree h 0) trivial trivial a b (by simp [size])
  exact ⟨vals, fibTree h 0, by omega, e, g⟩

/-- At 4553 levels the sparsest AVL tree has too few nodes for the `1.44 * log2`
bound. -/
theorem fib_bound_fails : (Nat.fib 4555 + 1) ^ 36 ≤ 2 ^ (25 * (4553 - 1)) := by
  norm_num

/-! ## The claims -/

/-- C1. Set refinement: every finite sequence of `Insert`/`Remove` operations applied
to an empty `AVLTree<int>` runs to completion, and the in-order traversal of the result
is the strictly ascending list of the abstract set obtained by running the same
operations on the empty set.  Inserting 5, 3, 7, 2 gives `[2,3,5,7]`; removing 3
afterwards gives `[2,5,7]`. -/
theorem C1_set_refinement :
    (∀ ops : List (Op Int), ∃ t, applyOps less .nil ops = some t ∧
        InOrder t = (absRun ops).sort (· ≤ ·) ∧ (InOrder t).Pairwise (· < ·)) ∧
      (applyOps less .nil [.Insert 5, .Insert 3, .Insert 7, .Insert 2]).map InOrder =
        some [2, 3, 5, 7] ∧
      (applyOps less .nil [.Insert 5, .Insert 3, .Insert 7, .Insert 2, .Remove 3]).map
        InOrder = some [2, 5, 7] := by
  refine ⟨fun ops => ?_, by decide, by decide⟩
  obtain ⟨t, e, b, f⟩ := applyOps_refines ops .nil trivial trivial
  have hs := (ascending_less_iff _).mp ((bst_iff_ascending less_strictWeakOrder t).mp b)
  refine ⟨t, e, ?_, hs⟩
  have f1 : (inorder t).toFinset = absRun ops := f
  rw [← f1]
  exact (sort_toFinset_of_ascending hs).symm

/-- C2. On every tree reachable by `Insert`/`Remove` under a strict weak order,
`Contains(v)` is true exactly when the in-order sequence holds a value equivalent to
`v`; `Contains(v)` is true right after `Insert(v)` and false right after `Remove(v)`.
After inserting 0..99 and removing 0..49, `Contains(25)` is false and `Contains(75)` is
true. -/
theorem C2_contains_iff (comp : α → α → Bool) (swo : StrictWeakOrder comp) (t : Node α)
    (hr : Reachable comp t) (v : α) :
    (Contains comp t v = true ↔ ∃ x ∈ InOrder t, Equiv comp v x) ∧
      (∃ t1, Insert comp t v = some t1 ∧ Contains comp t1 v = true) ∧
      (∃ t2, Remove comp t v = some t2 ∧ Contains comp t2 v = false) ∧
      (applyOps less .nil
          ((List.range 100).map (fun i => Op.Insert (i : Int)) ++
            (List.range 50).map (fun i => Op.Remove (i : Int)))).map
        (fun r => (Contains less r 25, Contains less r 75)) = some (false, true) := by
  have ha := reachable_avl hr
  have hb := reachable_bst swo hr
  refine ⟨contains_iff swo v hb, ?_, ?_, by decide!⟩
  · obtain ⟨t1, e, -, -, -⟩ := insert_avl comp v t ha
    refine ⟨t1, e, ?_⟩
    rw [contains_iff swo v (insert_bst swo v hb e), insert_inorder swo v hb e]
    exact exists_equiv_listInsert swo.irrefl v _
  · obtain ⟨t2, e, -, -, -⟩ := remove_avl comp v t ha
    refine ⟨t2, e, ?_⟩
    rw [← Bool.not_eq_true, contains_iff swo v (remove_bst swo v hb e),
      remove_inorder swo v hb e]
    rintro ⟨x, hx, he⟩
    exact no_equiv_listRemove swo v ((bst_iff_ascending swo t).mp hb) x hx he

/-- Witness of C2: the tree built by inserting 5, 3, 7, 2, asked to remove 3. -/
theorem C2_contains_iff_witness :
    Reachable less tree5372 ∧
      ∃ t2, Remove less tree5372 3 = some t2 ∧ Contains less t2 3 = false :=
  ⟨⟨[.Insert 5, .Insert 3, .Insert 7, .Insert 2], by decide⟩,
    (C2_contains_iff less less_strictWeakOrder tree5372
      ⟨[.Insert 5, .Insert 3, .Insert 7, .Insert 2], by decide⟩ 3).2.2.1⟩

/-- C3. Search-tree invariant: on every tree reachable by `Insert`/`Remove` under a
strict weak order, at every node the values of the left subtree precede the node's
value and those of the right subtree follow it; the in-order traversal is strictly
ascending and holds no two equivalent values. -/
theorem C3_bst_invariant (comp : α → α → Bool) (swo : StrictWeakOrder comp) (t : Node α)
    (hr : Reachable comp t) :
    BST comp t ∧ Ascending comp (InOrder t) ∧
      (InOrder t).Pairwise (fun a b => ¬ Equiv comp a b) := by
  have hb := reachable_bst swo hr
  have hs := (bst_iff_ascending swo t).mp hb
  refine ⟨hb, hs, List.Pairwise.imp (fun hab e => ?_) hs⟩
  rw [e.1] at hab
  exact Bool.false_ne_true hab

/-- Witness of C3: the tree left by inserting 5, 3, 7, 2 and removing 5. -/
theorem C3_bst_invariant_witness : Reachable less tree372 ∧ BST less tree372 :=
  ⟨⟨[.Insert 5, .Insert 3, .Insert 7, .Insert 2, .Remove 5], by decide⟩,
    (C3_bst_invariant less less_strictWeakOrder tree372
      ⟨[.Insert 5, .Insert 3, .Insert 7, .Insert 2, .Remove 5], by decide⟩).1⟩

/-- C4. AVL balance invariant: on every tree reachable by `Insert`/`Remove` (whatever
the comparator), at every node the true heights of the two subtrees differ by at most
one. -/
theorem C4_avl_balance (comp : α → α → Bool) (t : Node α) (hr : Reachable comp t) :
    Balanced t :=
  ((avl_iff t).mp (reachable_avl hr)).2

/-- Witness of C4: removing the root 5, which has two children, after inserting
5, 3, 7, 2. -/
theorem C4_avl_balance_witness : Reachable less tree372 ∧ Balanced tree372 :=
  ⟨⟨[.Insert 5, .Insert 3, .Insert 7, .Insert 2, .Remove 5], by decide⟩,
    C4_avl_balance less tree372
      ⟨[.Insert 5, .Insert 3, .Insert 7, .Insert 2, .Remove 5], by decide⟩⟩

/-- C5. Height-cache invariant: on every tree reachable by `Insert`/`Remove`, every
stored height is `1 + max` of the children's heights (`0` for an absent child), so
`GetHeight()` is the true height of the tree; it is `0` on the empty tree. -/
theorem C5_height_cache (comp : α → α → Bool) (t : Node α) (hr : Reachable comp t) :
    HeightCached t ∧ GetHeight t = (realHeight t : Int) ∧
      GetHeight (Node.nil : Node α) = 0 := by
  have hc := ((avl_iff t).mp (reachable_avl hr)).1
  exact ⟨hc, heightCached_getHeight hc, rfl⟩

/-- Witness of C5: the tree built by inserting 5, 3, 7, 2 has height 3. -/
theorem C5_height_cache_witness :
    Reachable less tree5372 ∧ GetHeight tree5372 = (realHeight tree5372 : Int) :=
  ⟨⟨[.Insert 5, .Insert 3, .Insert 7, .Insert 2], by decide⟩,
    (C5_height_cache less tree5372
      ⟨[.Insert 5, .Insert 3, .Insert 7, .Insert 2], by decide⟩).2.1⟩

/-- C8. Removing an absent value is a no-op: on a tree reachable by `Insert`/`Remove`
(whatever the comparator), `Remove(v)` of a value with no equivalent stored value
succeeds and returns the very same tree (same shape, values and cached heights). -/
theorem C8_remove_absent (comp : α → α → Bool) (t : Node α)
    (hr : Reachable comp t) (v : α) (hv : ∀ x ∈ InOrder t, ¬ Equiv comp v x) :
    Remove comp t v = some t :=
  remove_absent v (reachable_avl hr) hv

/-- Witness of C8: removing 10 from the tree built from 5, 3, 7, 2. -/
theorem C8_remove_absent_witness :
    Reachable less tree5372 ∧ (∀ x ∈ InOrder tree5372, ¬ Equiv less 10 x) ∧
      Remove less tree5372 10 = some tree5372 :=
  ⟨⟨[.Insert 5, .Insert 3, .Insert 7, .Insert 2], by decide⟩,
    by decide,
    C8_remove_absent less tree5372
      ⟨[.Insert 5, .Insert 3, .Insert 7, .Insert 2], by decide⟩ 10 (by decide)⟩

/-- C9. Insert/Remove round trip: on a tree `t` reachable by `Insert`/`Remove` under
the default ordering and a value `v` not contained in `t`, `Insert(v)` followed by
`Remove(v)` succeeds and gives a tree that is `Equals` to `t`, that is, with the same
in-order sequence. -/
theorem C9_insert_remove_roundtrip [LinearOrder α] (t : Node α) (hr : Reachable less t)
    (v : α) (hv : Contains less t v = false) :
    ∃ t1 t2, Insert less t v = some t1 ∧ Remove less t1 v = some t2 ∧
      Equals t2 t = true ∧ InOrder t2 = InOrder t := by
  have swo : StrictWeakOrder (less : α → α → Bool) := less_strictWeakOrder
  have ha := reachable_avl hr
  have hb := reachable_bst swo hr
  obtain ⟨t1, e1, a1, -, -⟩ := insert_avl less v t ha
  have b1 := insert_bst swo v hb e1
  obtain ⟨t2, e2, -, -, -⟩ := remove_avl less v t1 a1
  have hno : ∀ x ∈ inorder t, ¬ Equiv less v x := fun x hx e =>
    Bool.false_ne_true (hv ▸ (contains_iff swo v hb).mpr ⟨x, hx, e⟩)
  have e3 : inorder t2 = inorder t := by
    rw [remove_inorder swo v b1 e2, insert_inorder swo v hb e1,
      listRemove_listInsert swo.irrefl v _ hno]
  exact ⟨t1, t2, e1, e2, by simp [Equals, InOrder, e3], e3⟩

/-- Witness of C9: on the tree built from 1, 2 (root 1 with right child 2), inserting 3
rotates, and removing 3 leaves root 2 with left child 1: a different shape with the
same in-order sequence. -/
theorem C9_insert_remove_roundtrip_witness :
    Reachable less (.node 1 .nil (.node 2 .nil .nil 1) 2 : Node Int) ∧
      Contains less (.node 1 .nil (.node 2 .nil .nil 1) 2 : Node Int) 3 = false ∧
      ∃ t1 t2, Insert less (.node 1 .nil (.node 2 .nil .nil 1) 2 : Node Int) 3 = some t1 ∧
        Remove less t1 3 = some t2 ∧
        Equals t2 (.node 1 .nil (.node 2 .nil .nil 1) 2) = true ∧
        InOrder t2 = InOrder (.node 1 .nil (.node 2 .nil .nil 1) 2 : Node Int) :=
  ⟨⟨[.Insert 1, .Insert 2], by decide⟩, by decide,
    C9_insert_remove_roundtrip (.node 1 .nil (.node 2 .nil .nil 1) 2 : Node Int)
      ⟨[.Insert 1, .Insert 2], by decide⟩ 3 (by decide)⟩

/-- C10. `Equals` is content equality independent of shape: for trees `a` and `b`
reachable by `Insert`/`Remove` under the default ordering, `Equals(a, b)` is true
exactly when `a` and `b` store the same values; `Equals(a, a)` is true and `Equals` is
symmetric. -/
theorem C10_equals_content [LinearOrder α] (a b : Node α) (ha : Reachable less a)
    (hb : Reachable less b) :
    (Equals a b = true ↔ ∀ x, x ∈ InOrder a ↔ x ∈ InOrder b) ∧
      Equals a a = true ∧ Equals a b = Equals b a := by
  refine ⟨?_, by simp [Equals], ?_⟩
  · simp only [Equals, decide_eq_true_eq]
    constructor
    · intro h x
      rw [h]
    · exact ascending_ext (reachable_ascending_less ha) (reachable_ascending_less hb)
  · simp only [Equals]
    exact decide_eq_decide.mpr eq_comm

/-- Witness of C10: for the tree built from 1, 2, 3 and the tree left by `Remove(5)`
after 5, 3, 7, 2 (which holds 2, 3, 7), both reachable, `Equals` holds exactly when the
two trees store the same values. -/
theorem C10_equals_content_witness :
    Reachable less (.node 2 (.node 1 .nil .nil 1) (.node 3 .nil .nil 1) 2 : Node Int) ∧
      Reachable less tree372 ∧
      (Equals (.node 2 (.node 1 .nil .nil 1) (.node 3 .nil .nil 1) 2 : Node Int) tree372 =
          true ↔
        ∀ x, x ∈ InOrder (.node 2 (.node 1 .nil .nil 1) (.node 3 .nil .nil 1) 2 : Node Int) ↔
          x ∈ InOrder tree372) :=
  ⟨⟨[.Insert 1, .Insert 2, .Insert 3], by decide⟩,
    ⟨[.Insert 5, .Insert 3, .Insert 7, .Insert 2, .Remove 5], by decide⟩,
    (C10_equals_content _ tree372 ⟨[.Insert 1, .Insert 2, .Insert 3], by decide⟩
      ⟨[.Insert 5, .Insert 3, .Insert 7, .Insert 2, .Remove 5], by decide⟩).1⟩

/-- The bound on the number of nodes cannot be dropped from the logarithmic height
bound: `1.44` is below `1 / log2 φ = 1.4404...`, and on unbounded memory some sequence
of `N = fib 4555 - 1` insertions of integers into an empty tree under the default
ordering builds the Fibonacci tree of height 4553, while
`⌈1.44 * log2 (N + 2)⌉ ≤ 4552`.  Such a tree has more than `2 ^ 64` nodes. -/
theorem height_bound_fails_unbounded :
    ∃ (vals : List Int) (t : Node Int),
      applyOps less .nil (vals.map Op.Insert) = some t ∧ 2 ^ 64 < size t + 1 ∧
        ⌈(1.44 : ℝ) * Real.logb 2 ((vals.length : ℝ) + 2)⌉ < GetHeight t := by
  obtain ⟨vals, t, hl, e, g⟩ := exists_inserts_of_height 4553
  have hl1 : vals.length + 1 = Nat.fib 4555 := hl
  have a := reachable_avl ⟨_, e⟩
  have hr : realHeight t = 4553 := by
    have := heightCached_getHeight ((avl_iff t).mp a).1
    rw [g] at this
    exact_mod_cast this.symm
  have hf := balanced_fib ((avl_iff t).mp a).2
  rw [hr] at hf
  refine ⟨vals, t, e, lt_of_lt_of_le two_pow_64_lt_fib hf, ?_⟩
  rw [GetHeight, g]
  apply ceil_lt_of_pow_le 4553 vals.length (by norm_num)
  rw [show vals.length + 2 = Nat.fib 4555 + 1 by omega]
  exact fib_bound_fails

/-- C6. Height bound: any sequence of `N` `Insert` calls on an empty tree (any
comparator, any values, duplicates allowed) returns a tree with at most `N` nodes whose
height `h` satisfies `fib (h + 2) ≤ N + 1`, and `GetHeight() ≤ ⌈1.44 * log2 (N + 2)⌉`
(real-valued logarithm) whenever the tree has fewer than `2 ^ 64` nodes: every tree
whose nodes lie at distinct addresses of a 64-bit memory, in particular every tree
built by fewer than `2 ^ 64` calls. -/
theorem C6_height_bound (comp : α → α → Bool) (vals : List α) :
    ∃ t, applyOps comp .nil (vals.map Op.Insert) = some t ∧
      size t ≤ vals.length ∧
      Nat.fib ((GetHeight t).toNat + 2) ≤ vals.length + 1 ∧
      (size t < 2 ^ 64 →
        GetHeight t ≤ ⌈(1.44 : ℝ) * Real.logb 2 ((vals.length : ℝ) + 2)⌉) := by
  obtain ⟨t, e, a, h1⟩ := insertAll_fib comp vals
  have hs : size t ≤ vals.length := by
    have h2 := insertAll_size_le comp vals e
    simpa only [size, zero_add] using h2
  refine ⟨t, e, hs, ?_, fun h64 => height_le_ceil_of_size a vals.length hs h64⟩
  have e1 : (GetHeight t).toNat = realHeight t := by
    simp [GetHeight, heightCached_getHeight ((avl_iff t).mp a).1]
  rw [e1]
  exact h1

/-- Witness of C6: the values 0..99 inserted in ascending order give a tree of at most
100 nodes; its height is 7, within the bound `⌈1.44 * log2 102⌉` and at most 10. -/
theorem C6_height_bound_witness :
    ∃ t, applyOps less .nil (values0to99.map Op.Insert) = some t ∧
      size t < 2 ^ 64 ∧
      GetHeight t ≤ ⌈(1.44 : ℝ) * Real.logb 2 ((values0to99.length : ℝ) + 2)⌉ ∧
      GetHeight t ≤ 10 := by
  obtain ⟨t, e, hs, -, h⟩ := C6_height_bound less values0to99
  have h7 : (applyOps less .nil (values0to99.map Op.Insert)).map GetHeight = some 7 := by
    decide!
  rw [e] at h7
  have h8 : GetHeight t = 7 := by simpa using h7
  have el : values0to99.length = 100 := by decide
  have h64 : size t < 2 ^ 64 := lt_of_le_of_lt (el ▸ hs) (by norm_num)
  exact ⟨t, e, h64, h h64, by omega⟩

/-- C20. Rebalancing step: on a node whose subtrees satisfy the balance and height-cache
invariants and differ in height by at most two, `balance` returns a tree with the same
in-order sequence, satisfying both invariants at every node, of height `h` or `h - 1`
for `h = 1 + max` of the subtree heights.  The rotation is chosen by the sign of the
heavy child's balance factor: a single rotation when it leans outwards or is even, a
double rotation when it leans inwards, none when the node is within tolerance. -/
theorem C20_balance_step (v : α) (l r : Node α) (h : Int)
    (hcl : HeightCached l) (hbl : Balanced l) (hcr : HeightCached r) (hbr : Balanced r)
    (hd1 : realHeight l ≤ realHeight r + 2) (hd2 : realHeight r ≤ realHeight l + 2) :
    ∃ t, balance (.node v l r h) = some t ∧
      inorder t = inorder (.node v l r h) ∧
      HeightCached t ∧ Balanced t ∧
      (realHeight t = 1 + max (realHeight l) (realHeight r) ∨
        realHeight t + 1 = 1 + max (realHeight l) (realHeight r)) ∧
      (getBalance (updateHeight (.node v l r h)) > 1 → getBalance l ≥ 0 →
        rotateRight (updateHeight (.node v l r h)) = some t) ∧
      (getBalance (updateHeight (.node v l r h)) > 1 → getBalance l < 0 →
        ∃ l1, rotateLeft l = some l1 ∧
          rotateRight (.node v l1 r (getHeight (updateHeight (.node v l r h)))) = some t) ∧
      (getBalance (updateHeight (.node v l r h)) < -1 → getBalance r ≤ 0 →
        rotateLeft (updateHeight (.node v l r h)) = some t) ∧
      (getBalance (updateHeight (.node v l r h)) < -1 → getBalance r > 0 →
        ∃ r1, rotateRight r = some r1 ∧
          rotateLeft (.node v l r1 (getHeight (updateHeight (.node v l r h)))) = some t) ∧
      (-1 ≤ getBalance (updateHeight (.node v l r h)) →
        getBalance (updateHeight (.node v l r h)) ≤ 1 →
        t = updateHeight (.node v l r h)) := by
  have al := (avl_iff l).mpr ⟨hcl, hbl⟩
  have ar := (avl_iff r).mpr ⟨hcr, hbr⟩
  have el := heightCached_getHeight hcl
  have er := heightCached_getHeight hcr
  obtain ⟨t, e, a, io, u1, u2, -⟩ := balance_spec v l r h al ar (by omega) (by omega)
  have ht := (avl_iff t).mp a
  have et := heightCached_getHeight ht.1
  have e0 := e
  rw [balance_node] at e0
  simp only [updateHeight_node, getBalance_node, getHeight_node]
  refine ⟨t, e, io, ht.1, ht.2, by omega, ?_, ?_, ?_, ?_, ?_⟩
  · intro c1 c2
    rw [if_pos c1, if_pos c2] at e0
    exact e0
  · intro c1 c2
    rw [if_pos c1, if_neg (by omega)] at e0
    exact Option.bind_eq_some.mp e0
  · intro c1 c2
    rw [if_neg (by omega), if_pos c1, if_pos c2] at e0
    exact e0
  · intro c1 c2
    rw [if_neg (by omega), if_pos c1, if_neg (by omega)] at e0
    exact Option.bind_eq_some.mp e0
  · intro c1 c2
    rw [if_neg (by omega), if_neg (by omega)] at e0
    cases e0
    rfl

/-- Witness of C20: the chain 5, 3, 2 is left-heavy by two with a left child leaning
left, and one right rotation puts 3 at the root. -/
theorem C20_balance_step_witness :
    ∃ t, balance chain532 = some t ∧ inorder t = inorder chain532 ∧ HeightCached t ∧
      Balanced t ∧ rotateRight (updateHeight chain532) = some t := by
  obtain ⟨t, e, io, hc, hb, -, r1, -⟩ :=
    C20_balance_step (5 : Int) (.node 3 (.node 2 .nil .nil 1) .nil 2) .nil 3
      (by decide) (by decide) (by decide) (by decide) (by decide) (by decide)
  exact ⟨t, e, io, hc, hb, r1 (by decide) (by decide)⟩

theorem insertAll_nil (comp : α → α → Bool) (tree : Node α) :
    insertAll comp [] tree = some tree := rfl

theorem insertAll_cons (comp : α → α → Bool) (val : α) (values : List α) (tree : Node α) :
    insertAll comp (val :: values) tree =
      (Insert comp tree val).bind (insertAll comp values) := rfl

/-- A loop of insertions into a search tree with the shape invariants runs to
completion, keeps the invariants and adds exactly the inserted values. -/
theorem insertAll_spec [LinearOrder α] (vals : List α) (t : Node α) (ha : AVL t)
    (hb : BST less t) :
    ∃ r, insertAll less vals t = some r ∧ AVL r ∧ BST less r ∧
      ∀ x, x ∈ inorder r ↔ x ∈ inorder t ∨ x ∈ vals := by
  induction vals generalizing t with
  | nil => exact ⟨t, rfl, ha, hb, fun x => by simp⟩
  | cons v vs ih =>
    obtain ⟨t1, e, a1, -, -⟩ := insert_avl less v t ha
    have b1 := insert_bst less_strictWeakOrder v hb e
    obtain ⟨r, e2, a2, b2, m2⟩ := ih t1 a1 b1
    refine ⟨r, by rw [insertAll_cons, Insert, e, Option.some_bind, e2], a2, b2, fun x => ?_⟩
    rw [m2 x, insert_inorder less_strictWeakOrder v hb e, mem_listInsert_less,
      List.mem_cons]
    tauto

theorem bst_less_ascending [LinearOrder α] {t : Node α} (hb : BST less t) :
    (inorder t).Pairwise (· < ·) :=
  (ascending_less_iff _).mp ((bst_iff_ascending less_strictWeakOrder t).mp hb)

theorem whereLoop_eq_insertAll [LinearOrder α] (p : α → Bool) (vals : List α)
    (t : Node α) : whereLoop p vals t = insertAll less (vals.filter p) t := by
  induction vals generalizing t with
  | nil => rfl
  | cons v vs ih =>
    by_cases c : p v = true
    · rw [whereLoop, if_pos c, List.filter_cons_of_pos c, insertAll_cons]
      congr 1
      funext r
      exact ih r
    · rw [whereLoop, if_neg c, List.filter_cons_of_neg c]
      exact ih t

/-- C16. `Where`: on a tree reachable by `Insert`/`Remove` under the default ordering,
`Where(t, p)` runs to completion and the in-order sequence of its result is the in-order
sequence of `t` filtered by `p`: the values satisfying `p`, in the same relative order.
The source tree is an argument of the operation and is left as it is. -/
theorem C16_where [LinearOrder α] (t : Node α) (hr : Reachable less t) (p : α → Bool) :
    ∃ r, Where t p = some r ∧ InOrder r = (InOrder t).filter p := by
  obtain ⟨r, e, -, b, m⟩ := insertAll_spec ((inorder t).filter p) .nil trivial trivial
  refine ⟨r, by rw [Where, whereLoop_eq_insertAll]; exact e, ?_⟩
  apply ascending_ext (bst_less_ascending b)
    (List.Pairwise.sublist (List.filter_sublist _) (reachable_ascending_less hr))
  intro x
  rw [m x]
  simp [inorder, InOrder]

/-- Witness of C16: the values above 2 of the tree built from 5, 3, 7, 2. -/
theorem C16_where_witness :
    Reachable less tree5372 ∧
      ∃ r, Where tree5372 (fun x => decide (x > 2)) = some r ∧ InOrder r = [3, 5, 7] :=
  ⟨⟨[.Insert 5, .Insert 3, .Insert 7, .Insert 2], by decide⟩,
    C16_where tree5372 ⟨[.Insert 5, .Insert 3, .Insert 7, .Insert 2], by decide⟩
      (fun x => decide (x > 2))⟩

/-- C15. `Map`: for a source tree `t` and a function `f` into a linearly ordered type
(such as `int -> int`), `Map(t, f)` runs to completion and its in-order sequence is the
strictly ascending list of the distinct values `f x` for `x` stored in `t`; when `t` is
reachable by `Insert`/`Remove` under the default ordering and `f` is strictly
increasing, it is `f` applied element-wise to the in-order sequence of `t`.  The tree
built from `[1,2,3,4,5]` with pattern `"KLP"`, mapped with `x -> 2 * x`, has in-order
sequence `[2,4,6,8,10]`. -/
theorem C15_map {β : Type} [LinearOrder α] [LinearOrder β] (t : Node α) (f : α → β) :
    ∃ r, Map t f = some r ∧
      InOrder r = ((InOrder t).map f).toFinset.sort (· ≤ ·) ∧
      (InOrder r).Pairwise (· < ·) ∧
      (Reachable less t → StrictMono f → InOrder r = (InOrder t).map f) ∧
      (∃ t0, FromOrderTemplate [(1 : Int), 2, 3, 4, 5] "KLP" = .ok t0 ∧
        (Map t0 (fun x => 2 * x)).map InOrder = some [2, 4, 6, 8, 10]) := by
  obtain ⟨r, e, -, b, m⟩ := insertAll_spec ((inorder t).map f) .nil trivial trivial
  have hs := bst_less_ascending b
  refine ⟨r, e, ?_, hs, fun hr hf => ?_, ⟨_, rfl, by decide⟩⟩
  · rw [InOrder, ← sort_toFinset_of_ascending hs]
    congr 1
    ext x
    simp [m x, inorder, InOrder]
  · apply ascending_ext hs
    · exact List.Pairwise.map f (fun a b hab => hf hab) (reachable_ascending_less hr)
    · intro x
      simp [m x, inorder, InOrder]

/-- Witness of C15: doubling is strictly increasing, so the tree built from 5, 3, 7, 2
maps to the in-order sequence `[4,6,10,14]`. -/
theorem C15_map_witness :
    Reachable less tree5372 ∧ StrictMono (fun x : Int => 2 * x) ∧
      ∃ r, Map tree5372 (fun x : Int => 2 * x) = some r ∧ InOrder r = [4, 6, 10, 14] := by
  have hm : StrictMono (fun x : Int => 2 * x) := fun a b hab => by
    show 2 * a < 2 * b
    omega
  have hr : Reachable less tree5372 := ⟨[.Insert 5, .Insert 3, .Insert 7, .Insert 2], by decide⟩
  obtain ⟨r, e, -, -, h, -⟩ := C15_map tree5372 (fun x : Int => 2 * x)
  exact ⟨hr, hm, r, e, h hr hm⟩

theorem inorder_eq_nil_iff (t : Node α) : inorder t = [] ↔ t = .nil := by
  cases t with
  | nil => simp [inorder]
  | node v l r h => simp [inorder]

theorem mem_preorder_iff (t : Node α) (x : α) : x ∈ preorder t ↔ x ∈ inorder t := by
  induction t with
  | nil => simp [preorder, inorder]
  | node v l r h ihl ihr =>
    simp only [preorder, inorder, List.mem_cons, List.mem_append, ihl, ihr]
    tauto

/-- The loop of `ExtractSubtree` on a search tree: it adds every visited value once the
key has been met, the key included. -/
theorem extractLoop_spec [LinearOrder α] (key : α) (vals : List α) (t : Node α)
    (found : Bool) (ha : AVL t) (hb : BST less t) :
    ∃ r, extractLoop key vals t found = some r ∧ AVL r ∧ BST less r ∧
      ∀ x, x ∈ inorder r ↔ x ∈ inorder t ∨
        x ∈ (if found then vals else vals.dropWhile (fun y => decide (y ≠ key))) := by
  induction vals generalizing t found with
  | nil => exact ⟨t, rfl, ha, hb, fun x => by simp⟩
  | cons v vs ih =>
    rw [extractLoop]
    cases found with
    | true =>
      obtain ⟨t1, e1, a1, b1, m1⟩ := insertAll_spec [v] t ha hb
      have e1' : Insert less t v = some t1 := by
        simpa [insertAll_cons, insertAll_nil] using e1
      simp only [if_true, e1', Option.some_bind]
      by_cases c : v = key
      · obtain ⟨t2, e2, a2, b2, m2⟩ := insertAll_spec [v] t1 a1 b1
        have e2' : Insert less t1 v = some t2 := by
          simpa [insertAll_cons, insertAll_nil] using e2
        obtain ⟨r, e3, a3, b3, m3⟩ := ih t2 true a2 b2
        refine ⟨r, by rw [if_pos c, e2', Option.some_bind, e3], a3, b3, fun x => ?_⟩
        rw [m3 x, m2 x, m1 x]
        simp only [if_true, List.mem_cons, List.mem_singleton]
        tauto
      · obtain ⟨r, e3, a3, b3, m3⟩ := ih t1 true a1 b1
        refine ⟨r, by rw [if_neg c, e3], a3, b3, fun x => ?_⟩
        rw [m3 x, m1 x]
        simp only [if_true, List.mem_cons, List.mem_singleton]
        tauto
    | false =>
      simp only [Bool.false_eq_true, if_false, Option.some_bind]
      by_cases c : v = key
      · obtain ⟨t2, e2, a2, b2, m2⟩ := insertAll_spec [v] t ha hb
        have e2' : Insert less t v = some t2 := by
          simpa [insertAll_cons, insertAll_nil] using e2
        obtain ⟨r, e3, a3, b3, m3⟩ := ih t2 true a2 b2
        refine ⟨r, by rw [if_pos c, e2', Option.some_bind, e3], a3, b3, fun x => ?_⟩
        rw [m3 x, m2 x]
        simp only [if_true, List.mem_singleton, List.dropWhile_cons, c, ne_eq,
          not_true_eq_false, decide_False, Bool.false_eq_true, if_false, List.mem_cons]
        tauto
      · obtain ⟨r, e3, a3, b3, m3⟩ := ih t false ha hb
        refine ⟨r, by rw [if_neg c, e3], a3, b3, fun x => ?_⟩
        rw [m3 x]
        simp [List.dropWhile_cons, c]

theorem mem_dropWhile_ne_self [DecidableEq α] (k : α) (L : List α) (h : k ∈ L) :
    k ∈ L.dropWhile (fun y => decide (y ≠ k)) := by
  induction L with
  | nil => simp at h
  | cons v vs ih =>
    by_cases c : v = k
    · simp [List.dropWhile_cons, c]
    · have h1 : k ∈ vs := by
        rcases List.mem_cons.mp h with h1 | h1
        · exact absurd h1.symm c
        · exact h1
      simpa [List.dropWhile_cons, c] using ih h1

theorem mem_of_mem_dropWhile_ne [DecidableEq α] (k x : α) (L : List α)
    (h : x ∈ L.dropWhile (fun y => decide (y ≠ k))) : k ∈ L := by
  induction L with
  | nil => simp at h
  | cons v vs ih =>
    by_cases c : v = k
    · simp [c]
    · have h2 : x ∈ vs.dropWhile (fun y => decide (y ≠ k)) := by
        simpa [List.dropWhile_cons, c] using h
      exact List.mem_cons_of_mem _ (ih h2)

/-- C17. `ExtractSubtree`: on a tree `t` reachable by `Insert`/`Remove` under the default
ordering, `ExtractSubtree(t, k)` runs to completion and stores exactly the values of the
suffix of the pre-order sequence of `t` that starts at `k` (`k` and everything visited
after it, inside or outside the subtree rooted at `k`); the result is empty exactly when
`k` is not stored in `t`, and extracting at the root value gives a tree `Equals` to
`t`. -/
theorem C17_extractSubtree [LinearOrder α] (t : Node α) (hr : Reachable less t) (k : α) :
    ∃ r, ExtractSubtree t k = some r ∧
      (∀ x, x ∈ InOrder r ↔ x ∈ (PreOrder t).dropWhile (fun y => decide (y ≠ k))) ∧
      (r = .nil ↔ k ∉ InOrder t) ∧
      (∀ l rr h, t = .node k l rr h → Equals r t = true) := by
  obtain ⟨r, e, -, b, m⟩ := extractLoop_spec k (preorder t) .nil false trivial trivial
  simp only [inorder, List.not_mem_nil, false_or, Bool.false_eq_true, if_false] at m
  refine ⟨r, e, m, ?_, ?_⟩
  · rw [← inorder_eq_nil_iff, List.eq_nil_iff_forall_not_mem]
    constructor
    · intro h hk
      apply h k
      rw [m k]
      exact mem_dropWhile_ne_self k _ ((mem_preorder_iff t k).mpr hk)
    · intro hk x hx
      rw [m x] at hx
      exact hk ((mem_preorder_iff t k).mp (mem_of_mem_dropWhile_ne k x _ hx))
  · intro l rr h ht
    subst ht
    have e1 : inorder r = inorder (.node k l rr h) := by
      apply ascending_ext (bst_less_ascending b) (reachable_ascending_less hr)
      intro x
      rw [m x, ← mem_preorder_iff]
      simp [preorder, List.dropWhile_cons]
    simp [Equals, InOrder, e1]

/-- Witness of C17: extracting at 3 from the tree built from 5, 3, 7, 2, whose pre-order
sequence is 5, 3, 2, 7: the result holds 3, 2 and also 7, which is not below 3. -/
theorem C17_extractSubtree_witness :
    Reachable less tree5372 ∧
      ∃ r, ExtractSubtree tree5372 3 = some r ∧
        (∀ x, x ∈ InOrder r ↔ x ∈ [(3 : Int), 2, 7]) ∧ InOrder r = [2, 3, 7] := by
  have hr : Reachable less tree5372 := ⟨[.Insert 5, .Insert 3, .Insert 7, .Insert 2], by decide⟩
  obtain ⟨r, e, m, -, -⟩ := C17_extractSubtree tree5372 hr 3
  refine ⟨hr, r, e, m, ?_⟩
  have e1 : (ExtractSubtree tree5372 3).map InOrder = some [2, 3, 7] := by decide
  rw [e] at e1
  simpa using e1

/-! ## Pre-order sequences of search trees -/

/-- A list that splits into values before `v` followed by values not before `v` splits
in one way only. -/
theorem append_split_unique (p : α → Bool) {l1 r1 l2 r2 : List α}
    (h : l1 ++ r1 = l2 ++ r2) (hl1 : ∀ x ∈ l1, p x = true) (hl2 : ∀ x ∈ l2, p x = true)
    (hr1 : ∀ x ∈ r1, p x = false) (hr2 : ∀ x ∈ r2, p x = false) :
    l1 = l2 ∧ r1 = r2 := by
  have f1 : (l1 ++ r1).filter p = l1 := by
    rw [List.filter_append, List.filter_eq_self.mpr hl1,
      List.filter_eq_nil_iff.mpr (fun x hx => by simp [hr1 x hx]), List.append_nil]
  have f2 : (l2 ++ r2).filter p = l2 := by
    rw [List.filter_append, List.filter_eq_self.mpr hl2,
      List.filter_eq_nil_iff.mpr (fun x hx => by simp [hr2 x hx]), List.append_nil]
  have e : l1 = l2 := by rw [← f1, ← f2, h]
  subst e
  exact ⟨rfl, List.append_cancel_left h⟩

/-- Two search trees with correct height caches and the same pre-order sequence are the
same tree. -/
theorem preorder_injective {comp : α → α → Bool} (swo : StrictWeakOrder comp)
    {a b : Node α} (ba : BST comp a) (bb : BST comp b) (ca : HeightCached a)
    (cb : HeightCached b) (h : preorder a = preorder b) : a = b := by
  induction a generalizing b with
  | nil =>
    cases b with
    | nil => rfl
    | node v l r hb => simp [preorder] at h
  | node v l r ha ihl ihr =>
    cases b with
    | nil => simp [preorder] at h
    | node w l2 r2 hb =>
      simp only [preorder, List.cons.injEq] at h
      obtain ⟨e, h2⟩ := h
      subst e
      obtain ⟨a1, a2, a3, a4⟩ := ba
      obtain ⟨b1, b2, b3, b4⟩ := bb
      obtain ⟨c1, c2, c3⟩ := ca
      obtain ⟨d1, d2, d3⟩ := cb
      obtain ⟨el, er⟩ := append_split_unique (fun x => comp x v) h2
        (fun x hx => a1 x ((mem_preorder_iff l x).mp hx))
        (fun x hx => b1 x ((mem_preorder_iff l2 x).mp hx))
        (fun x hx => swo.asymm (a2 x ((mem_preorder_iff r x).mp hx)))
        (fun x hx => swo.asymm (b2 x ((mem_preorder_iff r2 x).mp hx)))
      have e1 := ihl a3 b3 c2 d2 el
      have e2 := ihr a4 b4 c3 d3 er
      subst e1 e2
      rw [c1, d1]

/-- C18. `IsSameTree` is shape-sensitive equality: for trees `a` and `b` reachable by
`Insert`/`Remove` under the default ordering, `IsSameTree(a, b)` is true exactly when
`a` and `b` are the same tree (same shape, same value at every position); then
`Equals(a, b)` is true as well, while the trees built from 1, 2 and from 2, 1 are
`Equals` and not `IsSameTree`. -/
theorem C18_isSameTree [LinearOrder α] (a b : Node α) (ha : Reachable less a)
    (hb : Reachable less b) :
    (IsSameTree a b = true ↔ a = b) ∧
      (IsSameTree a b = true → Equals a b = true) ∧
      (∃ c d : Node Int, Reachable less c ∧ Reachable less d ∧ Equals c d = true ∧
        IsSameTree c d = false) := by
  have swo : StrictWeakOrder (less : α → α → Bool) := less_strictWeakOrder
  have key : IsSameTree a b = true → a = b := fun h =>
    preorder_injective swo (reachable_bst swo ha) (reachable_bst swo hb)
      ((avl_iff a).mp (reachable_avl ha)).1 ((avl_iff b).mp (reachable_avl hb)).1
      (by simpa [IsSameTree, PreOrder] using h)
  refine ⟨⟨key, fun h => by simp [IsSameTree, h]⟩, fun h => by simp [Equals, key h], ?_⟩
  exact ⟨.node 1 .nil (.node 2 .nil .nil 1) 2, .node 2 (.node 1 .nil .nil 1) .nil 2,
    ⟨[.Insert 1, .Insert 2], by decide⟩, ⟨[.Insert 2, .Insert 1], by decide⟩,
    by decide, by decide⟩

/-- Witness of C18: the trees built from 1, 2, 3 and from 2, 1, 3 are the same tree. -/
theorem C18_isSameTree_witness :
    Reachable less (.node 2 (.node 1 .nil .nil 1) (.node 3 .nil .nil 1) 2 : Node Int) ∧
      (IsSameTree (.node 2 (.node 1 .nil .nil 1) (.node 3 .nil .nil 1) 2 : Node Int)
          (.node 2 (.node 1 .nil .nil 1) (.node 3 .nil .nil 1) 2) = true ↔
        (.node 2 (.node 1 .nil .nil 1) (.node 3 .nil .nil 1) 2 : Node Int) =
          .node 2 (.node 1 .nil .nil 1) (.node 3 .nil .nil 1) 2) :=
  ⟨⟨[.Insert 1, .Insert 2, .Insert 3], by decide⟩,
    (C18_isSameTree _ _ ⟨[.Insert 1, .Insert 2, .Insert 3], by decide⟩
      ⟨[.Insert 2, .Insert 1, .Insert 3], by decide⟩).1⟩

/-! ## The recursive build of pattern `"LKP"` -/

theorem build_zero [LinearOrder α] (values : List α) (l r : Int) (tree : Node α) :
    build values 0 l r tree = .error .outOfFuel := rfl

theorem build_succ [LinearOrder α] (values : List α) (fuel : Nat) (l r : Int)
    (tree : Node α) :
    build values (fuel + 1) l r tree =
      if l > r then .ok tree
      else if l + r > INT_MAX ∨ l + r < INT_MIN then .error .undefinedBehaviour
      else if Int.tdiv (l + r) 2 < 0 then .error .undefinedBehaviour
      else
        match values[(Int.tdiv (l + r) 2).toNat]? with
        | none => .error .undefinedBehaviour
        | some x =>
          match Insert less tree x with
          | none => .error .undefinedBehaviour
          | some t1 =>
            match build values fuel l (Int.tdiv (l + r) 2 - 1) t1 with
            | .error e => .error e
            | .ok t2 => build values fuel (Int.tdiv (l + r) 2 + 1) r t2 := rfl

theorem insert_one_spec [LinearOrder α] (v : α) (t : Node α) (ha : AVL t)
    (hb : BST less t) :
    ∃ r, Insert less t v = some r ∧ AVL r ∧ BST less r ∧
      ∀ x, x ∈ inorder r ↔ x ∈ inorder t ∨ x = v := by
  obtain ⟨r, e, a, b, m⟩ := insertAll_spec [v] t ha hb
  refine ⟨r, by simpa [insertAll_cons, insertAll_nil] using e, a, b, fun x => ?_⟩
  rw [m x, List.mem_singleton]

/-- One step of `build` on a range whose bounds are in order and whose index sum fits
an `int`: insert the middle element, then build the left and the right part. -/
theorem build_step [LinearOrder α] (values : List α) (fuel : Nat) (l r : Int) (k : Nat)
    (tree : Node α) (hlr : l ≤ r) (h0 : 0 ≤ l) (hsum : l + r ≤ 2147483647)
    (hk : (k : Int) = (l + r) / 2) (hlen : k < values.length) :
    build values (fuel + 1) l r tree =
      match Insert less tree (values.get ⟨k, hlen⟩) with
      | none => .error .undefinedBehaviour
      | some t1 =>
        match build values fuel l ((k : Int) - 1) t1 with
        | .error e => .error e
        | .ok t2 => build values fuel ((k : Int) + 1) r t2 := by
  have hm : Int.tdiv (l + r) 2 = (k : Int) := by
    rw [Int.tdiv_eq_ediv (by omega) (by norm_num), hk]
  rw [build_succ, if_neg (by omega), if_neg (by simp only [INT_MAX, INT_MIN]; omega), hm,
    if_neg (by omega)]
  simp only [Int.toNat_ofNat, List.getElem?_eq_getElem hlen]
  rfl

/-- On a range that stays below index `2 ^ 30`, `build` runs to completion and inserts
the elements of the range. -/
theorem build_spec [LinearOrder α] (values : List α) (fuel : Nat) :
    ∀ (l r : Int) (tree : Node α), AVL tree → BST less tree → 0 ≤ l →
      r < values.length → l ≤ r + 1 → r ≤ 1073741823 → r + 1 - l < fuel →
      ∃ t, build values fuel l r tree = .ok t ∧ AVL t ∧ BST less t ∧
        ∀ x, x ∈ inorder t ↔
          x ∈ inorder tree ∨ ∃ i : Nat, l ≤ i ∧ (i : Int) ≤ r ∧ values[i]? = some x := by
  induction fuel with
  | zero =>
    intro l r tree _ _ _ _ _ _ hf
    omega
  | succ fuel ih =>
    intro l r tree ha hb h0 hr hlr hR hf
    by_cases c : l > r
    · rw [build_succ, if_pos c]
      refine ⟨tree, rfl, ha, hb, fun x => ⟨Or.inl, fun h => ?_⟩⟩
      rcases h with h | ⟨i, h1, h2, -⟩
      · exact h
      · omega
    · obtain ⟨k, hk⟩ : ∃ k : Nat, (k : Int) = (l + r) / 2 :=
        ⟨((l + r) / 2).toNat, by omega⟩
      have hlen : k < values.length := by omega
      rw [build_step values fuel l r k tree (by omega) h0 (by omega) hk hlen]
      obtain ⟨t1, e1, a1, b1, m1⟩ := insert_one_spec (values.get ⟨k, hlen⟩) tree ha hb
      obtain ⟨t2, e2, a2, b2, m2⟩ :=
        ih l ((k : Int) - 1) t1 a1 b1 h0 (by omega) (by omega) (by omega) (by omega)
      obtain ⟨t3, e3, a3, b3, m3⟩ :=
        ih ((k : Int) + 1) r t2 a2 b2 (by omega) hr (by omega) hR (by omega)
      refine ⟨t3, by simp only [e1, e2, e3], a3, b3, fun x => ?_⟩
      rw [m3 x, m2 x, m1 x]
      constructor
      · rintro (((h | h) | ⟨i, h1, h2, h3⟩) | ⟨i, h1, h2, h3⟩)
        · exact Or.inl h
        · exact Or.inr ⟨k, by omega, by omega, by
            rw [h, List.getElem?_eq_getElem hlen]
            rfl⟩
        · exact Or.inr ⟨i, h1, by omega, h3⟩
        · exact Or.inr ⟨i, by omega, h2, h3⟩
      · rintro (h | ⟨i, h1, h2, h3⟩)
        · exact Or.inl (Or.inl (Or.inl h))
        · rcases lt_trichotomy i k with c1 | c1 | c1
          · exact Or.inl (Or.inr ⟨i, h1, by omega, h3⟩)
          · subst c1
            rw [List.getElem?_eq_getElem hlen] at h3
            cases h3
            exact Or.inl (Or.inl (Or.inr rfl))
          · exact Or.inr ⟨i, by omega, h2, h3⟩

/-- `build` never raises the invalid-argument exception. -/
theorem build_ne_invalidArgument [LinearOrder α] (values : List α) (fuel : Nat) :
    ∀ (l r : Int) (tree : Node α),
      build values fuel l r tree ≠ .error .invalidArgument := by
  induction fuel with
  | zero =>
    intro l r tree h
    rw [build_zero] at h
    cases h
  | succ fuel ih =>
    intro l r tree h
    rw [build_succ] at h
    split_ifs at h
    any_goals cases h
    split at h
    · cases h
    · split at h
      · cases h
      · split at h
        · next e he =>
          cases h
          exact ih _ _ _ he
        · exact ih _ _ _ h

theorem toInt_sizeMinusOne (n : Nat) (h : n ≤ 2147483648) :
    toInt (sizeMinusOne n) = (n : Int) - 1 := by
  unfold toInt sizeMinusOne
  omega

/-! ## Writing and reading `int` values as text -/

theorem digitChar_spec : ∀ d, d < 10 →
    (Nat.digitChar d).isDigit = true ∧ (Nat.digitChar d).toNat - 48 = d := by
  decide

theorem isSpace_of_isDigit (c : Char) (h : c.isDigit = true) : isSpace c = false := by
  have h1 : c ≠ ' ' := fun e => by rw [e] at h; exact absurd h (by decide)
  have h2 : c ≠ Char.ofNat 9 := fun e => by rw [e] at h; exact absurd h (by decide)
  have h3 : c ≠ Char.ofNat 10 := fun e => by rw [e] at h; exact absurd h (by decide)
  have h4 : c ≠ Char.ofNat 11 := fun e => by rw [e] at h; exact absurd h (by decide)
  have h5 : c ≠ Char.ofNat 12 := fun e => by rw [e] at h; exact absurd h (by decide)
  have h6 : c ≠ Char.ofNat 13 := fun e => by rw [e] at h; exact absurd h (by decide)
  simp [isSpace, h1, h2, h3, h4, h5, h6]

theorem digitsValue_append (xs : List Char) (c : Char) :
    digitsValue (xs ++ [c]) = 10 * digitsValue xs + (c.toNat - 48) := by
  simp [digitsValue, List.foldl_append]

/-- The decimal form of a number is a non-empty run of digits with that value. -/
theorem showNatAux_spec (fuel : Nat) : ∀ n, n < fuel →
    (∀ c ∈ showNatAux fuel n, c.isDigit = true) ∧ showNatAux fuel n ≠ [] ∧
      digitsValue (showNatAux fuel n) = n := by
  induction fuel with
  | zero => intro n h; omega
  | succ fuel ih =>
    intro n hn
    rw [showNatAux]
    by_cases c : n < 10
    · rw [if_pos c]
      have hd := digitChar_spec n c
      refine ⟨fun x hx => ?_, by simp, ?_⟩
      · rw [List.mem_singleton.mp hx]
        exact hd.1
      · simp [digitsValue, hd.2]
    · rw [if_neg c]
      obtain ⟨i1, i2, i3⟩ := ih (n / 10) (by omega)
      have hd := digitChar_spec (n % 10) (by omega)
      refine ⟨fun x hx => ?_, by simp, ?_⟩
      · rcases List.mem_append.mp hx with h | h
        · exact i1 x h
        · rw [List.mem_singleton.mp h]
          exact hd.1
      · rw [digitsValue_append, i3, hd.2]
        omega

theorem showNat_spec (n : Nat) :
    (∀ c ∈ showNat n, c.isDigit = true) ∧ showNat n ≠ [] ∧ digitsValue (showNat n) = n :=
  showNatAux_spec (n + 1) n (by omega)

theorem takeWhile_append_stop (p : Char → Bool) (ds rest : List Char) (x : Char)
    (hds : ∀ c ∈ ds, p c = true) (hx : p x = false) :
    (ds ++ x :: rest).takeWhile p = ds ∧ (ds ++ x :: rest).dropWhile p = x :: rest := by
  induction ds with
  | nil => simp [List.takeWhile_cons, List.dropWhile_cons, hx]
  | cons d ds ih =>
    have hd := hds d (List.mem_cons_self _ _)
    obtain ⟨i1, i2⟩ := ih (fun c hc => hds c (List.mem_cons_of_mem _ hc))
    simp [List.takeWhile_cons, List.dropWhile_cons, hd, i1, i2]

theorem readInt_space (s : List Char) : readInt (' ' :: s) = readInt s := by
  simp [readInt, isSpace, List.dropWhile_cons]

theorem readInt_nil : readInt [] = none := by
  simp [readInt]

/-- Reading back a written `int`: the extraction returns the value and leaves the
separator in the stream. -/
theorem readInt_showInt (v : Int) (rest : List Char) (h1 : INT_MIN ≤ v) (h2 : v ≤ INT_MAX) :
    readInt (showInt v ++ ' ' :: rest) = some (v, ' ' :: rest) := by
  have hsp : Char.isDigit ' ' = false := by decide
  cases v with
  | ofNat n =>
    obtain ⟨d1, d2, d3⟩ := showNat_spec n
    obtain ⟨c, cs, hc⟩ := List.exists_cons_of_ne_nil d2
    have hcd : c.isDigit = true := d1 c (by rw [hc]; exact List.mem_cons_self _ _)
    have hm : c ≠ '-' := fun e => by rw [e] at hcd; exact absurd hcd (by decide)
    have hp : c ≠ '+' := fun e => by rw [e] at hcd; exact absurd hcd (by decide)
    obtain ⟨t1, t2⟩ := takeWhile_append_stop Char.isDigit (showNat n) rest ' ' d1 hsp
    have e0 : (showInt (Int.ofNat n) ++ ' ' :: rest).dropWhile isSpace =
        showNat n ++ ' ' :: rest := by
      show (showNat n ++ ' ' :: rest).dropWhile isSpace = _
      rw [hc, List.cons_append, List.dropWhile_cons, isSpace_of_isDigit c hcd]
      rfl
    have e1 : (showNat n ++ ' ' :: rest).head? = some c := by rw [hc]; rfl
    unfold readInt
    simp only [e0, e1, Option.some.injEq, hm, hp, or_self, if_false, t1, t2, d2, d3]
    simp only [INT_MIN, INT_MAX] at h1 h2
    simp only [INT_MIN, INT_MAX, Int.ofNat_eq_coe] at *
    rw [if_pos ⟨h1, h2⟩]
  | negSucc n =>
    obtain ⟨d1, d2, d3⟩ := showNat_spec (n + 1)
    obtain ⟨t1, t2⟩ := takeWhile_append_stop Char.isDigit (showNat (n + 1)) rest ' ' d1 hsp
    have e0 : (showInt (Int.negSucc n) ++ ' ' :: rest).dropWhile isSpace =
        '-' :: (showNat (n + 1) ++ ' ' :: rest) := by
      show ('-' :: (showNat (n + 1) ++ ' ' :: rest)).dropWhile isSpace = _
      rw [List.dropWhile_cons, show isSpace '-' = false by decide]
      rfl
    unfold readInt
    simp only [e0, List.head?_cons, true_or, if_true, List.tail_cons, t1, t2, d2, d3,
      if_false]
    have e2 : -((n + 1 : Nat) : Int) = Int.negSucc n := by
      rw [Int.negSucc_eq]
      push_cast
      rfl
    rw [e2, if_pos ⟨h1, h2⟩]

theorem parseLoop_space (fuel : Nat) (s : List Char) :
    parseLoop fuel (' ' :: s) = parseLoop fuel s := by
  cases fuel with
  | zero => rfl
  | succ fuel => rw [parseLoop, parseLoop, readInt_space]

/-- Parsing the text written for a sequence of `int` values gives the sequence back. -/
theorem parseLoop_show (vs : List Int) (hv : ∀ x ∈ vs, INT_MIN ≤ x ∧ x ≤ INT_MAX)
    (fuel : Nat) (hf : vs.length < fuel) :
    parseLoop fuel (vs.flatMap (fun v => showInt v ++ [' '])) = vs := by
  induction vs generalizing fuel with
  | nil =>
    cases fuel with
    | zero => omega
    | succ fuel => simp [parseLoop, readInt_nil]
  | cons v vs ih =>
    cases fuel with
    | zero => omega
    | succ fuel =>
      have hv1 := hv v (List.mem_cons_self _ _)
      rw [List.flatMap_cons, List.append_assoc, List.singleton_append, parseLoop,
        readInt_showInt v _ hv1.1 hv1.2]
      simp only
      rw [parseLoop_space, ih (fun x hx => hv x (List.mem_cons_of_mem _ hx)) fuel
        (by simp only [List.length_cons] at hf; omega)]

theorem length_le_flatMap_show (vs : List Int) :
    vs.length ≤ (vs.flatMap (fun v => showInt v ++ [' '])).length := by
  induction vs with
  | nil => simp
  | cons v vs ih =>
    simp only [List.flatMap_cons, List.length_append, List.length_cons, List.length_nil]
    omega

/-- `ParseValuesFromString` inverts the text written by `ToStringTemplate`. -/
theorem parse_show (vs : List Int) (hv : ∀ x ∈ vs, INT_MIN ≤ x ∧ x ≤ INT_MAX) :
    ParseValuesFromString (vs.flatMap (fun v => showInt v ++ [' '])) = vs :=
  parseLoop_show vs hv _ (by have := length_le_flatMap_show vs; omega)

/-- Once the right end of the range is index `2 ^ 30`, `build` reaches the call
`build(2 ^ 30, 2 ^ 30)`, whose index sum does not fit an `int`. -/
theorem build_overflow [LinearOrder α] (values : List α)
    (hlen : values.length = 1073741825) (fuel : Nat) :
    ∀ (l : Int) (tree : Node α), AVL tree → BST less tree → 0 ≤ l → l ≤ 1073741824 →
      1073741824 + 1 - l < fuel →
      build values fuel l 1073741824 tree = .error .undefinedBehaviour := by
  induction fuel with
  | zero =>
    intro l tree _ _ _ _ hf
    omega
  | succ fuel ih =>
    intro l tree ha hb h0 hl hf
    by_cases c : l = 1073741824
    · subst c
      rw [build_succ, if_neg (by omega), if_pos (Or.inl (by simp only [INT_MAX]; omega))]
    · obtain ⟨k, hk⟩ : ∃ k : Nat, (k : Int) = (l + 1073741824) / 2 :=
        ⟨((l + 1073741824) / 2).toNat, by omega⟩
      have hklen : k < values.length := by omega
      rw [build_step values fuel l 1073741824 k tree (by omega) h0 (by omega) hk hklen]
      obtain ⟨t1, e1, a1, b1, -⟩ := insert_one_spec (values.get ⟨k, hklen⟩) tree ha hb
      obtain ⟨t2, e2, a2, b2, -⟩ :=
        build_spec values fuel l ((k : Int) - 1) t1 a1 b1 h0 (by omega) (by omega) (by omega)
          (by omega)
      have e3 := ih ((k : Int) + 1) t2 a2 b2 (by omega) (by omega) (by omega)
      simp only [e1, e2, e3]

/-- With pattern `"LKP"` a sequence of at most `2 ^ 30` values is rebuilt into a search
tree holding exactly its values. -/
theorem fromOrderTemplate_lkp [LinearOrder α] (values : List α)
    (hlen : values.length ≤ 1073741824) :
    ∃ t, FromOrderTemplate values "LKP" = .ok t ∧ AVL t ∧ BST less t ∧
      ∀ x, x ∈ inorder t ↔ x ∈ values := by
  obtain ⟨t, e, a, b, m⟩ := build_spec values (values.length + 1) 0
    (toInt (sizeMinusOne values.length)) .nil trivial trivial (le_refl _)
    (by rw [toInt_sizeMinusOne _ (by omega)]; omega)
    (by rw [toInt_sizeMinusOne _ (by omega)]; omega)
    (by rw [toInt_sizeMinusOne _ (by omega)]; omega)
    (by rw [toInt_sizeMinusOne _ (by omega)]; omega)
  refine ⟨t, ?_, a, b, fun x => ?_⟩
  · rw [FromOrderTemplate, if_neg (by decide), if_pos rfl]
    exact e
  · rw [m x, toInt_sizeMinusOne _ (by omega)]
    simp only [inorder, List.not_mem_nil, false_or]
    constructor
    · rintro ⟨i, -, -, h⟩
      exact List.mem_iff_getElem?.mpr ⟨i, h⟩
    · intro hx
      obtain ⟨i, h⟩ := List.mem_iff_getElem?.mp hx
      have hi : i < values.length := by
        by_contra hc
        rw [List.getElem?_eq_none (by omega)] at h
        cases h
      exact ⟨i, by omega, by omega, h⟩

/-- With pattern `"LKP"` a sequence of `2 ^ 30 + 1` values makes `build` add two `int`
indices whose sum is out of range. -/
theorem fromOrderTemplate_lkp_overflow [LinearOrder α] (values : List α)
    (hlen : values.length = 1073741825) :
    FromOrderTemplate values "LKP" = .error .undefinedBehaviour := by
  rw [FromOrderTemplate, if_neg (by decide), if_pos rfl]
  have e : toInt (sizeMinusOne values.length) = 1073741824 := by
    rw [toInt_sizeMinusOne _ (by omega), hlen]
    rfl
  rw [e]
  exact build_overflow values hlen _ 0 .nil trivial trivial (le_refl _) (by omega)
    (by omega)

/-- With the patterns `"KLP"` and `"LPK"` the loop of insertions runs to completion. -/
theorem insertAllE_ok [LinearOrder α] (values : List α) :
    ∃ t, insertAllE values .nil = .ok t ∧ AVL t ∧ BST less t ∧
      ∀ x, x ∈ inorder t ↔ x ∈ values := by
  obtain ⟨t, e, a, b, m⟩ := insertAll_spec values .nil trivial trivial
  refine ⟨t, by simp only [insertAllE, e], a, b, fun x => ?_⟩
  rw [m x]
  simp [inorder]

theorem applyOps_insert_eq_insertAll (comp : α → α → Bool) (vals : List α) (t : Node α) :
    applyOps comp t (vals.map Op.Insert) = insertAll comp vals t := by
  induction vals generalizing t with
  | nil => rfl
  | cons v vs ih =>
    simp only [List.map_cons, applyOps, applyOp, insertAll_cons]
    congr 1
    funext r
    exact ih r

theorem values0to2pow30_length : values0to2pow30.length = 1073741825 := by
  rw [values0to2pow30, List.length_map, List.length_range]

theorem values0to2pow30_range (x : Int) (hx : x ∈ values0to2pow30) :
    INT_MIN ≤ x ∧ x ≤ INT_MAX := by
  obtain ⟨i, hi, rfl⟩ := List.mem_map.mp hx
  have := List.mem_range.mp hi
  simp only [INT_MIN, INT_MAX, Int.ofNat_eq_coe]
  omega

theorem values0to2pow30_ascending : values0to2pow30.Pairwise (· < ·) := by
  refine List.Pairwise.map _ (fun a b hab => ?_) (List.pairwise_lt_range _)
  exact Int.ofNat_lt.mpr hab

/-- Some reachable tree of `int` holds the `2 ^ 30 + 1` values `0, 1, ..., 2 ^ 30`. -/
theorem exists_tree_of_size :
    ∃ t : Node Int, Reachable less t ∧ InOrder t = values0to2pow30 := by
  obtain ⟨t, e, -, b, m⟩ := insertAll_spec values0to2pow30 .nil trivial trivial
  refine ⟨t, ⟨_, (applyOps_insert_eq_insertAll less _ .nil).trans e⟩, ?_⟩
  apply ascending_ext (bst_less_ascending b) values0to2pow30_ascending
  intro x
  rw [m x]
  simp only [inorder, List.not_mem_nil, false_or]

/-! ## The pattern layer: round trip, validation, reconstruction -/

theorem toStringTemplate_lkp (t : Node Int) :
    ToStringTemplate t "LKP" = .ok ((InOrder t).flatMap (fun v => showInt v ++ [' '])) := by
  rw [ToStringTemplate, if_neg (by decide), if_pos rfl]

theorem roundTripLKP_eq (t : Node Int) (hv : ∀ x ∈ InOrder t, INT_MIN ≤ x ∧ x ≤ INT_MAX) :
    roundTripLKP t = FromOrderTemplate (InOrder t) "LKP" := by
  rw [roundTripLKP, toStringTemplate_lkp]
  simp only
  rw [parse_show _ hv]

/-- The round trip of pattern `"LKP"` on a tree of at most `2 ^ 30` values of `int`:
it runs to completion and gives a tree `Equals` to the original. -/
theorem roundTripLKP_equals (t : Node Int) (hr : Reachable less t)
    (hv : ∀ x ∈ InOrder t, INT_MIN ≤ x ∧ x ≤ INT_MAX)
    (hn : (InOrder t).length ≤ 1073741824) :
    ∃ r, roundTripLKP t = .ok r ∧ Equals r t = true := by
  obtain ⟨r, e, -, b, m⟩ := fromOrderTemplate_lkp (InOrder t) hn
  refine ⟨r, by rw [roundTripLKP_eq t hv, e], ?_⟩
  have e1 : inorder r = inorder t :=
    ascending_ext (bst_less_ascending b) (reachable_ascending_less hr) m
  simp [Equals, InOrder, e1]

/-- C11 (failing input). On a reachable tree of `int` holding the `2 ^ 30 + 1` values
`0, ..., 2 ^ 30` the round trip of pattern `"LKP"` does not return a tree: the text is
written and parsed back in full, and `build` ends in the call `build(2 ^ 30, 2 ^ 30)`,
where `l + r` is outside the range of `int`. -/
theorem C11_roundTripLKP_overflow :
    ∃ t : Node Int, Reachable less t ∧ InOrder t = values0to2pow30 ∧
      (∀ x ∈ InOrder t, INT_MIN ≤ x ∧ x ≤ INT_MAX) ∧
      ParseValuesFromString ((InOrder t).flatMap (fun v => showInt v ++ [' '])) =
        InOrder t ∧
      roundTripLKP t = .error .undefinedBehaviour := by
  obtain ⟨t, hr, e⟩ := exists_tree_of_size
  have hv : ∀ x ∈ InOrder t, INT_MIN ≤ x ∧ x ≤ INT_MAX := by
    intro x hx
    rw [e] at hx
    exact values0to2pow30_range x hx
  refine ⟨t, hr, e, hv, parse_show _ hv, ?_⟩
  rw [roundTripLKP_eq t hv]
  exact fromOrderTemplate_lkp_overflow _ (by rw [e]; exact values0to2pow30_length)

/-- Pattern validation, the part that holds for every input: both operations raise the
invalid-argument exception exactly for a pattern other than `"KLP"`, `"LKP"`, `"LPK"`;
with one of the three tokens `ToStringTemplate` returns a string, and
`FromOrderTemplate` returns a tree for `"KLP"` and `"LPK"`, and for `"LKP"` when the
sequence has at most `2 ^ 30` values. -/
theorem pattern_validation (tree : Node Int) (values : List Int) (p : String) :
    (ToStringTemplate tree p = .error .invalidArgument ↔
        p ≠ "KLP" ∧ p ≠ "LKP" ∧ p ≠ "LPK") ∧
      (FromOrderTemplate values p = .error .invalidArgument ↔
        p ≠ "KLP" ∧ p ≠ "LKP" ∧ p ≠ "LPK") ∧
      (p = "KLP" ∨ p = "LKP" ∨ p = "LPK" → ∃ s, ToStringTemplate tree p = .ok s) ∧
      (p = "KLP" ∨ p = "LPK" → ∃ t, FromOrderTemplate values p = .ok t) ∧
      (p = "LKP" → values.length ≤ 1073741824 →
        ∃ t, FromOrderTemplate values p = .ok t) ∧
      ToStringTemplate tree "XYZ" = .error .invalidArgument ∧
      FromOrderTemplate values "XYZ" = .error .invalidArgument := by
  have x1 : ToStringTemplate tree "XYZ" = .error .invalidArgument := by
    rw [ToStringTemplate, if_neg (by decide), if_neg (by decide), if_neg (by decide)]
  have x2 : FromOrderTemplate values "XYZ" = .error .invalidArgument := by
    rw [FromOrderTemplate, if_neg (by decide), if_neg (by decide), if_neg (by decide)]
  refine ⟨?_, ?_, ?_, ?_, ?_, x1, x2⟩
  · unfold ToStringTemplate
    by_cases c1 : p = "KLP"
    · simp [c1]
    · by_cases c2 : p = "LKP"
      · simp [c2]
      · by_cases c3 : p = "LPK"
        · simp [c3]
        · simp [c1, c2, c3]
  · unfold FromOrderTemplate
    by_cases c1 : p = "KLP"
    · obtain ⟨t, e, -⟩ := insertAllE_ok values
      simp [c1, e]
    · by_cases c2 : p = "LKP"
      · rw [if_neg c1, if_pos c2]
        simp [c2, build_ne_invalidArgument]
      · by_cases c3 : p = "LPK"
        · obtain ⟨t, e, -⟩ := insertAllE_ok values.reverse
          simp [c3, e]
        · simp [c1, c2, c3]
  · rintro (h | h | h)
    · exact ⟨_, by rw [h]; rfl⟩
    · exact ⟨_, by rw [h]; rfl⟩
    · exact ⟨_, by rw [h]; rfl⟩
  · rintro (h | h)
    · obtain ⟨t, e, -⟩ := insertAllE_ok values
      exact ⟨t, by rw [h, FromOrderTemplate, if_pos rfl, e]⟩
    · obtain ⟨t, e, -⟩ := insertAllE_ok values.reverse
      exact ⟨t, by
        rw [h, FromOrderTemplate, if_neg (by decide), if_neg (by decide), if_pos rfl, e]⟩
  · intro h hn
    obtain ⟨t, e, -⟩ := fromOrderTemplate_lkp values hn
    exact ⟨t, by rw [h, e]⟩

/-- C12 (failing input). With the valid token `"LKP"` and the sequence of the
`2 ^ 30 + 1` values `0, ..., 2 ^ 30`, `FromOrderTemplate` returns no tree, and not by the
invalid-argument exception: `build` adds the `int` indices `2 ^ 30` and `2 ^ 30`. -/
theorem C12_fromOrderTemplate_overflow :
    FromOrderTemplate values0to2pow30 "LKP" = .error .undefinedBehaviour ∧
      values0to2pow30.length = 1073741825 :=
  ⟨fromOrderTemplate_lkp_overflow _ values0to2pow30_length, values0to2pow30_length⟩

/-- C19 (counterexample). The tree built from 5, 3, 7, 2 has the pre-order sequence
5, 3, 2, 7; inserting these values in this order rotates when 2 arrives, and the rebuilt
tree has the pre-order sequence 3, 2, 5, 7: `IsSameTree` is false. -/
theorem C19_klp_counterexample :
    Reachable less tree5372 ∧ PreOrder tree5372 = [5, 3, 2, 7] ∧
      ∃ r, FromOrderTemplate (PreOrder tree5372) "KLP" = .ok r ∧
        PreOrder r = [3, 2, 5, 7] ∧ IsSameTree r tree5372 = false :=
  ⟨⟨[.Insert 5, .Insert 3, .Insert 7, .Insert 2], by decide⟩, by decide,
    _, rfl, by decide, by decide⟩

/-- C19 (amended). For a tree `t` reachable by `Insert`/`Remove` under the default
ordering, `FromOrderTemplate(v, "KLP")` with `v` the pre-order sequence of `t` runs to
completion and yields a tree with the in-order sequence of `t`, that is `Equals` to
`t`; its shape and pre-order sequence need not be those of `t`. -/
theorem C19_klp_equals [LinearOrder α] (t : Node α) (hr : Reachable less t) :
    ∃ r, FromOrderTemplate (PreOrder t) "KLP" = .ok r ∧ Equals r t = true ∧
      InOrder r = InOrder t := by
  obtain ⟨r, e, -, b, m⟩ := insertAllE_ok (PreOrder t)
  have e1 : inorder r = inorder t := by
    apply ascending_ext (bst_less_ascending b) (reachable_ascending_less hr)
    intro x
    rw [m x]
    exact mem_preorder_iff t x
  exact ⟨r, by rw [FromOrderTemplate, if_pos rfl, e], by simp [Equals, InOrder, e1], e1⟩

/-- Witness of C19 (amended): the tree built from 5, 3, 7, 2 is rebuilt from its
pre-order sequence with the same in-order sequence 2, 3, 5, 7. -/
theorem C19_klp_equals_witness :
    Reachable less tree5372 ∧
      ∃ r, FromOrderTemplate (PreOrder tree5372) "KLP" = .ok r ∧ Equals r tree5372 = true ∧
        InOrder r = InOrder tree5372 :=
  ⟨⟨[.Insert 5, .Insert 3, .Insert 7, .Insert 2], by decide⟩,
    C19_klp_equals tree5372 ⟨[.Insert 5, .Insert 3, .Insert 7, .Insert 2], by decide⟩⟩

/-! ## The threaded traversal -/

theorem morrisLoop_null (gas fuel : Nat) (heap : Heap α) (out : List α) :
    morrisLoop gas (fuel + 1) heap none out = some (out, heap) := rfl

/-- A step of the outer loop at a node without a left child: visit, go right. -/
theorem morrisLoop_noLeft (gas fuel : Nat) (heap : Heap α) (cur : Nat) (out : List α)
    (c : Cell α) (h1 : heap cur = some c) (h2 : c.left = none) :
    morrisLoop gas (fuel + 1) heap (some cur) out =
      morrisLoop gas fuel heap c.right (out ++ [c.value]) := by
  rw [morrisLoop]
  simp only [h1, h2]

/-- A step of the outer loop that finds the predecessor with a null right link: thread
it to the current node, go left. -/
theorem morrisLoop_thread (gas fuel : Nat) (heap : Heap α) (cur pl pred : Nat)
    (out : List α) (c p : Cell α) (h1 : heap cur = some c) (h2 : c.left = some pl)
    (h3 : findPredecessor heap cur gas pl = some pred) (h4 : heap pred = some p)
    (h5 : p.right = none) (h6 : pred ≠ cur) :
    morrisLoop gas (fuel + 1) heap (some cur) out =
      morrisLoop gas fuel (Function.update heap pred (some { p with right := some cur }))
        (some pl) out := by
  rw [morrisLoop]
  simp only [h1, h2, h3, h4, h5, setRight, Function.update_noteq (Ne.symm h6)]

/-- A step of the outer loop that finds the predecessor threaded: cut the thread, visit,
go right. -/
theorem morrisLoop_unthread (gas fuel : Nat) (heap : Heap α) (cur pl pred q : Nat)
    (out : List α) (c p : Cell α) (h1 : heap cur = some c) (h2 : c.left = some pl)
    (h3 : findPredecessor heap cur gas pl = some pred) (h4 : heap pred = some p)
    (h5 : p.right = some q) (h6 : pred ≠ cur) :
    morrisLoop gas (fuel + 1) heap (some cur) out =
      morrisLoop gas fuel (Function.update heap pred (some { p with right := none }))
        c.right (out ++ [c.value]) := by
  rw [morrisLoop]
  simp only [h1, h2, h3, h4, h5, setRight, Function.update_noteq (Ne.symm h6)]

theorem addrs_node (x : Nat × α) (l r : Node (Nat × α)) (h : Int) :
    addrs (.node x l r h) = addrs l ++ x.1 :: addrs r := by
  simp [addrs, inorder]

theorem rightmost_mem (x : Nat × α) (l r : Node (Nat × α)) (h : Int) :
    rightmost (.node x l r h) ∈ addrs (.node x l r h) := by
  induction r generalizing x l h with
  | nil => simp [rightmost, addrs_node]
  | node y l2 r2 h2 _ ihr =>
    rw [rightmost, addrs_node]
    exact List.mem_append_right _ (List.mem_cons_of_mem _ (ihr y l2 h2))

/-- Cells outside a tree do not matter to its being stored. -/
theorem stored_update (heap : Heap α) (t : Node (Nat × α)) (nxt : Option Nat) (a : Nat)
    (c : Option (Cell α)) (hs : Stored heap t nxt) (ha : a ∉ addrs t) :
    Stored (Function.update heap a c) t nxt := by
  induction t generalizing nxt with
  | nil => trivial
  | node x l r h ihl ihr =>
    rw [addrs_node] at ha
    simp only [List.mem_append, List.mem_cons, not_or] at ha
    obtain ⟨s1, s2, s3⟩ := hs
    exact ⟨by rw [Function.update_noteq (Ne.symm ha.2.1)]; exact s1, ihl none s2 ha.1,
      ihr nxt s3 ha.2.2⟩

/-- The right link of the rightmost node of a stored tree is its end pointer. -/
theorem stored_rightmost (heap : Heap α) (x : Nat × α) (l r : Node (Nat × α)) (h : Int)
    (nxt : Option Nat) (hs : Stored heap (.node x l r h) nxt) :
    ∃ p, heap (rightmost (.node x l r h)) = some p ∧ p.right = nxt := by
  induction r generalizing x l h with
  | nil => exact ⟨_, hs.1, rfl⟩
  | node y l2 r2 h2 _ ihr => exact ihr y l2 h2 hs.2.2

/-- Overwriting the right link of the rightmost node changes the end pointer of a stored
tree and nothing else. -/
theorem stored_retarget (heap : Heap α) (x : Nat × α) (l r : Node (Nat × α)) (h : Int)
    (nxt nxt1 : Option Nat) (p : Cell α) (hs : Stored heap (.node x l r h) nxt)
    (hn : (addrs (.node x l r h)).Nodup)
    (hp : heap (rightmost (.node x l r h)) = some p) :
    Stored (Function.update heap (rightmost (.node x l r h))
      (some { p with right := nxt1 })) (.node x l r h) nxt1 := by
  induction r generalizing x l h with
  | nil =>
    obtain ⟨s1, s2, -⟩ := hs
    rw [addrs_node] at hn
    have hx : x.1 ∉ addrs l := fun hm =>
      (List.nodup_append.mp hn).2.2 hm (List.mem_cons_self _ _)
    simp only [rightmost] at hp ⊢
    rw [s1] at hp
    cases hp
    exact ⟨by rw [Function.update_same]; rfl, stored_update heap l none _ _ s2 hx, trivial⟩
  | node y l2 r2 h2 _ ihr =>
    obtain ⟨s1, s2, s3⟩ := hs
    rw [addrs_node] at hn
    obtain ⟨n1, n2, n3⟩ := List.nodup_append.mp hn
    have hm := rightmost_mem y l2 r2 h2
    have hr : (addrs (.node y l2 r2 h2)).Nodup := (List.nodup_cons.mp n2).2
    have hx : rightmost (.node y l2 r2 h2) ≠ x.1 := fun e =>
      (List.nodup_cons.mp n2).1 (e ▸ hm)
    have hl : rightmost (.node y l2 r2 h2) ∉ addrs l := fun hm2 =>
      n3 hm2 (List.mem_cons_of_mem _ hm)
    rw [rightmost] at hp ⊢
    exact ⟨by rw [Function.update_noteq (Ne.symm hx)]; exact s1,
      stored_update heap l none _ _ s2 hl, ihr y l2 h2 s3 hr hp⟩

/-- The inner loop walks down the right spine of the left subtree and stops at its
rightmost node, whether that node is threaded to the current node or not. -/
theorem findPredecessor_spec (heap : Heap α) (cur : Nat) (x : Nat × α)
    (l r : Node (Nat × α)) (h : Int) (nxt : Option Nat) (gas : Nat)
    (hs : Stored heap (.node x l r h) nxt) (hc : cur ∉ addrs (.node x l r h))
    (hn : nxt = none ∨ nxt = some cur) (hg : size (.node x l r h) ≤ gas) :
    findPredecessor heap cur gas x.1 = some (rightmost (.node x l r h)) := by
  induction r generalizing x l h gas with
  | nil =>
    cases gas with
    | zero => simp [size] at hg
    | succ gas =>
      rw [findPredecessor, hs.1]
      rcases hn with e | e
      · simp [rootPtr, e, rightmost]
      · simp [rootPtr, e, rightmost]
  | node y l2 r2 h2 _ ihr =>
    cases gas with
    | zero => simp [size] at hg
    | succ gas =>
      rw [addrs_node] at hc
      simp only [List.mem_append, List.mem_cons, not_or] at hc
      have hy : y.1 ≠ cur := fun e => hc.2.2 (by
        rw [addrs_node, ← e]
        exact List.mem_append_right _ (List.mem_cons_self _ _))
      rw [findPredecessor, hs.1]
      simp only [rootPtr, hy, if_false]
      rw [rightmost]
      exact ihr y l2 h2 gas hs.2.2 hc.2.2 (by simp only [size] at hg ⊢; omega)

/-- The traversal of one stored subtree: started at its root with the right link of its
rightmost node leading to `nxt`, the loop visits the values of the subtree in order,
arrives at `nxt`, and the memory is then what it was at the start. -/
theorem morris_segment (gas : Nat) (t : Node (Nat × α)) :
    ∀ (nxt : Option Nat) (heap : Heap α) (out : List α), (addrs t).Nodup →
      (∀ a, nxt = some a → a ∉ addrs t) → Stored heap t nxt → size t ≤ gas →
      ∃ n, n ≤ 2 * size t ∧ ∀ fuel,
        morrisLoop gas (n + fuel) heap (rootPtr t nxt) out =
          morrisLoop gas fuel heap nxt (out ++ (inorder t).map Prod.snd) := by
  induction t with
  | nil =>
    intro nxt heap out _ _ _ _
    exact ⟨0, by omega, fun fuel => by simp [rootPtr, inorder]⟩
  | node x l r h ihl ihr =>
    intro nxt heap out hn hx hs hg
    obtain ⟨s1, s2, s3⟩ := hs
    rw [addrs_node] at hn hx
    obtain ⟨n1, n2, n3⟩ := List.nodup_append.mp hn
    have hxl : x.1 ∉ addrs l := fun hm => n3 hm (List.mem_cons_self _ _)
    have nr0 : (addrs r).Nodup := (List.nodup_cons.mp n2).2
    have hxr : ∀ a, nxt = some a → a ∉ addrs r := fun a ha hm =>
      hx a ha (List.mem_append_right _ (List.mem_cons_of_mem _ hm))
    have gl : size l ≤ gas := by simp only [size] at hg; omega
    have gr : size r ≤ gas := by simp only [size] at hg; omega
    cases l with
    | nil =>
      obtain ⟨nr, br, er⟩ := ihr nxt heap (out ++ [x.2]) nr0 hxr s3 gr
      refine ⟨nr + 1, by simp only [size]; omega, fun fuel => ?_⟩
      rw [show nr + 1 + fuel = (nr + fuel) + 1 by omega, rootPtr,
        morrisLoop_noLeft gas _ heap x.1 out _ s1 rfl]
      simp only
      rw [er fuel]
      simp [inorder]
    | node y l2 r2 h2 =>
      obtain ⟨p, hp, hpr⟩ := stored_rightmost heap y l2 r2 h2 none s2
      have hrm := rightmost_mem y l2 r2 h2
      have hne : rightmost (.node y l2 r2 h2) ≠ x.1 := fun e => hxl (e ▸ hrm)
      have f1 := findPredecessor_spec heap x.1 y l2 r2 h2 none gas s2 hxl (Or.inl rfl) gl
      have st1 := stored_retarget heap y l2 r2 h2 none (some x.1) p s2 n1 hp
      obtain ⟨nl, bl, el⟩ := ihl (some x.1)
        (Function.update heap (rightmost (.node y l2 r2 h2))
          (some { p with right := some x.1 })) out n1
        (fun a ha => by cases ha; exact hxl) st1 gl
      have f2 := findPredecessor_spec _ x.1 y l2 r2 h2 (some x.1) gas st1 hxl (Or.inr rfl) gl
      have back : Function.update
          (Function.update heap (rightmost (.node y l2 r2 h2))
            (some { p with right := some x.1 }))
          (rightmost (.node y l2 r2 h2))
          (some { ({ p with right := some x.1 } : Cell α) with right := none }) = heap := by
        funext a
        by_cases c : a = rightmost (.node y l2 r2 h2)
        · subst c
          rw [Function.update_same, hp]
          cases p
          simp only at hpr
          subst hpr
          rfl
        · rw [Function.update_noteq c, Function.update_noteq c]
      obtain ⟨nr, br, er⟩ := ihr nxt heap
        (out ++ (inorder (.node y l2 r2 h2)).map Prod.snd ++ [x.2]) nr0 hxr s3 gr
      refine ⟨nl + nr + 2, by simp only [size] at bl br ⊢; omega, fun fuel => ?_⟩
      rw [show nl + nr + 2 + fuel = (nl + (nr + fuel + 1)) + 1 by omega, rootPtr,
        morrisLoop_thread gas _ heap x.1 y.1 _ out _ p s1 rfl f1 hp hpr hne]
      have el1 := el (nr + fuel + 1)
      rw [rootPtr] at el1
      rw [el1,
        morrisLoop_unthread gas _ _ x.1 y.1 _ x.1 _ _ { p with right := some x.1 }
          (by rw [Function.update_noteq (Ne.symm hne)]; exact s1) rfl f2
          (by rw [Function.update_same]) rfl hne,
        back]
      simp only
      rw [er fuel]
      simp [inorder]

theorem inorder_unlabel (t : Node (Nat × α)) :
    inorder (unlabel t) = (inorder t).map Prod.snd := by
  induction t with
  | nil => rfl
  | node x l r h ihl ihr => simp [unlabel, inorder, ihl, ihr]

theorem size_label (base : Nat) (t : Node α) : size (label base t) = size t := by
  induction t generalizing base with
  | nil => rfl
  | node v l r h ihl ihr => simp only [label, size, ihl, ihr]

theorem unlabel_label (base : Nat) (t : Node α) : unlabel (label base t) = t := by
  induction t generalizing base with
  | nil => rfl
  | node v l r h ihl ihr => simp only [label, unlabel, ihl, ihr]

theorem addrs_label_range (base : Nat) (t : Node α) :
    ∀ a ∈ addrs (label base t), base ≤ a ∧ a < base + size t := by
  induction t generalizing base with
  | nil => simp [label, addrs, inorder]
  | node v l r h ihl ihr =>
    intro a ha
    rw [label, addrs_node] at ha
    simp only [size]
    rcases List.mem_append.mp ha with m | m
    · have := ihl (base + 1) a m
      omega
    · rcases List.mem_cons.mp m with m1 | m1
      · simp only at m1
        omega
      · have := ihr (base + 1 + size l) a m1
        omega

theorem addrs_label_nodup (base : Nat) (t : Node α) : (addrs (label base t)).Nodup := by
  induction t generalizing base with
  | nil => simp [label, addrs, inorder]
  | node v l r h ihl ihr =>
    rw [label, addrs_node]
    refine List.nodup_append.mpr ⟨ihl _, List.nodup_cons.mpr ⟨fun m => ?_, ihr _⟩, ?_⟩
    · have := addrs_label_range (base + 1 + size l) r _ m
      simp only at this
      omega
    · intro a h1 h2
      have r1 := addrs_label_range (base + 1) l a h1
      rcases List.mem_cons.mp h2 with m | m
      · simp only at m
        omega
      · have := addrs_label_range (base + 1 + size l) r a m
        omega

theorem heapOf_eq_none (t : Node (Nat × α)) (nxt : Option Nat) (a : Nat)
    (ha : a ∉ addrs t) : heapOf t nxt a = none := by
  induction t generalizing nxt with
  | nil => rfl
  | node x l r h ihl ihr =>
    rw [addrs_node] at ha
    simp only [List.mem_append, List.mem_cons, not_or] at ha
    simp only [heapOf, if_neg ha.2.1, ihl none ha.1, ihr nxt ha.2.2]

/-- Being stored depends only on the cells at the addresses of the tree. -/
theorem stored_congr (heap1 heap2 : Heap α) (t : Node (Nat × α)) (nxt : Option Nat)
    (h : ∀ a ∈ addrs t, heap1 a = heap2 a) (hs : Stored heap1 t nxt) :
    Stored heap2 t nxt := by
  induction t generalizing nxt with
  | nil => trivial
  | node x l r ht ihl ihr =>
    obtain ⟨s1, s2, s3⟩ := hs
    have hx := h x.1 (by rw [addrs_node]; exact List.mem_append_right _ (List.mem_cons_self _ _))
    refine ⟨hx ▸ s1, ihl none (fun a ha => h a ?_) s2, ihr nxt (fun a ha => h a ?_) s3⟩
    · rw [addrs_node]
      exact List.mem_append_left _ ha
    · rw [addrs_node]
      exact List.mem_append_right _ (List.mem_cons_of_mem _ ha)

/-- The memory built from a tree with distinct addresses stores that tree. -/
theorem stored_heapOf (t : Node (Nat × α)) (nxt : Option Nat) (hn : (addrs t).Nodup) :
    Stored (heapOf t nxt) t nxt := by
  induction t generalizing nxt with
  | nil => trivial
  | node x l r h ihl ihr =>
    rw [addrs_node] at hn
    obtain ⟨n1, n2, n3⟩ := List.nodup_append.mp hn
    obtain ⟨n4, n5⟩ := List.nodup_cons.mp n2
    refine ⟨by simp [heapOf], ?_, ?_⟩
    · refine stored_congr (heapOf l none) _ l none (fun a ha => ?_) (ihl none n1)
      have hax : a ≠ x.1 := fun e => n3 ha (e ▸ List.mem_cons_self _ _)
      simp only [heapOf, if_neg hax]
      cases hc : heapOf l none a with
      | none =>
        simp only
        exact (heapOf_eq_none r nxt a (fun m => n3 ha (List.mem_cons_of_mem _ m))).symm
      | some c => rfl
    · refine stored_congr (heapOf r nxt) _ r nxt (fun a ha => ?_) (ihr nxt n5)
      have hax : a ≠ x.1 := fun e => n4 (e ▸ ha)
      have hal : a ∉ addrs l := fun m => n3 m (List.mem_cons_of_mem _ ha)
      simp only [heapOf, if_neg hax, heapOf_eq_none l none a hal]

/-- The threaded traversal of a stored tree, with `2 * size + 1` iterations allowed:
it returns the in-order sequence and the memory it started from. -/
theorem morris_stored (t : Node (Nat × α)) (heap : Heap α) (hn : (addrs t).Nodup)
    (hs : Stored heap t none) (fuel : Nat) (hf : 2 * size t + 1 ≤ fuel) :
    MorrisInOrder fuel heap (rootPtr t none) = some (InOrder (unlabel t), heap) := by
  obtain ⟨n, bn, e⟩ := morris_segment fuel t none heap [] hn (fun a ha => by cases ha) hs
    (by omega)
  obtain ⟨k, hk⟩ : ∃ k, fuel = n + (k + 1) := ⟨fuel - n - 1, by omega⟩
  have e1 := e (k + 1)
  rw [← hk, morrisLoop_null] at e1
  rw [MorrisInOrder, e1, InOrder, inorder_unlabel]
  rfl

/-- C13. Threaded in-order traversal.  For every tree `t`, laid out in memory at
consecutive addresses, `MorrisInOrder` terminates within `2 * size + 1` iterations of its
outer loop, hands the visitor exactly the in-order sequence of `t`, and returns with the
memory it started from: every left and right link is as before the call.  The same
holds for any memory that stores the tree at distinct addresses. -/
theorem C13_morris (t : Node α) :
    MorrisInOrder (2 * size t + 1) (heapOf (label 0 t) none) (rootPtr (label 0 t) none) =
        some (InOrder t, heapOf (label 0 t) none) ∧
      ∀ (lt : Node (Nat × α)) (heap : Heap α) (fuel : Nat), unlabel lt = t →
        (addrs lt).Nodup → Stored heap lt none → 2 * size t + 1 ≤ fuel →
        MorrisInOrder fuel heap (rootPtr lt none) = some (InOrder t, heap) := by
  constructor
  · have h := morris_stored (label 0 t) (heapOf (label 0 t) none) (addrs_label_nodup 0 t)
      (stored_heapOf _ none (addrs_label_nodup 0 t)) (2 * size t + 1)
      (by rw [size_label])
    rw [unlabel_label] at h
    exact h
  · intro lt heap fuel hl hn hs hf
    have hsz : size lt = size t := by
      rw [← hl]
      clear hl hn hs hf
      induction lt with
      | nil => rfl
      | node x l r h ihl ihr => simp only [unlabel, size, ihl, ihr]
    have h := morris_stored lt heap hn hs fuel (by omega)
    rw [hl] at h
    exact h

/-- Witness of C13: the tree built from 5, 3, 7, 2 stored at the addresses 10 to 13;
the traversal visits 2, 3, 5, 7 and leaves the memory as it was. -/
theorem C13_morris_witness :
    unlabel laidTree5372 = tree5372 ∧ (addrs laidTree5372).Nodup ∧
      Stored heap5372 laidTree5372 none ∧
      MorrisInOrder 9 heap5372 (some 10) = some ([2, 3, 5, 7], heap5372) :=
  ⟨by decide, by decide, by decide,
    (C13_morris tree5372).2 laidTree5372 heap5372 9 (by decide) (by decide) (by decide)
      (by decide)⟩

/-! ## The recursion bounds of the model are never reached -/

/-- The midpoint computed by `build` lies in the range. -/
theorem tdiv_two_between (l r : Int) (hlr : l ≤ r) :
    l ≤ Int.tdiv (l + r) 2 ∧ Int.tdiv (l + r) 2 ≤ r := by
  by_cases c : 0 ≤ l + r
  · rw [Int.tdiv_eq_ediv c (by norm_num)]
    omega
  · have e : l + r = -(-(l + r)) := by omega
    rw [e, Int.neg_tdiv, Int.tdiv_eq_ediv (by omega) (by norm_num)]
    omega

/-- `build` does not run out of recursion levels when started with more levels than
the range has elements. -/
theorem build_ne_outOfFuel [LinearOrder α] (values : List α) (fuel : Nat) :
    ∀ (l r : Int) (tree : Node α), 0 < fuel → r + 1 - l < fuel →
      build values fuel l r tree ≠ .error .outOfFuel := by
  induction fuel with
  | zero =>
    intro l r tree h0 hf h
    omega
  | succ fuel ih =>
    intro l r tree _ hf h
    rw [build_succ] at h
    by_cases c1 : l > r
    · rw [if_pos c1] at h
      cases h
    · rw [if_neg c1] at h
      split_ifs at h with c2 c3
      any_goals cases h
      have hb := tdiv_two_between l r (by omega)
      split at h
      · cases h
      · split at h
        · cases h
        · split at h
          · next e he =>
            cases h
            exact ih _ _ _ (by omega) (by omega) he
          · exact ih _ _ _ (by omega) (by omega) h

theorem toInt_le (x : Nat) : toInt x ≤ 2147483647 ∧ (x < 2147483648 → toInt x = x) := by
  unfold toInt
  omega

/-- `FromOrderTemplate` never stops for lack of recursion levels. -/
theorem fromOrderTemplate_ne_outOfFuel [LinearOrder α] (values : List α) (p : String) :
    FromOrderTemplate values p ≠ .error .outOfFuel := by
  unfold FromOrderTemplate insertAllE
  split_ifs
  · split <;> simp
  · apply build_ne_outOfFuel _ _ _ _ _ (by omega)
    have h1 : sizeMinusOne values.length + 1 ≤ values.length ∨ values.length = 0 := by
      unfold sizeMinusOne
      omega
    have h2 := toInt_le (sizeMinusOne values.length)
    rcases h1 with h | h
    · by_cases c : sizeMinusOne values.length < 2147483648
      · rw [h2.2 c]
        omega
      · omega
    · rw [h]
      decide
  · split <;> simp
  · simp

theorem dropWhile_length_lt (p : Char → Bool) (l : List Char) (h : l.takeWhile p ≠ []) :
    (l.dropWhile p).length < l.length := by
  have h1 := congrArg List.length (List.takeWhile_append_dropWhile p l)
  have h2 := List.length_pos.mpr h
  rw [List.length_append] at h1
  omega

theorem readInt_length (s rest : List Char) (v : Int) (h : readInt s = some (v, rest)) :
    rest.length < s.length := by
  have t1 := dropWhile_length_lt Char.isDigit
  have t3 : (s.dropWhile isSpace).length ≤ s.length :=
    (List.dropWhile_sublist (l := s) isSpace).length_le
  have t2 : (s.dropWhile isSpace).tail.length ≤ s.length := by
    have : (s.dropWhile isSpace).tail.length ≤ (s.dropWhile isSpace).length := by simp
    omega
  unfold readInt at h
  simp only at h
  split_ifs at h
  all_goals
    cases h
    first
    | exact lt_of_lt_of_le (t1 _ (by assumption)) t2
    | exact lt_of_lt_of_le (t1 _ (by assumption)) t3

/-- The loop of `ParseValuesFromString` gives the same result with any number of
iterations allowed above the length of the text. -/
theorem parseLoop_fuel (s : List Char) (fuel1 fuel2 : Nat) (h1 : s.length < fuel1)
    (h2 : s.length < fuel2) : parseLoop fuel1 s = parseLoop fuel2 s := by
  induction fuel1 generalizing s fuel2 with
  | zero => omega
  | succ fuel1 ih =>
    cases fuel2 with
    | zero => omega
    | succ fuel2 =>
      rw [parseLoop, parseLoop]
      cases hr : readInt s with
      | none => rfl
      | some x =>
        obtain ⟨v, rest⟩ := x
        have := readInt_length s rest v hr
        simp only
        rw [ih rest fuel2 (by omega) (by omega)]

/-! ## Totality of the engine -/

theorem applyOps_append (comp : α → α → Bool) (ops1 ops2 : List (Op α)) (t : Node α) :
    applyOps comp t (ops1 ++ ops2) = (applyOps comp t ops1).bind (fun r => applyOps comp r ops2) := by
  induction ops1 generalizing t with
  | nil => simp [applyOps]
  | cons op ops ih =>
    simp only [List.cons_append, applyOps]
    cases applyOp comp t op with
    | none => rfl
    | some r => exact ih r

theorem reachable_step {comp : α → α → Bool} {t t1 : Node α} (op : Op α)
    (hr : Reachable comp t) (h : applyOp comp t op = some t1) : Reachable comp t1 := by
  obtain ⟨ops, e⟩ := hr
  refine ⟨ops ++ [op], ?_⟩
  rw [applyOps_append, e, Option.some_bind]
  simp only [applyOps, h, Option.some_bind]

/-- The rotations called by `balance` on a node whose subtrees have the shape
invariants and differ in height by at most two all find the child they read. -/
theorem balanceCalls_safe (v : α) (l r : Node α) (h : Int) (hl : AVL l) (hr : AVL r)
    (hd1 : getHeight l - getHeight r ≤ 2) (hd2 : getHeight r - getHeight l ≤ 2) :
    ∀ c ∈ balanceCalls (.node v l r h), c.safe = true := by
  have nl := getHeight_nonneg hl
  have nr := getHeight_nonneg hr
  intro c hc
  simp only [balanceCalls] at hc
  by_cases c1 : getHeight l - getHeight r > 1
  · obtain ⟨lv, ll, lr, lh, rfl⟩ := exists_node_of_getHeight_pos (t := l) (by omega)
    obtain ⟨all, alr, hlh, b1, b2⟩ := hl
    have nll := getHeight_nonneg all
    have nlr := getHeight_nonneg alr
    rw [if_pos c1] at hc
    by_cases c2 : getBalance (.node lv ll lr lh) ≥ 0
    · rw [if_pos c2] at hc
      simp only [List.mem_singleton] at hc
      subst hc
      rfl
    · rw [if_neg c2] at hc
      rw [getBalance_node] at c2
      obtain ⟨rv, rl, rr, rh, rfl⟩ := exists_node_of_getHeight_pos (t := lr) (by omega)
      simp only [rotateLeft_node, List.mem_cons, List.mem_singleton, List.not_mem_nil,
        or_false] at hc
      rcases hc with rfl | rfl
      · rfl
      · simp only [updateHeight_node]
        rfl
  · rw [if_neg c1] at hc
    by_cases c3 : getHeight l - getHeight r < -1
    · obtain ⟨rv, rl, rr, rh, rfl⟩ := exists_node_of_getHeight_pos (t := r) (by omega)
      obtain ⟨arl, arr, hrh, b1, b2⟩ := hr
      have nrl := getHeight_nonneg arl
      have nrr := getHeight_nonneg arr
      rw [if_pos c3] at hc
      by_cases c4 : getBalance (.node rv rl rr rh) ≤ 0
      · rw [if_pos c4] at hc
        simp only [List.mem_singleton] at hc
        subst hc
        rfl
      · rw [if_neg c4] at hc
        rw [getBalance_node] at c4
        obtain ⟨lv, ll, lr, lh, rfl⟩ := exists_node_of_getHeight_pos (t := rl) (by omega)
        simp only [rotateRight_node, List.mem_cons, List.mem_singleton, List.not_mem_nil,
          or_false] at hc
        rcases hc with rfl | rfl
        · rfl
        · simp only [updateHeight_node]
          rfl
    · rw [if_neg c3] at hc
      simp at hc

/-- Every call made by `insert` on a tree with the shape invariants finds the child it
reads. -/
theorem insertCalls_safe (comp : α → α → Bool) (value : α) (t : Node α) (ht : AVL t) :
    ∀ c ∈ insertCalls comp t value, c.safe = true := by
  induction t with
  | nil =>
    intro c hc
    simp [insertCalls] at hc
  | node x l r h ihl ihr =>
    obtain ⟨al, ar, hh, b1, b2⟩ := ht
    intro c hc
    rw [insertCalls] at hc
    by_cases c1 : comp value x = true
    · obtain ⟨l1, e, al1, g1, g2⟩ := insert_avl comp value l al
      rw [if_pos c1, e, List.mem_append] at hc
      rcases hc with hc | hc
      · exact ihl al c hc
      · exact balanceCalls_safe x l1 r h al1 ar (by omega) (by omega) c hc
    · rw [if_neg c1] at hc
      by_cases c2 : comp x value = true
      · obtain ⟨r1, e, ar1, g1, g2⟩ := insert_avl comp value r ar
        rw [if_pos c2, e, List.mem_append] at hc
        rcases hc with hc | hc
        · exact ihr ar c hc
        · exact balanceCalls_safe x l r1 h al ar1 (by omega) (by omega) c hc
      · rw [if_neg c2] at hc
        simp at hc

theorem removeCalls_node (comp : α → α → Bool) (x : α) (l r : Node α) (h : Int)
    (value : α) :
    removeCalls comp (.node x l r h) value =
      if comp value x then
        removeCalls comp l value ++
          match remove comp l value with
          | none => []
          | some l1 => balanceCalls (.node x l1 r h)
      else if comp x value then
        removeCalls comp r value ++
          match remove comp r value with
          | none => []
          | some r1 => balanceCalls (.node x l r1 h)
      else
        match l, r with
        | .nil, _ => []
        | .node _ _ _ _, .nil => []
        | .node lv ll lr lh, .node rv rl rr rh =>
          .findMin (.node rv rl rr rh) ::
            match findMin (.node rv rl rr rh) with
            | .nil => []
            | .node m _ _ _ =>
              removeCalls comp (.node rv rl rr rh) m ++
                match remove comp (.node rv rl rr rh) m with
                | none => []
                | some r1 => balanceCalls (.node m (.node lv ll lr lh) r1 h) := by
  cases l <;> cases r <;> rfl

/-- Every call made by `remove` on a tree with the shape invariants finds the child it
reads, and `findMin` of the right subtree returns a node. -/
theorem removeCalls_safe (comp : α → α → Bool) (value : α) (t : Node α) (ht : AVL t) :
    ∀ c ∈ removeCalls comp t value, c.safe = true := by
  induction t generalizing value with
  | nil =>
    intro c hc
    simp [removeCalls] at hc
  | node x l r h ihl ihr =>
    obtain ⟨al, ar, hh, b1, b2⟩ := ht
    intro c hc
    rw [removeCalls_node] at hc
    by_cases c1 : comp value x = true
    · obtain ⟨l1, e, al1, g1, g2⟩ := remove_avl comp value l al
      rw [if_pos c1, e, List.mem_append] at hc
      rcases hc with hc | hc
      · exact ihl value al c hc
      · exact balanceCalls_safe x l1 r h al1 ar (by omega) (by omega) c hc
    · rw [if_neg c1] at hc
      by_cases c2 : comp x value = true
      · obtain ⟨r1, e, ar1, g1, g2⟩ := remove_avl comp value r ar
        rw [if_pos c2, e, List.mem_append] at hc
        rcases hc with hc | hc
        · exact ihr value ar c hc
        · exact balanceCalls_safe x l r1 h al ar1 (by omega) (by omega) c hc
      · rw [if_neg c2] at hc
        cases l with
        | nil => simp at hc
        | node lv ll lr lh =>
          cases r with
          | nil => simp at hc
          | node rv rl rr rh =>
            obtain ⟨m, mr, mh, em, -⟩ := findMin_node rv rl rr rh
            obtain ⟨r1, e, ar1, g1, g2⟩ := remove_avl comp m (.node rv rl rr rh) ar
            simp only [em, e, List.mem_cons, List.mem_append] at hc
            rcases hc with rfl | hc | hc
            · simp only [Call.safe, em]
            · exact ihr m ar c hc
            · exact balanceCalls_safe m (.node lv ll lr lh) r1 h al ar1 (by omega) (by omega)
                c hc

/-- The loop of `Contains` ends within `realHeight t + 1` evaluations of its condition,
with the answer of `Contains`. -/
theorem containsLoop_spec (comp : α → α → Bool) (value : α) (t : Node α) (fuel : Nat)
    (hf : realHeight t < fuel) :
    containsLoop comp fuel t value = some (Contains comp t value) := by
  induction t generalizing fuel with
  | nil =>
    obtain ⟨k, rfl⟩ : ∃ k, fuel = k + 1 := ⟨fuel - 1, by omega⟩
    rfl
  | node x l r h ihl ihr =>
    obtain ⟨k, rfl⟩ : ∃ k, fuel = k + 1 := ⟨fuel - 1, by omega⟩
    simp only [realHeight] at hf
    rw [containsLoop, Contains, ihl k (by omega), ihr k (by omega)]
    split_ifs <;> rfl

/-- C21. Totality of the engine: on every tree reachable from the empty tree by
`Insert`/`Remove` (whatever the comparator) and for every value, `Insert` and `Remove`
return a tree, which is reachable again, and the loop of `Contains` ends with an answer
after at most `height + 1` evaluations of its condition.  On the way every
`rotateRight` is called on a node with a present left child and every `rotateLeft` on a
node with a present right child, in the single and in the double rotations, and in the
two-children case of `remove` the call `findMin` of the right subtree returns a node. -/
theorem C21_totality (comp : α → α → Bool) (t : Node α) (hr : Reachable comp t)
    (value : α) :
    (∃ t1, Insert comp t value = some t1 ∧ Reachable comp t1) ∧
      (∃ t1, Remove comp t value = some t1 ∧ Reachable comp t1) ∧
      (∀ fuel, realHeight t < fuel →
        containsLoop comp fuel t value = some (Contains comp t value)) ∧
      (∀ c ∈ insertCalls comp t value, c.safe = true) ∧
      (∀ c ∈ removeCalls comp t value, c.safe = true) := by
  have ha := reachable_avl hr
  obtain ⟨t1, e1, -, -, -⟩ := insert_avl comp value t ha
  obtain ⟨t2, e2, -, -, -⟩ := remove_avl comp value t ha
  exact ⟨⟨t1, e1, reachable_step (.Insert value) hr e1⟩,
    ⟨t2, e2, reachable_step (.Remove value) hr e2⟩,
    fun fuel hf => containsLoop_spec comp value t fuel hf,
    insertCalls_safe comp value t ha, removeCalls_safe comp value t ha⟩

/-- Witness of C21: removing 5 from the tree built from 5, 3, 7, 2 calls `findMin` on the
node 7 and then `rotateRight` on the root, whose left child 3 is present; inserting 2
into the tree built from 5, 3 calls `rotateRight` on the node 5. -/
theorem C21_totality_witness :
    Reachable less tree5372 ∧
      (∃ t1, Remove less tree5372 5 = some t1 ∧ Reachable less t1) ∧
      (∀ fuel, realHeight tree5372 < fuel →
        containsLoop less fuel tree5372 5 = some (Contains less tree5372 5)) ∧
      (∀ c ∈ removeCalls less tree5372 5, c.safe = true) ∧
      removeCalls less tree5372 5 =
        [.findMin (.node 7 .nil .nil 1),
          .rotateRight (.node 7 (.node 3 (.node 2 .nil .nil 1) .nil 2) .nil 3)] ∧
      insertCalls less (.node (5 : Int) (.node 3 .nil .nil 1) .nil 2) 2 =
        [.rotateRight (.node 5 (.node 3 (.node 2 .nil .nil 1) .nil 2) .nil 3)] := by
  have h := C21_totality less tree5372
    ⟨[.Insert 5, .Insert 3, .Insert 7, .Insert 2], by decide⟩ 5
  exact ⟨⟨[.Insert 5, .Insert 3, .Insert 7, .Insert 2], by decide⟩, h.2.1, h.2.2.1,
    h.2.2.2.2, by decide, by decide⟩

/-! ## The ordering contract -/

/-- Transitivity alone makes the search-tree invariant the same as an ascending
in-order sequence. -/
theorem bst_iff_ascending_of_trans {comp : α → α → Bool}
    (tr : ∀ a b c, comp a b = true → comp b c = true → comp a c = true) (t : Node α) :
    BST comp t ↔ Ascending comp (inorder t) := by
  induction t with
  | nil => simp [BST, Ascending, inorder]
  | node x l r h ihl ihr =>
    simp only [BST, inorder, Ascending, ihl, ihr, List.pairwise_append, List.pairwise_cons,
      List.mem_cons]
    constructor
    · rintro ⟨h1, h2, h3, h4⟩
      refine ⟨h3, ⟨h2, h4⟩, fun a ha b hb => ?_⟩
      rcases hb with e | e
      · exact e ▸ h1 a ha
      · exact tr _ _ _ (h1 a ha) (h2 b e)
    · rintro ⟨h3, ⟨h2, h4⟩, h5⟩
      exact ⟨fun y hy => h5 y hy x (Or.inl rfl), h2, h3, h4⟩

theorem balance_bst_of_trans {comp : α → α → Bool}
    (tr : ∀ a b c, comp a b = true → comp b c = true → comp a c = true) {t t1 : Node α}
    (hb : BST comp t) (h : balance t = some t1) : BST comp t1 := by
  rw [bst_iff_ascending_of_trans tr, balance_inorder h]
  exact (bst_iff_ascending_of_trans tr t).mp hb

/-- Under an irreflexive and transitive ordering `insert` keeps the search-tree
invariant, keeps every stored value, adds at most the inserted value, and leaves a
stored value equivalent to the inserted one. -/
theorem insert_bst_of_trans {comp : α → α → Bool} (irr : ∀ a, comp a a = false)
    (tr : ∀ a b c, comp a b = true → comp b c = true → comp a c = true) (value : α)
    {t t1 : Node α} (hb : BST comp t) (h : insert comp t value = some t1) :
    BST comp t1 ∧ (∀ y ∈ inorder t1, y ∈ inorder t ∨ y = value) ∧
      (∀ y ∈ inorder t, y ∈ inorder t1) ∧ ∃ x ∈ inorder t1, Equiv comp value x := by
  induction t generalizing t1 with
  | nil =>
    cases h
    refine ⟨⟨by simp [inorder], by simp [inorder], trivial, trivial⟩, ?_, ?_, ?_⟩
    · intro y hy
      simpa [inorder] using hy
    · intro y hy
      simp [inorder] at hy
    · exact ⟨value, by simp [inorder], irr value, irr value⟩
  | node x l r ht ihl ihr =>
    obtain ⟨h1, h2, bl, br⟩ := hb
    rw [insert_node] at h
    by_cases c1 : comp value x = true
    · rw [if_pos c1] at h
      obtain ⟨l1, e, eb⟩ := Option.bind_eq_some.mp h
      obtain ⟨bl1, m1, m2, x0, hx0, ex0⟩ := ihl bl e
      have bn : BST comp (.node x l1 r ht) := by
        refine ⟨fun y hy => ?_, h2, bl1, br⟩
        rcases m1 y hy with hy1 | rfl
        · exact h1 y hy1
        · exact c1
      have io := balance_inorder eb
      refine ⟨balance_bst_of_trans tr bn eb, ?_, ?_, ?_⟩
      · intro y hy
        rw [io] at hy
        simp only [inorder, List.mem_append, List.mem_cons] at hy ⊢
        rcases hy with hy | hy | hy
        · rcases m1 y hy with hy1 | rfl
          · exact Or.inl (Or.inl hy1)
          · exact Or.inr rfl
        · exact Or.inl (Or.inr (Or.inl hy))
        · exact Or.inl (Or.inr (Or.inr hy))
      · intro y hy
        rw [io]
        simp only [inorder, List.mem_append, List.mem_cons] at hy ⊢
        rcases hy with hy | hy | hy
        · exact Or.inl (m2 y hy)
        · exact Or.inr (Or.inl hy)
        · exact Or.inr (Or.inr hy)
      · refine ⟨x0, ?_, ex0⟩
        rw [io]
        simp only [inorder, List.mem_append, List.mem_cons]
        exact Or.inl hx0
    · rw [if_neg c1] at h
      by_cases c2 : comp x value = true
      · rw [if_pos c2] at h
        obtain ⟨r1, e, eb⟩ := Option.bind_eq_some.mp h
        obtain ⟨br1, m1, m2, x0, hx0, ex0⟩ := ihr br e
        have bn : BST comp (.node x l r1 ht) := by
          refine ⟨h1, fun y hy => ?_, bl, br1⟩
          rcases m1 y hy with hy1 | rfl
          · exact h2 y hy1
          · exact c2
        have io := balance_inorder eb
        refine ⟨balance_bst_of_trans tr bn eb, ?_, ?_, ?_⟩
        · intro y hy
          rw [io] at hy
          simp only [inorder, List.mem_append, List.mem_cons] at hy ⊢
          rcases hy with hy | hy | hy
          · exact Or.inl (Or.inl hy)
          · exact Or.inl (Or.inr (Or.inl hy))
          · rcases m1 y hy with hy1 | rfl
            · exact Or.inl (Or.inr (Or.inr hy1))
            · exact Or.inr rfl
        · intro y hy
          rw [io]
          simp only [inorder, List.mem_append, List.mem_cons] at hy ⊢
          rcases hy with hy | hy | hy
          · exact Or.inl hy
          · exact Or.inr (Or.inl hy)
          · exact Or.inr (Or.inr (m2 y hy))
        · refine ⟨x0, ?_, ex0⟩
          rw [io]
          simp only [inorder, List.mem_append, List.mem_cons]
          exact Or.inr (Or.inr hx0)
      · rw [if_neg c2] at h
        cases h
        simp only [Bool.not_eq_true] at c1 c2
        exact ⟨⟨h1, h2, bl, br⟩, fun y hy => Or.inl hy, fun y hy => hy,
          x, by simp [inorder], c1, c2⟩

/-- On a search tree under a transitive ordering `Contains` finds every value that is
equivalent to a stored one. -/
theorem contains_of_equiv_of_trans {comp : α → α → Bool}
    (tr : ∀ a b c, comp a b = true → comp b c = true → comp a c = true) (value : α)
    {t : Node α} (hb : BST comp t) (hx : ∃ x ∈ inorder t, Equiv comp value x) :
    Contains comp t value = true := by
  induction t with
  | nil =>
    obtain ⟨x, hx, -⟩ := hx
    simp [inorder] at hx
  | node y l r ht ihl ihr =>
    obtain ⟨h1, h2, bl, br⟩ := hb
    obtain ⟨x, hx, e1, e2⟩ := hx
    simp only [inorder, List.mem_append, List.mem_cons] at hx
    rw [Contains]
    by_cases c1 : comp value y = true
    · simp only [c1, Bool.not_true, Bool.false_and, Bool.false_eq_true, if_false, if_true]
      rcases hx with hx | rfl | hx
      · exact ihl bl ⟨x, hx, e1, e2⟩
      · rw [c1] at e1
        cases e1
      · rw [tr _ _ _ c1 (h2 x hx)] at e1
        cases e1
    · simp only [Bool.not_eq_true] at c1
      by_cases c2 : comp y value = true
      · simp only [c1, c2, Bool.not_false, Bool.not_true, Bool.and_false, Bool.false_eq_true,
          if_false]
        rcases hx with hx | rfl | hx
        · rw [tr _ _ _ (h1 x hx) c2] at e2
          cases e2
        · rw [c2] at e2
          cases e2
        · exact ihr br ⟨x, hx, e1, e2⟩
      · simp only [Bool.not_eq_true] at c2
        simp only [c1, c2, Bool.not_false, Bool.and_self, if_true]

/-- A loop of insertions under an irreflexive and transitive ordering runs to
completion and leaves, for each inserted value, a stored value equivalent to it. -/
theorem insertAll_of_trans {comp : α → α → Bool} (irr : ∀ a, comp a a = false)
    (tr : ∀ a b c, comp a b = true → comp b c = true → comp a c = true) (values : List α)
    (t : Node α) (ha : AVL t) (hb : BST comp t) :
    ∃ r, insertAll comp values t = some r ∧ AVL r ∧ BST comp r ∧
      (∀ y ∈ inorder t, y ∈ inorder r) ∧
      ∀ v ∈ values, ∃ x ∈ inorder r, Equiv comp v x := by
  induction values generalizing t with
  | nil => exact ⟨t, rfl, ha, hb, fun y hy => hy, fun v hv => by simp at hv⟩
  | cons v vs ih =>
    obtain ⟨t1, e, a1, -, -⟩ := insert_avl comp v t ha
    obtain ⟨b1, -, m2, x0, hx0, ex0⟩ := insert_bst_of_trans irr tr v hb e
    obtain ⟨r, er, ar, br, mr, hr⟩ := ih t1 a1 b1
    refine ⟨r, ?_, ar, br, fun y hy => mr y (m2 y hy), ?_⟩
    · rw [insertAll_cons, Insert, e, Option.some_bind, er]
    · intro w hw
      rcases List.mem_cons.mp hw with rfl | hw
      · exact ⟨x0, mr x0 hx0, ex0⟩
      · exact hr w hw

/-- C22, as stated, fails: the ordering `before36` is irreflexive and asymmetric, and
after `Insert` of 5, 3, 6, 2, 4, 1 into the empty tree built with it (the last one
rotates the root to the right, which puts 3 above 6) the value 6 is stored in the tree
but `Contains(6)` is false. -/
theorem C22_contract_counterexample :
    (∀ a, before36 a a = false) ∧
      (∀ a b, before36 a b = true → before36 b a = false) ∧
      ∃ t, insertAll before36 [5, 3, 6, 2, 4, 1] .nil = some t ∧
        6 ∈ InOrder t ∧ Contains before36 t 6 = false := by
  refine ⟨fun a => ?_, fun a b h => ?_, ?_⟩
  · simp only [before36]
    split_ifs <;> first | omega | simp
  · simp only [before36] at h ⊢
    split_ifs at h ⊢
    all_goals first | omega | (simp_all; done) | (simp_all; omega)
  · exact ⟨_, rfl, by decide, by decide⟩

/-- C22, amended: for every ordering that is irreflexive and transitive (hence
asymmetric: a strict partial order) and every sequence of `Insert` calls on the empty
tree built with it, the calls run to completion and `Contains(v)` is true for every
inserted value `v`. -/
theorem C22_contract_transitive (comp : α → α → Bool) (irr : ∀ a, comp a a = false)
    (tr : ∀ a b c, comp a b = true → comp b c = true → comp a c = true)
    (values : List α) :
    ∃ t, insertAll comp values .nil = some t ∧ ∀ v ∈ values, Contains comp t v = true := by
  obtain ⟨r, e, -, br, -, hr⟩ := insertAll_of_trans irr tr values .nil trivial trivial
  exact ⟨r, e, fun v hv => contains_of_equiv_of_trans tr v br (hr v hv)⟩

/-- Witness of the amended C22 with an ordering that is a strict partial order but not
a strict weak order: under `wellBefore` the value 1 is equivalent to 0 and to 2, which
are not equivalent; after `Insert` of 0, 1, 2, 4 every one of them is found. -/
theorem C22_contract_transitive_witness :
    (∀ a, wellBefore a a = false) ∧
      (∀ a b c, wellBefore a b = true → wellBefore b c = true → wellBefore a c = true) ∧
      Equiv wellBefore 1 0 ∧ Equiv wellBefore 1 2 ∧ ¬ Equiv wellBefore 0 2 ∧
      ∃ t, insertAll wellBefore [0, 1, 2, 4] .nil = some t ∧
        ∀ v ∈ [0, 1, 2, 4], Contains wellBefore t v = true :=
  ⟨fun a => by simp [wellBefore],
    fun a b c h1 h2 => by
      simp only [wellBefore, decide_eq_true_eq] at h1 h2 ⊢
      omega,
    by decide, by decide, by decide,
    C22_contract_transitive wellBefore (fun a => by simp [wellBefore])
      (fun a b c h1 h2 => by
        simp only [wellBefore, decide_eq_true_eq] at h1 h2 ⊢
        omega)
      [0, 1, 2, 4]⟩

/-! ## Level-order traversal -/

theorem atDepth_nil (d : Nat) : atDepth d (.nil : Node α) = [] := by
  cases d <;> rfl

theorem atDepth_zero (v : α) (l r : Node α) (h : Int) : atDepth 0 (.node v l r h) = [v] :=
  rfl

theorem atDepth_succ (d : Nat) (v : α) (l r : Node α) (h : Int) :
    atDepth (d + 1) (.node v l r h) = atDepth d l ++ atDepth d r := rfl

/-- No node lies at a depth that reaches the height of the tree. -/
theorem atDepth_of_height_le (t : Node α) (d : Nat) (h : realHeight t ≤ d) :
    atDepth d t = [] := by
  induction t generalizing d with
  | nil => exact atDepth_nil d
  | node v l r ht ihl ihr =>
    simp only [realHeight] at h
    obtain ⟨k, rfl⟩ : ∃ k, d = k + 1 := ⟨d - 1, by omega⟩
    rw [atDepth_succ, ihl k (by omega), ihr k (by omega)]
    rfl

/-- Levels past the height add nothing. -/
theorem flatMap_atDepth_stable (t : Node α) (n : Nat) (h : realHeight t ≤ n) :
    (List.range n).flatMap (fun d => atDepth d t) = breadthFirst t := by
  induction n with
  | zero =>
    have : realHeight t = 0 := by omega
    rw [breadthFirst, this]
  | succ n ih =>
    by_cases c : realHeight t ≤ n
    · rw [List.range_succ, List.flatMap_append, ih c, List.flatMap_singleton,
        atDepth_of_height_le t n c, List.append_nil]
    · have : realHeight t = n + 1 := by omega
      rw [breadthFirst, this]

/-- Moving the first tree of a queue level by level: its level `k + 1` follows level `k`
of the rest. -/
theorem flatMap_shift {β : Type} (A Q : Nat → List β) (n : Nat) :
    (List.range n).flatMap (fun k => A k ++ Q k) ++ A n =
      A 0 ++ (List.range n).flatMap (fun k => Q k ++ A (k + 1)) := by
  induction n with
  | zero => simp
  | succ n ih =>
    rw [List.range_succ, List.flatMap_append, List.flatMap_append, List.flatMap_singleton,
      List.flatMap_singleton, ← List.append_assoc (A 0), ← ih]
    simp only [List.append_assoc]

theorem push_eq (q : List (Node α)) (c : Node α) : push q c = q ++ push [] c := by
  cases c <;> simp [push]

theorem flatMap_push (q : List (Node α)) (c : Node α) (d : Nat) :
    (push q c).flatMap (atDepth d) = q.flatMap (atDepth d) ++ atDepth d c := by
  cases c with
  | nil => simp [push, atDepth_nil]
  | node v l r h => simp [push]

theorem mem_push {q : List (Node α)} {c t : Node α} (h : t ∈ push q c) :
    t ∈ q ∨ (t = c ∧ c ≠ .nil) := by
  cases c with
  | nil => exact Or.inl h
  | node v l r ht =>
    simp only [push, List.mem_append, List.mem_singleton] at h
    rcases h with h | h
    · exact Or.inl h
    · exact Or.inr ⟨h, by simp⟩

theorem size_push (q : List (Node α)) (c : Node α) :
    ((push q c).map size).sum = (q.map size).sum + size c := by
  cases c with
  | nil => simp [push, size]
  | node v l r h => simp [push]

/-- The loop of `LevelOrder`, started on a queue of present nodes, ends after one
evaluation of its condition per node and one more, and visits the queue level by level:
all roots, then all nodes at depth 1 in the order of their trees, and so on. -/
theorem levelOrderLoop_spec (fuel : Nat) :
    ∀ (q : List (Node α)) (out : List α) (n : Nat), (∀ t ∈ q, t ≠ .nil) →
      (∀ t ∈ q, realHeight t ≤ n) → (q.map size).sum < fuel →
      levelOrderLoop fuel q out =
        some (out ++ (List.range n).flatMap (fun d => q.flatMap (atDepth d))) := by
  induction fuel with
  | zero =>
    intro q out n _ _ hs
    omega
  | succ fuel ih =>
    intro q out n hq hn hs
    cases q with
    | nil =>
      simp [levelOrderLoop]
    | cons t q =>
      cases t with
      | nil => exact absurd rfl (hq .nil (List.mem_cons_self _ _))
      | node v l r ht =>
        have hnt := hn _ (List.mem_cons_self _ _)
        simp only [realHeight] at hnt
        have hq1 : ∀ t ∈ push (push q l) r, t ≠ .nil := by
          intro t h
          rcases mem_push h with h | ⟨rfl, h⟩
          · rcases mem_push h with h | ⟨rfl, h⟩
            · exact hq t (List.mem_cons_of_mem _ h)
            · exact h
          · exact h
        have hn1 : ∀ t ∈ push (push q l) r, realHeight t ≤ n := by
          intro t h
          rcases mem_push h with h | ⟨rfl, -⟩
          · rcases mem_push h with h | ⟨rfl, -⟩
            · exact hn t (List.mem_cons_of_mem _ h)
            · omega
          · omega
        have hs1 : ((push (push q l) r).map size).sum < fuel := by
          rw [size_push, size_push]
          simp only [List.map_cons, List.sum_cons, size] at hs
          omega
        rw [levelOrderLoop, ih _ _ n hq1 hn1 hs1]
        have sh := flatMap_shift (fun k => atDepth k (.node v l r ht))
          (fun k => q.flatMap (atDepth k)) n
        rw [atDepth_of_height_le (.node v l r ht) n (by simp only [realHeight]; omega),
          List.append_nil] at sh
        simp only [List.flatMap_cons, flatMap_push, atDepth_succ, atDepth_zero,
          List.append_assoc] at sh ⊢
        rw [sh]

/-- The levels of a tree, one after the other, hold the values of the in-order
sequence, each as often as it is stored. -/
theorem flatMap_atDepth_perm (t : Node α) :
    ∀ n, realHeight t ≤ n → ((List.range n).flatMap (fun d => atDepth d t)).Perm (inorder t) := by
  induction t with
  | nil =>
    intro n _
    simp [atDepth_nil, inorder]
  | node v l r ht ihl ihr =>
    intro n hn
    simp only [realHeight] at hn
    obtain ⟨m, rfl⟩ : ∃ m, n = m + 1 := ⟨n - 1, by omega⟩
    rw [List.range_succ_eq_map, List.flatMap_cons, List.flatMap_map, atDepth_zero]
    simp only [Function.comp_def, Nat.succ_eq_add_one, atDepth_succ, inorder,
      List.singleton_append]
    refine List.Perm.trans (List.Perm.cons v ?_) List.perm_middle.symm
    exact (List.flatMap_append_perm _ _ _).symm.trans
      (List.Perm.append (ihl m (by omega)) (ihr m (by omega)))

/-- C23. Level-order traversal: for every tree, the loop of `LevelOrder` ends (one
evaluation of its condition per node and one more) and hands the visitor the values in
breadth-first order: the values at depth 0, 1, 2, ... one level after the other, each
level from left to right, the root first.  The visited values are a permutation of the
in-order sequence, so every stored value is visited exactly once, and nothing is
visited on the empty tree. -/
theorem C23_levelOrder (t : Node α) :
    (∀ fuel, size t < fuel → LevelOrder fuel t = some (breadthFirst t)) ∧
      (breadthFirst t).Perm (InOrder t) ∧
      (∀ fuel, LevelOrder fuel (.nil : Node α) = some []) := by
  refine ⟨fun fuel hf => ?_, flatMap_atDepth_perm t _ (le_refl _), fun _ => rfl⟩
  cases t with
  | nil => rfl
  | node v l r h =>
    rw [LevelOrder, levelOrderLoop_spec fuel [.node v l r h] [] (realHeight (.node v l r h))
      (by simp) (by simp) (by simpa using hf)]
    simp only [List.flatMap_cons, List.flatMap_nil, List.append_nil, List.nil_append,
      breadthFirst]

/-- Witness of C23: the tree built from 5, 3, 7, 2 has four nodes, and five evaluations
of the loop condition visit 5, 3, 7, 2: the root, its two children, then the leaf. -/
theorem C23_levelOrder_witness :
    size tree5372 < 5 ∧ LevelOrder 5 tree5372 = some [5, 3, 7, 2] ∧
      breadthFirst tree5372 = [5, 3, 7, 2] ∧ InOrder tree5372 = [2, 3, 5, 7] := by
  have h := (C23_levelOrder tree5372).1 5 (by decide)
  exact ⟨by decide, h.trans (by decide), by decide, by decide⟩

end AVLTree
